import Mathlib

/-!
# quad-art: adaptive quad-tree decomposition of an image

A shallow embedding of `quad-art.c` and theorems about it.

Modelling conventions
* C `int` is `Int`.  The coordinates and areas of rectangles inside an image
  stay in the range of `int` (an area outside it needs 2^31 pixels), so they are
  computed in `Int`.  The sums of `mean_color` leave the range from about 8.4
  million pixels on: they are wrapped to 32 bits (`wrap_int`), and the division
  by `n = 0`, which kills the program, makes `mean_color` and `render` return
  `none`.
* C `double` is `Rat`: scores are computed in exact arithmetic, rounding is not
  modelled.  The only place where the two differ in kind is a division by zero
  (`0/0` is NaN in C and `0` here), which needs a rectangle of area zero.
* `struct quadnode *` is the type `quadnode`: either `NULL` or an owned node with
  its rectangle, its score and its four child pointers.  A pointer into the
  tree (the `maxnode` of `find_biggest_dfs`) is the path of child indices that
  leads from the root to the node.
* a function that updates memory through a pointer returns the updated value.
* the output raster is only ever handed to OpenCV (`cvSetImageROI`, `cvSet`,
  `cvLine`), which is not part of the program: those calls are modelled by their
  effect on the pixels of the raster.
-/

namespace QuadArt

/-! ## Data model -/

/-- The OpenCV rectangle `CvRect`: four `int` fields. -/
structure CvRect where
  x : Int
  y : Int
  width : Int
  height : Int
  deriving DecidableEq

/-- The source's `struct quadscore`, one `double`. -/
structure quadscore where
  var : Rat
  deriving DecidableEq

/-- The source's `struct quadnode *`: `NULL`, or a node that owns four children. -/
inductive quadnode where
  | NULL : quadnode
  | node (rect : CvRect) (score : quadscore) (c0 c1 c2 c3 : quadnode) : quadnode
  deriving DecidableEq

/-- The part of `IplImage` that the program reads: the size, the row stride in
bytes and the bytes themselves (three interleaved 8-bit channels per pixel). -/
structure IplImage where
  width : Int
  height : Int
  widthStep : Int
  imageData : List (Fin 256)
  deriving DecidableEq

/-- A pointer to a node inside a tree: the child indices from the root. -/
abbrev NodePath := List Nat

/-! ## The program -/

/-- The source's `empty_score`. -/
def empty_score : quadscore := { var := 0 }

/-- The source's `quadnode_new`: a fresh node with the empty score and no children. -/
def quadnode_new (rect : CvRect) : quadnode :=
  quadnode.node rect empty_score quadnode.NULL quadnode.NULL quadnode.NULL quadnode.NULL

/-- The source's `sub_rect`.  The `switch` has no `default`: for another index
the C function returns an indeterminate rectangle, here the zero rectangle. -/
def sub_rect (rect : CvRect) (i : Int) : CvRect :=
  let lw := rect.width >>> (1 : Nat)
  let lh := rect.height >>> (1 : Nat)
  if i = 3 then
    { x := rect.x + lw, y := rect.y + lh, width := rect.width - lw, height := rect.height - lh }
  else if i = 2 then
    { x := rect.x, y := rect.y + lh, width := lw, height := rect.height - lh }
  else if i = 1 then
    { x := rect.x + lw, y := rect.y, width := rect.width - lw, height := lh }
  else if i = 0 then
    { x := rect.x, y := rect.y, width := lw, height := lh }
  else
    { x := 0, y := 0, width := 0, height := 0 }

/-- Truth value of a pointer in a C condition. -/
def quadnode.nonNull : quadnode → Bool
  | quadnode.NULL => false
  | quadnode.node _ _ _ _ _ _ => true

/-- The expression `node->children[i]`; dereferencing `NULL` or indexing outside
`0..3` is undefined in C and gives `NULL` here. -/
def quadnode.children : quadnode → Nat → quadnode
  | quadnode.node _ _ c0 _ _ _, 0 => c0
  | quadnode.node _ _ _ c1 _ _, 1 => c1
  | quadnode.node _ _ _ _ c2 _, 2 => c2
  | quadnode.node _ _ _ _ _ c3, 3 => c3
  | _, _ => quadnode.NULL

/-- The source's `quadnode_isleaf`: slots 0, 1, 1 and 3 are tested, slot 2 is not. -/
def quadnode_isleaf (node : quadnode) : Bool :=
  !((node.children 0).nonNull || (node.children 1).nonNull ||
    (node.children 1).nonNull || (node.children 3).nonNull)

/-- The source's `quadnode_split`: returns the status (always 0) and the node
after the call.  Called on `NULL` the C code dereferences it; here nothing changes. -/
def quadnode_split (node : quadnode) : Int × quadnode :=
  match node with
  | quadnode.NULL => (0, quadnode.NULL)
  | quadnode.node rect score c0 c1 c2 c3 =>
    if quadnode_isleaf (quadnode.node rect score c0 c1 c2 c3) then
      (0, quadnode.node rect score
            (quadnode_new (sub_rect rect 0)) (quadnode_new (sub_rect rect 1))
            (quadnode_new (sub_rect rect 2)) (quadnode_new (sub_rect rect 3)))
    else
      (0, quadnode.node rect score c0 c1 c2 c3)

/-- The source's `maxd`. -/
def maxd (a b : Rat) : Rat := if a > b then a else b

/-- The byte `row[k]` where `row = imageData + y * widthStep`.  Reading outside
the buffer is undefined in C and gives 0 here. -/
def IplImage.byteAt (img : IplImage) (y k : Int) : Rat :=
  ((img.imageData.getD (y * img.widthStep + k).toNat 0).val : Rat)

/-- The values of a loop `for (int v = a; v < a + n; ++v)`, in order. -/
def loopRange (a n : Int) : List Int :=
  (List.range n.toNat).map (fun k => a + (k : Int))

/-- The two nested loops of `variance` and `mean_color`: the sum of `f y x` over
the rows `y` and the columns `x` of the rectangle, in the loop order. -/
def sumOver (rect : CvRect) (f : Int → Int → Rat) : Rat :=
  (loopRange rect.y rect.height).foldl
    (fun acc y => (loopRange rect.x rect.width).foldl (fun acc2 x => acc2 + f y x) acc) 0

/-- The source's `variance`. -/
def variance (img : IplImage) (rect : CvRect) : Rat :=
  let meanA0 := sumOver rect (fun y x => img.byteAt y (3 * x))
  let meanB0 := sumOver rect (fun y x => img.byteAt y (3 * x + 1))
  let meanC0 := sumOver rect (fun y x => img.byteAt y (3 * x + 2))
  let n : Rat := ((rect.width * rect.height : Int) : Rat)
  let meanA := meanA0 / n
  let meanB := meanB0 / n
  let meanC := meanC0 / n
  let varA := sumOver rect
    (fun y x => (img.byteAt y (3 * x) - meanA) * (img.byteAt y (3 * x) - meanA))
  let varB := sumOver rect
    (fun y x => (img.byteAt y (3 * x + 1) - meanB) * (img.byteAt y (3 * x + 1) - meanB))
  let varC := sumOver rect
    (fun y x => (img.byteAt y (3 * x + 2) - meanC) * (img.byteAt y (3 * x + 2) - meanC))
  maxd varA (maxd varB varC) / n

/-- The source's `node_score`. -/
def node_score (img : IplImage) (rect : CvRect) : quadscore :=
  { var := variance img rect }

/-- The source's `score_lt`. -/
def score_lt (a b : quadscore) : Bool := decide (a.var < b.var)

/-- The source's `rect_size`. -/
def rect_size (rect : CvRect) : Int := rect.width * rect.height

/-- The source's `find_biggest_dfs`.  `here` is the path of `root`; the pair is
`(*maxnode, *maxscore)` before the call, the result is the pair after it. -/
def find_biggest_dfs (root : quadnode) (here : NodePath)
    (st : Option NodePath × quadscore) : Option NodePath × quadscore :=
  match root with
  | quadnode.NULL => st
  | quadnode.node rect score c0 c1 c2 c3 =>
    if quadnode_isleaf (quadnode.node rect score c0 c1 c2 c3) && decide (rect_size rect > 16) then
      if score_lt st.2 score then (some here, score) else st
    else
      let st0 := find_biggest_dfs c0 (here ++ [0]) st
      let st1 := find_biggest_dfs c1 (here ++ [1]) st0
      let st2 := find_biggest_dfs c2 (here ++ [2]) st1
      find_biggest_dfs c3 (here ++ [3]) st2

/-- The source's `find_biggest`: the selected node, or `none` for the C `NULL`. -/
def find_biggest (root : quadnode) : Option NodePath :=
  match root with
  | quadnode.NULL => none
  | quadnode.node rect score c0 c1 c2 c3 =>
    (find_biggest_dfs (quadnode.node rect score c0 c1 c2 c3) [] (none, empty_score)).1

/-- The statement `node->children[i]->score = node_score(img, node->children[i]->rect)`
seen from the child: its score is recomputed from its own rectangle. -/
def rescore (img : IplImage) : quadnode → quadnode
  | quadnode.NULL => quadnode.NULL
  | quadnode.node rect _ c0 c1 c2 c3 => quadnode.node rect (node_score img rect) c0 c1 c2 c3

/-- The body of `split_once` after the node was found, seen from that node:
`quadnode_split(node)` and then the loop that scores the four children. -/
def split_node (img : IplImage) (node : quadnode) : quadnode :=
  match (quadnode_split node).2 with
  | quadnode.NULL => quadnode.NULL
  | quadnode.node rect score c0 c1 c2 c3 =>
    quadnode.node rect score (rescore img c0) (rescore img c1) (rescore img c2) (rescore img c3)

/-- The subtree that the pointer `p` designates (`NULL` when the path leaves the tree). -/
def quadnode.at : quadnode → NodePath → quadnode
  | t, [] => t
  | t, i :: p => (t.children i).at p

/-- The tree after the node designated by `p` was updated in place by `f`. -/
def quadnode.update : quadnode → NodePath → (quadnode → quadnode) → quadnode
  | t, [], f => f t
  | quadnode.NULL, _ :: _, _ => quadnode.NULL
  | quadnode.node rect score c0 c1 c2 c3, i :: p, f =>
    if i = 0 then quadnode.node rect score (c0.update p f) c1 c2 c3
    else if i = 1 then quadnode.node rect score c0 (c1.update p f) c2 c3
    else if i = 2 then quadnode.node rect score c0 c1 (c2.update p f) c3
    else if i = 3 then quadnode.node rect score c0 c1 c2 (c3.update p f)
    else quadnode.node rect score c0 c1 c2 c3

/-- The source's `split_once`: the returned status and the tree after the call. -/
def split_once (root : quadnode) (img : IplImage) : Int × quadnode :=
  match find_biggest root with
  | none => (-1, root)
  | some p => (0, root.update p (split_node img))

/-- The source's `get_rect`: the rectangle that covers the whole image. -/
def get_rect (img : IplImage) : CvRect :=
  { x := 0, y := 0, width := img.width, height := img.height }

/-- The tree `main` starts from: `quadnode_new(get_rect(img))` whose score is then
set to `node_score(img, root->rect)`. -/
def main_root (img : IplImage) : quadnode :=
  rescore img (quadnode_new (get_rect img))

/-- The loop of `main` without the rendering: at most `iteration_times` calls of
`split_once`, stopping at the first one that returns -1. -/
def main_loop (img : IplImage) : Nat → quadnode → quadnode
  | 0, root => root
  | n + 1, root =>
    if (split_once root img).1 = -1 then root
    else main_loop img n (split_once root img).2

/-! ## The renderer -/

/-- The source's `struct color`: three `unsigned char`. -/
structure color where
  r : Nat
  g : Nat
  b : Nat
  deriving DecidableEq

/-- The conversion of an `int` to `unsigned char`. -/
def to_uchar (v : Int) : Nat := (v % 256).toNat

/-- The byte `row[k]` as the `int` it is promoted to in `mean_color`. -/
def IplImage.ucharAt (img : IplImage) (y k : Int) : Int :=
  ((img.imageData.getD (y * img.widthStep + k).toNat 0).val : Int)

/-- The value that an `int` holds after an arithmetic operation whose exact
result is `v`: `v` itself inside the range of `int`, and `v` wrapped to 32 bits
in two's complement outside it (signed overflow is undefined in C; the wrap is
what the compiled program does). -/
def wrap_int (v : Int) : Int := (v + 2147483648) % 4294967296 - 2147483648

/-- The two nested loops of `mean_color` with an `int` accumulator. -/
def sumOverInt (rect : CvRect) (f : Int → Int → Int) : Int :=
  (loopRange rect.y rect.height).foldl
    (fun acc y =>
      (loopRange rect.x rect.width).foldl (fun acc2 x => wrap_int (acc2 + f y x)) acc) 0

/-- The source's `mean_color`.  The division is the C division of `int`; for
`n = 0` it kills the program, which is the result `none`.  (The other trap of
the division, `INT_MIN / -1`, needs `n = -1` after a non-empty loop, that is a
rectangle of 2^32 - 1 pixels.) -/
def mean_color (img : IplImage) (rect : CvRect) : Option color :=
  let b := sumOverInt rect (fun y x => img.ucharAt y (x * 3))
  let g := sumOverInt rect (fun y x => img.ucharAt y (x * 3 + 1))
  let r := sumOverInt rect (fun y x => img.ucharAt y (x * 3 + 2))
  let n := wrap_int (rect.width * rect.height)
  if n = 0 then none
  else some { r := to_uchar (r.tdiv n), g := to_uchar (g.tdiv n), b := to_uchar (b.tdiv n) }

/-- One pixel of the output raster: its three channels in the order of the raster. -/
structure Pixel where
  c0 : Nat
  c1 : Nat
  c2 : Nat
  deriving DecidableEq

/-- The output raster as the OpenCV calls see it: its size and, for the column
`x` and the row `y`, the pixel there.  The program never reads or writes the
bytes of the output itself, it only passes the raster to OpenCV. -/
structure Raster where
  width : Int
  height : Int
  pix : Int → Int → Pixel

/-- Modelled from the spec: the OpenCV calls `cvSetImageROI`, `cvSet` and
`cvResetImageROI` of `set_color`, which are not part of the repository: every
pixel of the raster that lies in the region `roi` is filled with the solid
colour `p`, the other pixels are not touched. -/
def cvSet_roi (img : Raster) (roi : CvRect) (p : Pixel) : Raster :=
  { img with
    pix := fun x y =>
      if roi.x ≤ x ∧ x < roi.x + roi.width ∧ roi.y ≤ y ∧ y < roi.y + roi.height ∧
          0 ≤ x ∧ x < img.width ∧ 0 ≤ y ∧ y < img.height then p
      else img.pix x y }

/-- Modelled from the spec: the OpenCV call `cvLine` with thickness 1, which is
not part of the repository, for the horizontal and vertical segments that
`render` draws: every pixel of the raster on the segment from `(x1, y1)` to
`(x2, y2)`, both ends included, gets the colour `p`. -/
def cvLine (img : Raster) (x1 y1 x2 y2 : Int) (p : Pixel) : Raster :=
  { img with
    pix := fun x y =>
      if min x1 x2 ≤ x ∧ x ≤ max x1 x2 ∧ min y1 y2 ≤ y ∧ y ≤ max y1 y2 ∧
          0 ≤ x ∧ x < img.width ∧ 0 ≤ y ∧ y < img.height then p
      else img.pix x y }

/-- The source's `set_color`: the region is moved by one pixel from the top and
the left and filled with `cvScalar(c.b, c.g, c.r, 0)`. -/
def set_color (img : Raster) (roi : CvRect) (c : color) : Raster :=
  let r : CvRect :=
    { x := roi.x + 1, y := roi.y + 1, width := roi.width - 1, height := roi.height - 1 }
  cvSet_roi img r { c0 := c.b, c1 := c.g, c2 := c.r }

/-- The marker colour `cvScalar(0, 0, 0, 0)` of the divider lines. -/
def black : Pixel := { c0 := 0, c1 := 0, c2 := 0 }

/-- The source's `render`: the output raster after the call, or `none` when the
program is killed on the way (by `mean_color`). -/
def render : quadnode → IplImage → Raster → Option Raster
  | quadnode.NULL, _, out => some out
  | quadnode.node rect score c0 c1 c2 c3, src, out =>
    if quadnode_isleaf (quadnode.node rect score c0 c1 c2 c3) then
      (mean_color src rect).map (fun c => set_color out rect c)
    else
      let out1 := cvLine out (rect.x + rect.width.tdiv 2) rect.y
        (rect.x + rect.width.tdiv 2) (rect.y + rect.height) black
      let out2 := cvLine out1 rect.x (rect.y + rect.height.tdiv 2)
        (rect.x + rect.width) (rect.y + rect.height.tdiv 2) black
      (render c0 src out2).bind fun o0 =>
        (render c1 src o0).bind fun o1 =>
          (render c2 src o1).bind fun o2 => render c3 src o2

/-! ## The same program with a test of all four child slots -/

/-- The leaf test that looks at the four child slots 0, 1, 2 and 3. -/
def quadnode_isleaf_all (node : quadnode) : Bool :=
  !((node.children 0).nonNull || (node.children 1).nonNull ||
    (node.children 2).nonNull || (node.children 3).nonNull)

/-- `quadnode_split` with the test of all four slots. -/
def quadnode_split_all (node : quadnode) : Int × quadnode :=
  match node with
  | quadnode.NULL => (0, quadnode.NULL)
  | quadnode.node rect score c0 c1 c2 c3 =>
    if quadnode_isleaf_all (quadnode.node rect score c0 c1 c2 c3) then
      (0, quadnode.node rect score
            (quadnode_new (sub_rect rect 0)) (quadnode_new (sub_rect rect 1))
            (quadnode_new (sub_rect rect 2)) (quadnode_new (sub_rect rect 3)))
    else
      (0, quadnode.node rect score c0 c1 c2 c3)

/-- `find_biggest_dfs` with the test of all four slots. -/
def find_biggest_dfs_all (root : quadnode) (here : NodePath)
    (st : Option NodePath × quadscore) : Option NodePath × quadscore :=
  match root with
  | quadnode.NULL => st
  | quadnode.node rect score c0 c1 c2 c3 =>
    if quadnode_isleaf_all (quadnode.node rect score c0 c1 c2 c3)
        && decide (rect_size rect > 16) then
      if score_lt st.2 score then (some here, score) else st
    else
      let st0 := find_biggest_dfs_all c0 (here ++ [0]) st
      let st1 := find_biggest_dfs_all c1 (here ++ [1]) st0
      let st2 := find_biggest_dfs_all c2 (here ++ [2]) st1
      find_biggest_dfs_all c3 (here ++ [3]) st2

/-- `find_biggest` with the test of all four slots. -/
def find_biggest_all (root : quadnode) : Option NodePath :=
  match root with
  | quadnode.NULL => none
  | quadnode.node rect score c0 c1 c2 c3 =>
    (find_biggest_dfs_all (quadnode.node rect score c0 c1 c2 c3) [] (none, empty_score)).1

/-- `render` with the test of all four slots. -/
def render_all : quadnode → IplImage → Raster → Option Raster
  | quadnode.NULL, _, out => some out
  | quadnode.node rect score c0 c1 c2 c3, src, out =>
    if quadnode_isleaf_all (quadnode.node rect score c0 c1 c2 c3) then
      (mean_color src rect).map (fun c => set_color out rect c)
    else
      let out1 := cvLine out (rect.x + rect.width.tdiv 2) rect.y
        (rect.x + rect.width.tdiv 2) (rect.y + rect.height) black
      let out2 := cvLine out1 rect.x (rect.y + rect.height.tdiv 2)
        (rect.x + rect.width) (rect.y + rect.height.tdiv 2) black
      (render_all c0 src out2).bind fun o0 =>
        (render_all c1 src o0).bind fun o1 =>
          (render_all c2 src o1).bind fun o2 => render_all c3 src o2

/-! ## Vocabulary of the properties -/

/-- The expression `node->rect` (the zero rectangle for `NULL`). -/
def quadnode.rect : quadnode → CvRect
  | quadnode.NULL => { x := 0, y := 0, width := 0, height := 0 }
  | quadnode.node rect _ _ _ _ _ => rect

/-- The expression `node->score` (the empty score for `NULL`). -/
def quadnode.score : quadnode → quadscore
  | quadnode.NULL => empty_score
  | quadnode.node _ score _ _ _ _ => score

/-- A single node with the given rectangle and score and four empty child slots. -/
def leaf (rect : CvRect) (score : quadscore) : quadnode :=
  quadnode.node rect score quadnode.NULL quadnode.NULL quadnode.NULL quadnode.NULL

/-- A leaf in the sense of the data model: a node all of whose child slots are empty. -/
def quadnode.hasNoChildren : quadnode → Bool
  | quadnode.node _ _ quadnode.NULL quadnode.NULL quadnode.NULL quadnode.NULL => true
  | _ => false

/-- The pixel `(px, py)` is one of those that the loops over `rect` visit. -/
def CvRect.contains (rect : CvRect) (px py : Int) : Prop :=
  rect.x ≤ px ∧ px < rect.x + rect.width ∧ rect.y ≤ py ∧ py < rect.y + rect.height

instance (rect : CvRect) (px py : Int) : Decidable (rect.contains px py) := by
  unfold CvRect.contains; infer_instance

/-- A leaf of a tree as the traversal meets it: where it is, its rectangle, its score. -/
structure LeafInfo where
  path : NodePath
  rect : CvRect
  score : quadscore
  deriving DecidableEq

/-- The leaves of the tree in pre-order, children in the order 0, 1, 2, 3;
`here` is the path of the root of the subtree. -/
def quadnode.leaves : quadnode → NodePath → List LeafInfo
  | quadnode.NULL, _ => []
  | quadnode.node rect score c0 c1 c2 c3, here =>
    if (quadnode.node rect score c0 c1 c2 c3).hasNoChildren then
      [{ path := here, rect := rect, score := score }]
    else
      c0.leaves (here ++ [0]) ++ c1.leaves (here ++ [1]) ++
        c2.leaves (here ++ [2]) ++ c3.leaves (here ++ [3])

/-- The number of nodes of the tree. -/
def quadnode.size : quadnode → Nat
  | quadnode.NULL => 0
  | quadnode.node _ _ c0 c1 c2 c3 => 1 + c0.size + c1.size + c2.size + c3.size

/-- The sum of `rect_size` over the leaves. -/
def leaf_area (t : quadnode) : Int :=
  ((t.leaves []).map (fun l => rect_size l.rect)).sum

/-- The shape invariant of the data model: a tree is a node, and every node has
either no child or four children. -/
inductive FourOrNone : quadnode → Prop
  | single (rect : CvRect) (score : quadscore) : FourOrNone (leaf rect score)
  | inner (rect : CvRect) (score : quadscore) (c0 c1 c2 c3 : quadnode) :
      FourOrNone c0 → FourOrNone c1 → FourOrNone c2 → FourOrNone c3 →
      FourOrNone (quadnode.node rect score c0 c1 c2 c3)

/-- The rectangle invariant of a tree: every node has a rectangle of non-negative
width and height, and a node that has children has an area above the threshold. -/
def quadnode.rectsOK : quadnode → Prop
  | quadnode.NULL => True
  | quadnode.node rect score c0 c1 c2 c3 =>
    (0 ≤ rect.width ∧ 0 ≤ rect.height ∧
      ((quadnode.node rect score c0 c1 c2 c3).hasNoChildren = false → 16 < rect_size rect)) ∧
    c0.rectsOK ∧ c1.rectsOK ∧ c2.rectsOK ∧ c3.rectsOK

/-- The tree after `k` calls of `split_once` that all returned 0, starting from
`root`; `none` when one of the `k` calls returns -1. -/
def split_times (img : IplImage) : Nat → quadnode → Option quadnode
  | 0, root => some root
  | k + 1, root =>
    if (split_once root img).1 = 0 then split_times img k (split_once root img).2 else none

/-- The tree `t` is obtained from `root` by successful calls of `split_once`. -/
def Reachable (img : IplImage) (root t : quadnode) : Prop :=
  ∃ k, split_times img k root = some t

/-- The step of the running maximum of `find_biggest_dfs` at one leaf. -/
def pick (st : Option NodePath × quadscore) (l : LeafInfo) : Option NodePath × quadscore :=
  if rect_size l.rect > 16 then
    (if score_lt st.2 l.score then (some l.path, l.score) else st)
  else st

/-- The potential that bounds the number of splits: over the leaves, the sum of
the area in excess of the threshold 16. -/
def excess (t : quadnode) : Nat :=
  ((t.leaves []).map (fun l => (rect_size l.rect - 16).toNat)).sum

/-- The bound on the number of successful splits, from the root rectangle alone. -/
def split_bound (rect : CvRect) : Nat := (rect_size rect - 16).toNat

/-- The rectangle `r` has non-negative sides and lies inside `root`. -/
def CvRect.inside (r root : CvRect) : Prop :=
  root.x ≤ r.x ∧ root.y ≤ r.y ∧ r.x + r.width ≤ root.x + root.width ∧
    r.y + r.height ≤ root.y + root.height ∧ 0 ≤ r.width ∧ 0 ≤ r.height

instance (r root : CvRect) : Decidable (r.inside root) := by
  unfold CvRect.inside; infer_instance

/-- Every node of the tree has a rectangle that satisfies `P`. -/
def quadnode.allRects (P : CvRect → Prop) : quadnode → Prop
  | quadnode.NULL => True
  | quadnode.node rect _ c0 c1 c2 c3 =>
    P rect ∧ c0.allRects P ∧ c1.allRects P ∧ c2.allRects P ∧ c3.allRects P

/-- Every node of the tree has either four empty child slots, or four children
of which child `i` has the rectangle `sub_rect` of the node's rectangle at `i`. -/
def quadnode.quadrantsOK : quadnode → Prop
  | quadnode.NULL => True
  | quadnode.node rect score c0 c1 c2 c3 =>
    ((quadnode.node rect score c0 c1 c2 c3).hasNoChildren = true ∨
      (c0.nonNull = true ∧ c1.nonNull = true ∧ c2.nonNull = true ∧ c3.nonNull = true ∧
        c0.rect = sub_rect rect 0 ∧ c1.rect = sub_rect rect 1 ∧
        c2.rect = sub_rect rect 2 ∧ c3.rect = sub_rect rect 3)) ∧
    c0.quadrantsOK ∧ c1.quadrantsOK ∧ c2.quadrantsOK ∧ c3.quadrantsOK

/-- The pixels `(y, x)` that the loops of `variance` and of `mean_color` over
`rect` visit, in the order of the loops. -/
def pixels_read (rect : CvRect) : List (Int × Int) :=
  (loopRange rect.y rect.height).flatMap
    (fun y => (loopRange rect.x rect.width).map (fun x => (y, x)))

/-- The byte offsets into `imageData` that `variance` and `mean_color` read for
`rect`: for every visited pixel `row + 3 * x`, `row + 3 * x + 1`, `row + 3 * x + 2`
with `row = y * widthStep`. -/
def offsets_read (img : IplImage) (rect : CvRect) : List Int :=
  (pixels_read rect).flatMap
    (fun p => [p.1 * img.widthStep + 3 * p.2, p.1 * img.widthStep + 3 * p.2 + 1,
      p.1 * img.widthStep + 3 * p.2 + 2])

/-- A raster as OpenCV allocates it: rows of `widthStep` bytes that hold the
`3 * width` bytes of the pixels, `height` rows in the buffer. -/
def IplImage.valid (img : IplImage) : Prop :=
  0 ≤ img.width ∧ 0 ≤ img.height ∧ 3 * img.width ≤ img.widthStep ∧
    img.height * img.widthStep ≤ (img.imageData.length : Int)

instance (img : IplImage) : Decidable img.valid := by
  unfold IplImage.valid; infer_instance

/-- The value of channel `c` (0, 1 or 2) of the pixel in column `x` and row `y`. -/
def IplImage.channel (img : IplImage) (c x y : Int) : Rat :=
  img.byteAt y (3 * x + c)

/-- The sum of `g` over the pixels of the rectangle, rows `y` and columns `x`. -/
def pixel_sum (rect : CvRect) (g : Int → Int → Rat) : Rat :=
  ∑ y ∈ Finset.Ico rect.y (rect.y + rect.height),
    ∑ x ∈ Finset.Ico rect.x (rect.x + rect.width), g x y

/-- The mean of a channel over a rectangle in the words of the specification:
`(1/n)` times the sum of the channel over the pixels, `n = width * height`. -/
def channel_mean (img : IplImage) (rect : CvRect) (c : Int) : Rat :=
  (1 / ((rect.width * rect.height : Int) : Rat)) * pixel_sum rect (fun x y => img.channel c x y)

/-- The population variance of a channel over a rectangle in the words of the
specification: `(1/n)` times the sum of the squared deviations from the mean. -/
def channel_variance (img : IplImage) (rect : CvRect) (c : Int) : Rat :=
  (1 / ((rect.width * rect.height : Int) : Rat)) *
    pixel_sum rect (fun x y => (img.channel c x y - channel_mean img rect c) ^ 2)

/-- The score in the words of the specification: the maximum of the three
channel variances. -/
def max_channel_variance (img : IplImage) (rect : CvRect) : Rat :=
  max (max (channel_variance img rect 0) (channel_variance img rect 1))
    (channel_variance img rect 2)

/-- The sum of channel `c` of the image over the rectangle, as an integer. -/
def channel_total (img : IplImage) (rect : CvRect) (c : Int) : Int :=
  ∑ y ∈ Finset.Ico rect.y (rect.y + rect.height),
    ∑ x ∈ Finset.Ico rect.x (rect.x + rect.width), img.ucharAt y (3 * x + c)

/-- The quadrant of an image of width `W` and height `H` in which the pixel of
column `x` and row `y` lies: 0 top-left, 1 top-right, 2 bottom-left, 3 bottom-right. -/
def quadrant_of (W H x y : Int) : Int :=
  (if x < W / 2 then 0 else 1) + (if y < H / 2 then 0 else 2)

/-- The pixel `(x, y)` is one that `set_color` on the region `roi` fills in a
raster of width `W` and height `H`. -/
def set_color_touches (W H : Int) (roi : CvRect) (x y : Int) : Bool :=
  decide (roi.x + 1 ≤ x ∧ x < roi.x + 1 + (roi.width - 1) ∧
    roi.y + 1 ≤ y ∧ y < roi.y + 1 + (roi.height - 1) ∧ 0 ≤ x ∧ x < W ∧ 0 ≤ y ∧ y < H)

/-- A 4×4 image of one colour, rows of 12 bytes. -/
def uniform4 : IplImage :=
  { width := 4, height := 4, widthStep := 12, imageData := List.replicate 48 7 }

/-- A 5×5 image of one colour, rows of 15 bytes padded to 16. -/
def uniform5 : IplImage :=
  { width := 5, height := 5, widthStep := 16, imageData := List.replicate 80 7 }

/-- A 1×17 image, rows of 3 bytes padded to 4: a white pixel above sixteen black ones. -/
def strip17 : IplImage :=
  { width := 1, height := 17, widthStep := 4,
    imageData := [255, 255, 255, 0] ++ List.replicate 64 0 }

/-- The tree of `strip17` after the first call of `split_once` in `main`. -/
def strip17_split : quadnode := (split_once (main_root strip17) strip17).2

/-- A tree over a 20×20 rectangle whose quadrants 1 and 2 share the greatest score. -/
def tie_tree : quadnode :=
  quadnode.node ⟨0, 0, 20, 20⟩ ⟨9⟩ (leaf ⟨0, 0, 10, 10⟩ ⟨5⟩) (leaf ⟨10, 0, 10, 10⟩ ⟨9⟩)
    (leaf ⟨0, 10, 10, 10⟩ ⟨9⟩) (leaf ⟨10, 10, 10, 10⟩ ⟨2⟩)

/-- The colours of the four quadrants of `quads8`. -/
def quads8_colour (i : Int) : color :=
  if i = 0 then { r := 30, g := 20, b := 10 }
  else if i = 1 then { r := 60, g := 50, b := 40 }
  else if i = 2 then { r := 90, g := 80, b := 70 }
  else { r := 220, g := 210, b := 200 }

/-- An 8×8 image, rows of 24 bytes, whose four quadrants have the four colours
of `quads8_colour`. -/
def quads8 : IplImage :=
  { width := 8, height := 8, widthStep := 24,
    imageData := (List.range 8).flatMap (fun y => (List.range 8).flatMap (fun x =>
      [Fin.ofNat (quads8_colour (quadrant_of 8 8 x y)).b,
       Fin.ofNat (quads8_colour (quadrant_of 8 8 x y)).g,
       Fin.ofNat (quads8_colour (quadrant_of 8 8 x y)).r])) }

/-- A 5×5 image, rows of 15 bytes padded to 16: a white pixel in the top-left
corner, black elsewhere. -/
def dot5 : IplImage :=
  { width := 5, height := 5, widthStep := 16,
    imageData := [255, 255, 255] ++ List.replicate 77 0 }

/-- A 20×20 image of one colour, rows of 60 bytes. -/
def uniform20 : IplImage :=
  { width := 20, height := 20, widthStep := 60, imageData := List.replicate 1200 7 }

/-- A 5×5 output raster all of whose channels hold the value `v`. -/
def plain5 (v : Nat) : Raster :=
  { width := 5, height := 5, pix := fun _ _ => { c0 := v, c1 := v, c2 := v } }

/-- A 10×10 image, rows of 30 bytes padded to 32, whose bytes grow along the
rows and the columns. -/
def grad10 : IplImage :=
  { width := 10, height := 10, widthStep := 32,
    imageData := (List.range 320).map (fun i => Fin.ofNat ((i % 32) * (i / 32) * 3 % 256)) }

/-- The tree of `grad10` after the first call of `split_once` in `main`: four
leaves of 5×5 pixels. -/
def grad10_split : quadnode := (split_once (main_root grad10) grad10).2

/-- An output raster of width `W` and height `H` all of whose channels hold `v`. -/
def plain_raster (W H : Int) (v : Nat) : Raster :=
  { width := W, height := H, pix := fun _ _ => { c0 := v, c1 := v, c2 := v } }

/-- The channel `k` of a colour in the order of the bytes of a pixel: 0 is `b`,
1 is `g`, 2 is `r`. -/
def color.chan (c : color) (k : Nat) : Nat :=
  if k = 0 then c.b else if k = 1 then c.g else c.r

/-- The colours of the four quadrants of `quads_big`: white for quadrant 0. -/
def quads_big_colour (i : Int) : color :=
  if i = 0 then { r := 255, g := 255, b := 255 } else quads8_colour i

/-- An 8192×4114 image, rows of 24576 bytes, whose four quadrants of 4096×2057
pixels have the four colours of `quads_big_colour`. -/
def quads_big : IplImage :=
  { width := 8192, height := 4114, widthStep := 24576,
    imageData := (List.range (4114 * 24576)).map (fun i =>
      Fin.ofNat ((quads_big_colour
        (quadrant_of 8192 4114 ((i % 24576 / 3 : Nat) : Int) ((i / 24576 : Nat) : Int))).chan
          (i % 3))) }

/-- A 4096×2057 image, rows of 12288 bytes, all of whose pixels are white. -/
def white_big : IplImage :=
  { width := 4096, height := 2057, widthStep := 12288,
    imageData := (List.range (2057 * 12288)).map (fun _ => 255) }

/-! ## Rectangle subdivision -/

theorem shr_one (w : Int) : w >>> (1 : Nat) = w / 2 := by
  rw [Int.shiftRight_eq_div_pow]; norm_num

theorem sub_rect_0 (r : CvRect) :
    sub_rect r 0 = { x := r.x, y := r.y, width := r.width / 2, height := r.height / 2 } := by
  simp [sub_rect, shr_one]

theorem sub_rect_1 (r : CvRect) :
    sub_rect r 1 =
      { x := r.x + r.width / 2, y := r.y, width := r.width - r.width / 2, height := r.height / 2 } := by
  simp [sub_rect, shr_one]

theorem sub_rect_2 (r : CvRect) :
    sub_rect r 2 =
      { x := r.x, y := r.y + r.height / 2, width := r.width / 2, height := r.height - r.height / 2 } := by
  simp [sub_rect, shr_one]

theorem sub_rect_3 (r : CvRect) :
    sub_rect r 3 =
      { x := r.x + r.width / 2, y := r.y + r.height / 2, width := r.width - r.width / 2,
        height := r.height - r.height / 2 } := by
  simp [sub_rect, shr_one]

/-- C1: for a rectangle of non-negative width and height, with `halfW` the floor
of `width / 2` and `halfH` the floor of `height / 2`, `sub_rect` returns
`(x, y, halfW, halfH)` for quadrant 0, `(x + halfW, y, width - halfW, halfH)` for
quadrant 1, `(x, y + halfH, halfW, height - halfH)` for quadrant 2 and
`(x + halfW, y + halfH, width - halfW, height - halfH)` for quadrant 3. -/
theorem sub_rect_spec (rect : CvRect) (_hw : 0 ≤ rect.width) (_hh : 0 ≤ rect.height)
    (halfW halfH : Int) (hW : halfW = ⌊(rect.width : ℚ) / 2⌋) (hH : halfH = ⌊(rect.height : ℚ) / 2⌋) :
    sub_rect rect 0 = { x := rect.x, y := rect.y, width := halfW, height := halfH } ∧
    sub_rect rect 1 =
      { x := rect.x + halfW, y := rect.y, width := rect.width - halfW, height := halfH } ∧
    sub_rect rect 2 =
      { x := rect.x, y := rect.y + halfH, width := halfW, height := rect.height - halfH } ∧
    sub_rect rect 3 =
      { x := rect.x + halfW, y := rect.y + halfH, width := rect.width - halfW,
        height := rect.height - halfH } := by
  have e1 : halfW = rect.width / 2 := by
    rw [hW]; exact_mod_cast Rat.floor_intCast_div_natCast rect.width 2
  have e2 : halfH = rect.height / 2 := by
    rw [hH]; exact_mod_cast Rat.floor_intCast_div_natCast rect.height 2
  subst e1 e2
  exact ⟨sub_rect_0 rect, sub_rect_1 rect, sub_rect_2 rect, sub_rect_3 rect⟩

theorem sub_rect_spec_witness :
    sub_rect ⟨2, 3, 5, 7⟩ 0 = ⟨2, 3, 2, 3⟩ ∧ sub_rect ⟨2, 3, 5, 7⟩ 1 = ⟨4, 3, 3, 3⟩ ∧
    sub_rect ⟨2, 3, 5, 7⟩ 2 = ⟨2, 6, 2, 4⟩ ∧ sub_rect ⟨2, 3, 5, 7⟩ 3 = ⟨4, 6, 3, 4⟩ := by
  have h := sub_rect_spec ⟨2, 3, 5, 7⟩ (by decide) (by decide) 2 3
    (by norm_num [Int.floor_eq_iff]) (by norm_num [Int.floor_eq_iff])
  norm_num at h
  exact h

/-- C2: for a rectangle of non-negative width and height the four rectangles
`sub_rect rect 0 .. 3` tile it: every pixel of the parent lies in exactly one
child, every pixel of a child lies in the parent, and the four areas add up to
the area of the parent. -/
theorem sub_rect_tiles (rect : CvRect) (hw : 0 ≤ rect.width) (hh : 0 ≤ rect.height) :
    (∀ px py : Int, rect.contains px py →
      ∃! i : Int, (0 ≤ i ∧ i < 4) ∧ (sub_rect rect i).contains px py) ∧
    (∀ i : Int, 0 ≤ i → i < 4 → ∀ px py : Int,
      (sub_rect rect i).contains px py → rect.contains px py) ∧
    rect_size (sub_rect rect 0) + rect_size (sub_rect rect 1) + rect_size (sub_rect rect 2)
      + rect_size (sub_rect rect 3) = rect_size rect := by
  obtain ⟨x, y, w, h⟩ := rect
  simp only at hw hh
  refine ⟨?_, ?_, ?_⟩
  · intro px py hp
    simp only [CvRect.contains] at hp
    have key : ∀ i : Int, 0 ≤ i → i < 4 →
        ((sub_rect ⟨x, y, w, h⟩ i).contains px py ↔
          i = (if px < x + w / 2 then 0 else 1) + (if py < y + h / 2 then 0 else 2)) := by
      intro i h0 h4
      have hi : i = 0 ∨ i = 1 ∨ i = 2 ∨ i = 3 := by omega
      rcases hi with rfl | rfl | rfl | rfl
      · rw [sub_rect_0]; simp only [CvRect.contains]; split_ifs <;> omega
      · rw [sub_rect_1]; simp only [CvRect.contains]; split_ifs <;> omega
      · rw [sub_rect_2]; simp only [CvRect.contains]; split_ifs <;> omega
      · rw [sub_rect_3]; simp only [CvRect.contains]; split_ifs <;> omega
    refine ⟨(if px < x + w / 2 then 0 else 1) + (if py < y + h / 2 then 0 else 2), ⟨?_, ?_⟩, ?_⟩
    · split_ifs <;> omega
    · refine (key _ ?_ ?_).2 rfl <;> split_ifs <;> omega
    · rintro j ⟨⟨h0, h4⟩, hj⟩
      exact (key j h0 h4).1 hj
  · intro i h0 h4 px py
    have hi : i = 0 ∨ i = 1 ∨ i = 2 ∨ i = 3 := by omega
    rcases hi with rfl | rfl | rfl | rfl
    · rw [sub_rect_0]; simp only [CvRect.contains]; omega
    · rw [sub_rect_1]; simp only [CvRect.contains]; omega
    · rw [sub_rect_2]; simp only [CvRect.contains]; omega
    · rw [sub_rect_3]; simp only [CvRect.contains]; omega
  · rw [sub_rect_0, sub_rect_1, sub_rect_2, sub_rect_3]
    simp only [rect_size]
    ring

theorem sub_rect_tiles_witness :
    (∀ px py : Int, CvRect.contains ⟨0, 0, 5, 3⟩ px py →
      ∃! i : Int, (0 ≤ i ∧ i < 4) ∧ (sub_rect ⟨0, 0, 5, 3⟩ i).contains px py) ∧
    (∀ i : Int, 0 ≤ i → i < 4 → ∀ px py : Int,
      (sub_rect ⟨0, 0, 5, 3⟩ i).contains px py → CvRect.contains ⟨0, 0, 5, 3⟩ px py) ∧
    rect_size (sub_rect ⟨0, 0, 5, 3⟩ 0) + rect_size (sub_rect ⟨0, 0, 5, 3⟩ 1)
      + rect_size (sub_rect ⟨0, 0, 5, 3⟩ 2) + rect_size (sub_rect ⟨0, 0, 5, 3⟩ 3)
      = rect_size ⟨0, 0, 5, 3⟩ :=
  sub_rect_tiles ⟨0, 0, 5, 3⟩ (by decide) (by decide)

/-! ## Trees, paths and the traversal -/

/-! ### Paths -/

@[simp] theorem at_nil (t : quadnode) : t.at [] = t := rfl

@[simp] theorem at_cons (t : quadnode) (i : Nat) (p : NodePath) :
    t.at (i :: p) = (t.children i).at p := rfl

@[simp] theorem children_NULL (i : Nat) : quadnode.NULL.children i = quadnode.NULL := by
  simp [quadnode.children]

@[simp] theorem NULL_at (p : NodePath) : quadnode.NULL.at p = quadnode.NULL := by
  induction p with
  | nil => rfl
  | cons i p ih => simpa using ih

@[simp] theorem children_zero (r : CvRect) (s : quadscore) (c0 c1 c2 c3 : quadnode) :
    (quadnode.node r s c0 c1 c2 c3).children 0 = c0 := rfl

@[simp] theorem children_one (r : CvRect) (s : quadscore) (c0 c1 c2 c3 : quadnode) :
    (quadnode.node r s c0 c1 c2 c3).children 1 = c1 := rfl

@[simp] theorem children_two (r : CvRect) (s : quadscore) (c0 c1 c2 c3 : quadnode) :
    (quadnode.node r s c0 c1 c2 c3).children 2 = c2 := rfl

@[simp] theorem children_three (r : CvRect) (s : quadscore) (c0 c1 c2 c3 : quadnode) :
    (quadnode.node r s c0 c1 c2 c3).children 3 = c3 := rfl

theorem children_big (t : quadnode) (i : Nat) (h : 4 ≤ i) : t.children i = quadnode.NULL := by
  cases t with
  | NULL => simp
  | node r s c0 c1 c2 c3 =>
    match i, h with
    | i + 4, _ => simp [quadnode.children]

theorem leaf_ne_NULL (r : CvRect) (s : quadscore) : leaf r s ≠ quadnode.NULL := by
  simp [leaf]

/-- A tree of the data model is not the null pointer. -/
theorem FourOrNone.ne_NULL {t : quadnode} (h : FourOrNone t) : t ≠ quadnode.NULL := by
  cases h <;> simp [leaf]

theorem FourOrNone.nonNull {t : quadnode} (h : FourOrNone t) : t.nonNull = true := by
  cases h <;> simp [leaf, quadnode.nonNull]

theorem hasNoChildren_iff (t : quadnode) :
    t.hasNoChildren = true ↔ ∃ r s, t = leaf r s := by
  constructor
  · intro h
    unfold quadnode.hasNoChildren at h
    split at h
    · exact ⟨_, _, rfl⟩
    · simp at h
  · rintro ⟨r, s, rfl⟩
    rfl

/-- On a tree of the data model the test of `quadnode_isleaf` is the test of the
data model. -/
theorem isleaf_eq_hasNoChildren {t : quadnode} (h : FourOrNone t) :
    quadnode_isleaf t = t.hasNoChildren := by
  cases h with
  | single r s => rfl
  | inner r s c0 c1 c2 c3 h0 h1 h2 h3 =>
    have e0 := h0.nonNull
    cases c0 with
    | NULL => simp [quadnode.nonNull] at e0
    | node r0 s0 a b c d =>
      simp [quadnode_isleaf, quadnode.nonNull, quadnode.hasNoChildren]

/-! ### The running maximum over a list of leaves -/

theorem pick_cases (st : Option NodePath × quadscore) (l : LeafInfo) :
    (pick st l = st ∧ (rect_size l.rect > 16 → l.score.var ≤ st.2.var)) ∨
    (pick st l = (some l.path, l.score) ∧ rect_size l.rect > 16 ∧ st.2.var < l.score.var) := by
  unfold pick score_lt
  by_cases h : rect_size l.rect > 16
  · by_cases h2 : st.2.var < l.score.var
    · right; simp [h, h2]
    · left; simp [h, h2]; exact not_lt.mp h2
  · left; simp [h]

/-- What the running maximum has done after a list of leaves: either nothing,
and then no leaf above the threshold beats the initial score, or it holds the
first leaf above the threshold that carries the greatest score. -/
theorem foldl_pick (L : List LeafInfo) : ∀ st : Option NodePath × quadscore,
    (L.foldl pick st = st ∧ ∀ y ∈ L, rect_size y.rect > 16 → y.score.var ≤ st.2.var) ∨
    (∃ l1 x l2, L = l1 ++ x :: l2 ∧ rect_size x.rect > 16 ∧
      L.foldl pick st = (some x.path, x.score) ∧ st.2.var < x.score.var ∧
      (∀ y ∈ l1, rect_size y.rect > 16 → y.score.var < x.score.var) ∧
      (∀ y ∈ l2, rect_size y.rect > 16 → y.score.var ≤ x.score.var)) := by
  induction L with
  | nil => intro st; left; simp
  | cons a L ih =>
    intro st
    rw [List.foldl_cons]
    rcases pick_cases st a with ⟨e, ha⟩ | ⟨e, hbig, hlt⟩
    · rw [e]
      rcases ih st with ⟨e2, hall⟩ | ⟨l1, x, l2, hL, hx, e2, hlt, h1, h2⟩
      · left
        refine ⟨e2, ?_⟩
        intro y hy
        rcases List.mem_cons.mp hy with rfl | hy
        · exact ha
        · exact hall y hy
      · right
        refine ⟨a :: l1, x, l2, by simp [hL], hx, e2, hlt, ?_, h2⟩
        intro y hy hb
        rcases List.mem_cons.mp hy with rfl | hy
        · exact lt_of_le_of_lt (ha hb) hlt
        · exact h1 y hy hb
    · rw [e]
      rcases ih (some a.path, a.score) with ⟨e2, hall⟩ | ⟨l1, x, l2, hL, hx, e2, hlt2, h1, h2⟩
      · right
        exact ⟨[], a, L, rfl, hbig, e2, hlt, by simp, hall⟩
      · right
        refine ⟨a :: l1, x, l2, by simp [hL], hx, e2, lt_trans hlt hlt2, ?_, h2⟩
        intro y hy hb
        rcases List.mem_cons.mp hy with rfl | hy
        · exact hlt2
        · exact h1 y hy hb

/-- On a tree of the data model `find_biggest_dfs` is the running maximum over
the pre-order list of the leaves. -/
theorem find_biggest_dfs_eq_foldl {t : quadnode} (h : FourOrNone t) :
    ∀ (here : NodePath) (st : Option NodePath × quadscore),
      find_biggest_dfs t here st = (t.leaves here).foldl pick st := by
  induction h with
  | single r s =>
    intro here st
    simp only [leaf, find_biggest_dfs, quadnode.leaves, quadnode.hasNoChildren, if_true,
      List.foldl_cons, List.foldl_nil, pick]
    by_cases hb : rect_size r > 16
    · simp [quadnode_isleaf, quadnode.nonNull, hb]
    · simp [quadnode_isleaf, quadnode.nonNull, hb]
  | inner r s c0 c1 c2 c3 h0 h1 h2 h3 ih0 ih1 ih2 ih3 =>
    intro here st
    have hI := FourOrNone.inner r s c0 c1 c2 c3 h0 h1 h2 h3
    by_cases hl : (quadnode.node r s c0 c1 c2 c3).hasNoChildren = true
    · obtain ⟨r', s', e⟩ := (hasNoChildren_iff _).1 hl
      simp only [leaf, quadnode.node.injEq] at e
      obtain ⟨rfl, rfl, rfl, rfl, rfl, rfl⟩ := e
      exact absurd rfl h0.ne_NULL
    · have hl2 : quadnode_isleaf (quadnode.node r s c0 c1 c2 c3) = false := by
        rw [isleaf_eq_hasNoChildren hI]; simpa using hl
      rw [find_biggest_dfs, hl2]
      simp only [Bool.false_and, Bool.false_eq_true, if_false]
      rw [quadnode.leaves, if_neg hl, List.foldl_append, List.foldl_append, List.foldl_append,
        ih0, ih1, ih2, ih3]

/-! ### Leaves and paths -/

theorem leaves_of_hasNoChildren {t : quadnode} (h : t.hasNoChildren = true) (here : NodePath) :
    t.leaves here = [{ path := here, rect := t.rect, score := t.score }] := by
  obtain ⟨r, s, rfl⟩ := (hasNoChildren_iff t).1 h
  simp [leaf, quadnode.leaves, quadnode.hasNoChildren, quadnode.rect, quadnode.score]

theorem leaves_leaf (r : CvRect) (s : quadscore) (here : NodePath) :
    (leaf r s).leaves here = [{ path := here, rect := r, score := s }] := by
  simp [leaf, quadnode.leaves, quadnode.hasNoChildren]

theorem leaves_node {r : CvRect} {s : quadscore} {c0 c1 c2 c3 : quadnode}
    (h : (quadnode.node r s c0 c1 c2 c3).hasNoChildren = false) (here : NodePath) :
    (quadnode.node r s c0 c1 c2 c3).leaves here =
      c0.leaves (here ++ [0]) ++ c1.leaves (here ++ [1]) ++
        c2.leaves (here ++ [2]) ++ c3.leaves (here ++ [3]) := by
  rw [quadnode.leaves, h]; simp

theorem leaf_at_cons_false {r r' : CvRect} {s s' : quadscore} {i : Nat} {q : NodePath} :
    (leaf r s).at (i :: q) ≠ leaf r' s' := by
  have e : (leaf r s).children i = quadnode.NULL := by
    match i with
    | 0 | 1 | 2 | 3 => rfl
    | i + 4 => exact children_big _ _ (by omega)
  rw [at_cons, e, NULL_at]
  exact (leaf_ne_NULL r' s').symm

/-- The leaves listed by the traversal are the nodes without children that a
path from the root reaches. -/
theorem mem_leaves_iff (t : quadnode) : ∀ (here : NodePath) (x : LeafInfo),
    x ∈ t.leaves here ↔ ∃ q, x.path = here ++ q ∧ t.at q = leaf x.rect x.score := by
  induction t with
  | NULL =>
    intro here x
    simp [quadnode.leaves, leaf]
  | node r s c0 c1 c2 c3 ih0 ih1 ih2 ih3 =>
    intro here x
    by_cases hl : (quadnode.node r s c0 c1 c2 c3).hasNoChildren = true
    · obtain ⟨r', s', e⟩ := (hasNoChildren_iff _).1 hl
      rw [e, leaves_leaf]
      constructor
      · intro hx
        rw [List.mem_singleton] at hx
        subst hx
        exact ⟨[], by simp, rfl⟩
      · rintro ⟨q, hq, hat⟩
        cases q with
        | nil =>
          simp only [at_nil, leaf, quadnode.node.injEq] at hat
          obtain ⟨x1, x2, x3⟩ := x
          simp only [List.append_nil] at hq
          simp only [List.mem_singleton, LeafInfo.mk.injEq]
          exact ⟨hq, hat.1.symm, hat.2.1.symm⟩
        | cons i q => exact absurd hat leaf_at_cons_false
    · have hl' : (quadnode.node r s c0 c1 c2 c3).hasNoChildren = false := by simpa using hl
      rw [leaves_node hl']
      simp only [List.mem_append, ih0, ih1, ih2, ih3]
      constructor
      · rintro (((⟨q, hq, hat⟩ | ⟨q, hq, hat⟩) | ⟨q, hq, hat⟩) | ⟨q, hq, hat⟩)
        · exact ⟨0 :: q, by simpa using hq, by simpa using hat⟩
        · exact ⟨1 :: q, by simpa using hq, by simpa using hat⟩
        · exact ⟨2 :: q, by simpa using hq, by simpa using hat⟩
        · exact ⟨3 :: q, by simpa using hq, by simpa using hat⟩
      · rintro ⟨q, hq, hat⟩
        cases q with
        | nil =>
          exfalso
          rw [at_nil] at hat
          have := (hasNoChildren_iff _).2 ⟨_, _, hat⟩
          rw [hl'] at this
          exact Bool.false_ne_true this
        | cons i q =>
          rw [at_cons] at hat
          match i, hat with
          | 0, hat => exact Or.inl (Or.inl (Or.inl ⟨q, by simpa using hq, by simpa using hat⟩))
          | 1, hat => exact Or.inl (Or.inl (Or.inr ⟨q, by simpa using hq, by simpa using hat⟩))
          | 2, hat => exact Or.inl (Or.inr ⟨q, by simpa using hq, by simpa using hat⟩)
          | 3, hat => exact Or.inr ⟨q, by simpa using hq, by simpa using hat⟩
          | i + 4, hat =>
            rw [children_big _ _ (by omega)] at hat
            simp [leaf] at hat

/-! ### Splitting a node -/

theorem rescore_quadnode_new (img : IplImage) (r : CvRect) :
    rescore img (quadnode_new r) = leaf r (node_score img r) := rfl

/-- What `split_once` does to the node it selected when that node has no children. -/
theorem split_node_leaf (img : IplImage) (r : CvRect) (s : quadscore) :
    split_node img (leaf r s) =
      quadnode.node r s
        (leaf (sub_rect r 0) (node_score img (sub_rect r 0)))
        (leaf (sub_rect r 1) (node_score img (sub_rect r 1)))
        (leaf (sub_rect r 2) (node_score img (sub_rect r 2)))
        (leaf (sub_rect r 3) (node_score img (sub_rect r 3))) := by
  simp [split_node, quadnode_split, leaf, quadnode_isleaf, quadnode.nonNull,
    quadnode_new, rescore]

theorem split_node_leaf_hasNoChildren (img : IplImage) (r : CvRect) (s : quadscore) :
    (split_node img (leaf r s)).hasNoChildren = false := by
  rw [split_node_leaf]; rfl

theorem leaves_split_node_leaf (img : IplImage) (r : CvRect) (s : quadscore) (here : NodePath) :
    (split_node img (leaf r s)).leaves here =
      [{ path := here ++ [0], rect := sub_rect r 0, score := node_score img (sub_rect r 0) },
       { path := here ++ [1], rect := sub_rect r 1, score := node_score img (sub_rect r 1) },
       { path := here ++ [2], rect := sub_rect r 2, score := node_score img (sub_rect r 2) },
       { path := here ++ [3], rect := sub_rect r 3, score := node_score img (sub_rect r 3) }] := by
  rw [split_node_leaf, leaves_node (by rfl)]
  simp [leaves_leaf]

theorem FourOrNone_split_node_leaf (img : IplImage) (r : CvRect) (s : quadscore) :
    FourOrNone (split_node img (leaf r s)) := by
  rw [split_node_leaf]
  exact FourOrNone.inner _ _ _ _ _ _ (.single _ _) (.single _ _) (.single _ _) (.single _ _)

/-! ### Updating the node under a pointer -/

@[simp] theorem update_nil (t : quadnode) (f : quadnode → quadnode) : t.update [] f = f t := by
  cases t <;> rfl

theorem update_cons_zero (r : CvRect) (s : quadscore) (c0 c1 c2 c3 : quadnode) (p : NodePath)
    (f : quadnode → quadnode) :
    (quadnode.node r s c0 c1 c2 c3).update (0 :: p) f = quadnode.node r s (c0.update p f) c1 c2 c3 := by
  simp [quadnode.update]

theorem update_cons_one (r : CvRect) (s : quadscore) (c0 c1 c2 c3 : quadnode) (p : NodePath)
    (f : quadnode → quadnode) :
    (quadnode.node r s c0 c1 c2 c3).update (1 :: p) f = quadnode.node r s c0 (c1.update p f) c2 c3 := by
  simp [quadnode.update]

theorem update_cons_two (r : CvRect) (s : quadscore) (c0 c1 c2 c3 : quadnode) (p : NodePath)
    (f : quadnode → quadnode) :
    (quadnode.node r s c0 c1 c2 c3).update (2 :: p) f = quadnode.node r s c0 c1 (c2.update p f) c3 := by
  simp [quadnode.update]

theorem update_cons_three (r : CvRect) (s : quadscore) (c0 c1 c2 c3 : quadnode) (p : NodePath)
    (f : quadnode → quadnode) :
    (quadnode.node r s c0 c1 c2 c3).update (3 :: p) f = quadnode.node r s c0 c1 c2 (c3.update p f) := by
  simp [quadnode.update]

/-- A path that reaches a node goes through a node at every step, and uses child
indices below 4 only. -/
theorem at_cons_ne_NULL {t : quadnode} {i : Nat} {p : NodePath}
    (h : t.at (i :: p) ≠ quadnode.NULL) :
    i < 4 ∧ ∃ r s c0 c1 c2 c3, t = quadnode.node r s c0 c1 c2 c3 := by
  cases t with
  | NULL => simp at h
  | node r s c0 c1 c2 c3 =>
    refine ⟨?_, r, s, c0, c1, c2, c3, rfl⟩
    by_contra hi
    rw [at_cons, children_big _ _ (by omega)] at h
    simp at h

/-- The updated node is found where it was. -/
theorem at_update_self (f : quadnode → quadnode) : ∀ (p : NodePath) (t : quadnode),
    t.at p ≠ quadnode.NULL → (t.update p f).at p = f (t.at p) := by
  intro p
  induction p with
  | nil => intro t _; simp
  | cons i p ih =>
    intro t h
    obtain ⟨hi, r, s, c0, c1, c2, c3, rfl⟩ := at_cons_ne_NULL h
    rw [at_cons] at h
    match i, hi, h with
    | 0, _, h => rw [update_cons_zero]; simpa using ih c0 (by simpa using h)
    | 1, _, h => rw [update_cons_one]; simpa using ih c1 (by simpa using h)
    | 2, _, h => rw [update_cons_two]; simpa using ih c2 (by simpa using h)
    | 3, _, h => rw [update_cons_three]; simpa using ih c3 (by simpa using h)

theorem hasNoChildren_false_of_child {r : CvRect} {s : quadscore} {c0 c1 c2 c3 : quadnode}
    (h : c0 ≠ quadnode.NULL ∨ c1 ≠ quadnode.NULL ∨ c2 ≠ quadnode.NULL ∨ c3 ≠ quadnode.NULL) :
    (quadnode.node r s c0 c1 c2 c3).hasNoChildren = false := by
  cases c0 <;> cases c1 <;> cases c2 <;> cases c3 <;> simp_all [quadnode.hasNoChildren]

theorem split_node_leaf_ne_NULL (img : IplImage) (r : CvRect) (s : quadscore) :
    split_node img (leaf r s) ≠ quadnode.NULL := by
  rw [split_node_leaf]; simp

theorem update_split_ne_NULL (img : IplImage) {t : quadnode} {p : NodePath} {r : CvRect}
    {s : quadscore} (h : t.at p = leaf r s) : t.update p (split_node img) ≠ quadnode.NULL := by
  intro e
  have h1 := at_update_self (split_node img) p t (by rw [h]; exact leaf_ne_NULL r s)
  rw [e, NULL_at, h] at h1
  exact split_node_leaf_ne_NULL img r s h1.symm

theorem ne_NULL_of_at_eq_leaf {t : quadnode} {p : NodePath} {r : CvRect} {s : quadscore}
    (h : t.at p = leaf r s) : t ≠ quadnode.NULL := by
  rintro rfl
  rw [NULL_at] at h
  exact leaf_ne_NULL r s h.symm

/-- Splitting the leaf under `p` replaces, in the pre-order list of the leaves,
that leaf by its four children and leaves the rest of the list as it was. -/
theorem leaves_update_split (img : IplImage) (r : CvRect) (s : quadscore) :
    ∀ (p : NodePath) (t : quadnode) (here : NodePath), t.at p = leaf r s →
      ∃ l1 l2, t.leaves here = l1 ++ { path := here ++ p, rect := r, score := s } :: l2 ∧
        (t.update p (split_node img)).leaves here =
          l1 ++ (split_node img (leaf r s)).leaves (here ++ p) ++ l2 := by
  intro p
  induction p with
  | nil =>
    intro t here h
    rw [at_nil] at h
    subst h
    exact ⟨[], [], by simp [leaves_leaf], by simp⟩
  | cons i p ih =>
    intro t here h
    have hne : t.at (i :: p) ≠ quadnode.NULL := by rw [h]; exact leaf_ne_NULL r s
    obtain ⟨hi, r0, s0, c0, c1, c2, c3, rfl⟩ := at_cons_ne_NULL hne
    rw [at_cons] at h
    match i, hi, h with
    | 0, _, h =>
      simp only [children_zero] at h
      obtain ⟨l1, l2, e1, e2⟩ := ih c0 (here ++ [0]) h
      rw [update_cons_zero,
        leaves_node (hasNoChildren_false_of_child (Or.inl (ne_NULL_of_at_eq_leaf h))),
        leaves_node (hasNoChildren_false_of_child (Or.inl (update_split_ne_NULL img h))), e1, e2]
      exact ⟨l1, l2 ++ c1.leaves (here ++ [1]) ++ c2.leaves (here ++ [2]) ++ c3.leaves (here ++ [3]),
        by simp, by simp⟩
    | 1, _, h =>
      simp only [children_one] at h
      obtain ⟨l1, l2, e1, e2⟩ := ih c1 (here ++ [1]) h
      rw [update_cons_one,
        leaves_node (hasNoChildren_false_of_child (Or.inr (Or.inl (ne_NULL_of_at_eq_leaf h)))),
        leaves_node (hasNoChildren_false_of_child (Or.inr (Or.inl (update_split_ne_NULL img h)))),
        e1, e2]
      exact ⟨c0.leaves (here ++ [0]) ++ l1, l2 ++ c2.leaves (here ++ [2]) ++ c3.leaves (here ++ [3]),
        by simp, by simp⟩
    | 2, _, h =>
      simp only [children_two] at h
      obtain ⟨l1, l2, e1, e2⟩ := ih c2 (here ++ [2]) h
      rw [update_cons_two,
        leaves_node (hasNoChildren_false_of_child
          (Or.inr (Or.inr (Or.inl (ne_NULL_of_at_eq_leaf h))))),
        leaves_node (hasNoChildren_false_of_child
          (Or.inr (Or.inr (Or.inl (update_split_ne_NULL img h))))), e1, e2]
      exact ⟨c0.leaves (here ++ [0]) ++ c1.leaves (here ++ [1]) ++ l1, l2 ++ c3.leaves (here ++ [3]),
        by simp, by simp⟩
    | 3, _, h =>
      simp only [children_three] at h
      obtain ⟨l1, l2, e1, e2⟩ := ih c3 (here ++ [3]) h
      rw [update_cons_three,
        leaves_node (hasNoChildren_false_of_child
          (Or.inr (Or.inr (Or.inr (ne_NULL_of_at_eq_leaf h))))),
        leaves_node (hasNoChildren_false_of_child
          (Or.inr (Or.inr (Or.inr (update_split_ne_NULL img h))))), e1, e2]
      exact ⟨c0.leaves (here ++ [0]) ++ c1.leaves (here ++ [1]) ++ c2.leaves (here ++ [2]) ++ l1, l2,
        by simp, by simp⟩

/-- The subtree under a path of a tree of the data model is a tree of the data
model, unless the path leaves the tree. -/
theorem FourOrNone.at {t : quadnode} (h : FourOrNone t) :
    ∀ p : NodePath, t.at p ≠ quadnode.NULL → FourOrNone (t.at p) := by
  induction h with
  | single r s =>
    intro p hp
    cases p with
    | nil => exact .single r s
    | cons i p =>
      exfalso
      apply hp
      have e : (leaf r s).children i = quadnode.NULL := by
        match i with
        | 0 | 1 | 2 | 3 => rfl
        | i + 4 => exact children_big _ _ (by omega)
      rw [at_cons, e, NULL_at]
  | inner r s c0 c1 c2 c3 h0 h1 h2 h3 ih0 ih1 ih2 ih3 =>
    intro p hp
    cases p with
    | nil => exact .inner r s c0 c1 c2 c3 h0 h1 h2 h3
    | cons i p =>
      obtain ⟨hi, -⟩ := at_cons_ne_NULL hp
      rw [at_cons] at hp ⊢
      match i, hi, hp with
      | 0, _, hp => exact ih0 p hp
      | 1, _, hp => exact ih1 p hp
      | 2, _, hp => exact ih2 p hp
      | 3, _, hp => exact ih3 p hp

/-- Splitting a leaf keeps the shape invariant of the data model. -/
theorem FourOrNone.update_split (img : IplImage) {t : quadnode} (h : FourOrNone t) :
    ∀ (p : NodePath) (r : CvRect) (s : quadscore), t.at p = leaf r s →
      FourOrNone (t.update p (split_node img)) := by
  induction h with
  | single r0 s0 =>
    intro p r s hp
    cases p with
    | nil => rw [update_nil]; exact FourOrNone_split_node_leaf img r0 s0
    | cons i p => exact absurd hp leaf_at_cons_false
  | inner r0 s0 c0 c1 c2 c3 h0 h1 h2 h3 ih0 ih1 ih2 ih3 =>
    intro p r s hp
    cases p with
    | nil =>
      exfalso
      rw [at_nil] at hp
      simp only [leaf, quadnode.node.injEq] at hp
      exact h0.ne_NULL hp.2.2.1
    | cons i p =>
      have hne : (quadnode.node r0 s0 c0 c1 c2 c3).at (i :: p) ≠ quadnode.NULL := by
        rw [hp]; exact leaf_ne_NULL r s
      obtain ⟨hi, -⟩ := at_cons_ne_NULL hne
      rw [at_cons] at hp
      match i, hi, hp with
      | 0, _, hp => rw [update_cons_zero]; exact .inner _ _ _ _ _ _ (ih0 p r s hp) h1 h2 h3
      | 1, _, hp => rw [update_cons_one]; exact .inner _ _ _ _ _ _ h0 (ih1 p r s hp) h2 h3
      | 2, _, hp => rw [update_cons_two]; exact .inner _ _ _ _ _ _ h0 h1 (ih2 p r s hp) h3
      | 3, _, hp => rw [update_cons_three]; exact .inner _ _ _ _ _ _ h0 h1 h2 (ih3 p r s hp)

/-! ### What `find_biggest` and `split_once` compute -/

theorem find_biggest_eq_foldl {t : quadnode} (h : FourOrNone t) :
    find_biggest t = ((t.leaves []).foldl pick (none, empty_score)).1 := by
  rw [← find_biggest_dfs_eq_foldl h]
  cases h <;> rfl

/-- The result of `find_biggest` on a tree of the data model: either no node,
and then no leaf above the threshold has a positive score, or the first leaf
in pre-order that carries the greatest score among the leaves above the threshold. -/
theorem find_biggest_spec {t : quadnode} (h : FourOrNone t) :
    (find_biggest t = none ∧ ∀ y ∈ t.leaves [], rect_size y.rect > 16 → y.score.var ≤ 0) ∨
    (∃ l1 x l2, t.leaves [] = l1 ++ x :: l2 ∧ rect_size x.rect > 16 ∧
      find_biggest t = some x.path ∧ 0 < x.score.var ∧
      (∀ y ∈ l1, rect_size y.rect > 16 → y.score.var < x.score.var) ∧
      (∀ y ∈ l2, rect_size y.rect > 16 → y.score.var ≤ x.score.var)) := by
  rw [find_biggest_eq_foldl h]
  rcases foldl_pick (t.leaves []) (none, empty_score) with
    ⟨e, hall⟩ | ⟨l1, x, l2, hL, hx, e, hlt, h1, h2⟩
  · left; rw [e]; exact ⟨rfl, hall⟩
  · right; rw [e]; exact ⟨l1, x, l2, hL, hx, rfl, hlt, h1, h2⟩

theorem split_once_fst (t : quadnode) (img : IplImage) :
    (split_once t img).1 = 0 ∨ (split_once t img).1 = -1 := by
  unfold split_once
  cases find_biggest t <;> simp

theorem split_once_of_none {t : quadnode} (img : IplImage) (h : find_biggest t = none) :
    split_once t img = (-1, t) := by
  simp [split_once, h]

theorem split_once_of_some {t : quadnode} (img : IplImage) {p : NodePath}
    (h : find_biggest t = some p) : split_once t img = (0, t.update p (split_node img)) := by
  simp [split_once, h]

theorem split_once_eq_zero_iff (t : quadnode) (img : IplImage) :
    (split_once t img).1 = 0 ↔ ∃ p, find_biggest t = some p := by
  unfold split_once
  cases find_biggest t <;> simp

theorem split_once_eq_neg_one_iff (t : quadnode) (img : IplImage) :
    (split_once t img).1 = -1 ↔ find_biggest t = none := by
  unfold split_once
  cases find_biggest t <;> simp

/-! ### Areas of the four quadrants -/

theorem sub_rect_area_sum (r : CvRect) :
    rect_size (sub_rect r 0) + rect_size (sub_rect r 1) + rect_size (sub_rect r 2)
      + rect_size (sub_rect r 3) = rect_size r := by
  rw [sub_rect_0, sub_rect_1, sub_rect_2, sub_rect_3]
  simp only [rect_size]
  ring

theorem sub_rect_nonneg (r : CvRect) (hw : 0 ≤ r.width) (hh : 0 ≤ r.height) :
    (0 ≤ (sub_rect r 0).width ∧ 0 ≤ (sub_rect r 0).height) ∧
    (0 ≤ (sub_rect r 1).width ∧ 0 ≤ (sub_rect r 1).height) ∧
    (0 ≤ (sub_rect r 2).width ∧ 0 ≤ (sub_rect r 2).height) ∧
    (0 ≤ (sub_rect r 3).width ∧ 0 ≤ (sub_rect r 3).height) := by
  rw [sub_rect_0, sub_rect_1, sub_rect_2, sub_rect_3]
  simp only
  omega

/-- Above the threshold every quadrant has an area that is non-negative and
strictly smaller than the area of the parent. -/
theorem sub_rect_area_lt (r : CvRect) (hw : 0 ≤ r.width) (hh : 0 ≤ r.height)
    (hbig : 16 < rect_size r) :
    (0 ≤ rect_size (sub_rect r 0) ∧ rect_size (sub_rect r 0) < rect_size r) ∧
    (0 ≤ rect_size (sub_rect r 1) ∧ rect_size (sub_rect r 1) < rect_size r) ∧
    (0 ≤ rect_size (sub_rect r 2) ∧ rect_size (sub_rect r 2) < rect_size r) ∧
    (0 ≤ rect_size (sub_rect r 3) ∧ rect_size (sub_rect r 3) < rect_size r) := by
  have hsum := sub_rect_area_sum r
  obtain ⟨⟨w0, h0⟩, ⟨w1, h1⟩, ⟨w2, h2⟩, ⟨w3, h3⟩⟩ := sub_rect_nonneg r hw hh
  have a0 : 0 ≤ rect_size (sub_rect r 0) := mul_nonneg w0 h0
  have a1 : 0 ≤ rect_size (sub_rect r 1) := mul_nonneg w1 h1
  have a2 : 0 ≤ rect_size (sub_rect r 2) := mul_nonneg w2 h2
  have hwpos : 0 < r.width := by
    rcases eq_or_lt_of_le hw with e | e
    · simp [rect_size, ← e] at hbig
    · exact e
  have hhpos : 0 < r.height := by
    rcases eq_or_lt_of_le hh with e | e
    · simp [rect_size, ← e] at hbig
    · exact e
  have a3 : 0 < rect_size (sub_rect r 3) := by
    rw [sub_rect_3]
    exact mul_pos (by simp only; omega) (by simp only; omega)
  have a12 : 0 < rect_size (sub_rect r 1) + rect_size (sub_rect r 2) := by
    by_cases h2w : 2 ≤ r.width
    · have : 0 < rect_size (sub_rect r 2) := by
        rw [sub_rect_2]
        exact mul_pos (by simp only; omega) (by simp only; omega)
      omega
    · have hw1 : r.width = 1 := by omega
      have h2h : 2 ≤ r.height := by
        by_contra hc
        have hh1 : r.height = 1 := by omega
        simp [rect_size, hw1, hh1] at hbig
      have : 0 < rect_size (sub_rect r 1) := by
        rw [sub_rect_1]
        exact mul_pos (by simp only; omega) (by simp only; omega)
      omega
  omega

/-- The excess over the threshold of the four quadrants is smaller than that of
the parent. -/
theorem sub_rect_excess_lt (r : CvRect) (hw : 0 ≤ r.width) (hh : 0 ≤ r.height)
    (hbig : 16 < rect_size r) :
    (rect_size (sub_rect r 0) - 16).toNat + (rect_size (sub_rect r 1) - 16).toNat +
      (rect_size (sub_rect r 2) - 16).toNat + (rect_size (sub_rect r 3) - 16).toNat
      < (rect_size r - 16).toNat := by
  have hsum := sub_rect_area_sum r
  have := sub_rect_area_lt r hw hh hbig
  omega

/-! ### The frame of an update -/

/-- A leaf other than the updated one is where it was and as it was. -/
theorem at_update_other_leaf (f : quadnode → quadnode) {r r' : CvRect} {s s' : quadscore} :
    ∀ (p q : NodePath) (t : quadnode), t.at p = leaf r s → t.at q = leaf r' s' → p ≠ q →
      (t.update p f).at q = leaf r' s' := by
  intro p
  induction p with
  | nil =>
    intro q t hp hq hne
    cases q with
    | nil => exact absurd rfl hne
    | cons j q => rw [at_nil] at hp; rw [hp] at hq; exact absurd hq leaf_at_cons_false
  | cons i p ih =>
    intro q t hp hq hne
    have hnn : t.at (i :: p) ≠ quadnode.NULL := by rw [hp]; exact leaf_ne_NULL r s
    obtain ⟨hi, r0, s0, c0, c1, c2, c3, rfl⟩ := at_cons_ne_NULL hnn
    cases q with
    | nil => rw [at_nil] at hq; rw [hq] at hp; exact absurd hp leaf_at_cons_false
    | cons j q =>
      have hnn2 : (quadnode.node r0 s0 c0 c1 c2 c3).at (j :: q) ≠ quadnode.NULL := by
        rw [hq]; exact leaf_ne_NULL r' s'
      obtain ⟨hj, -⟩ := at_cons_ne_NULL hnn2
      rw [at_cons] at hp hq
      by_cases hij : i = j
      · subst hij
        have hpq : p ≠ q := fun e => hne (by rw [e])
        match i, hi, hp, hq with
        | 0, _, hp, hq => rw [update_cons_zero, at_cons]; exact ih q c0 hp hq hpq
        | 1, _, hp, hq => rw [update_cons_one, at_cons]; exact ih q c1 hp hq hpq
        | 2, _, hp, hq => rw [update_cons_two, at_cons]; exact ih q c2 hp hq hpq
        | 3, _, hp, hq => rw [update_cons_three, at_cons]; exact ih q c3 hp hq hpq
      · have key : ((quadnode.node r0 s0 c0 c1 c2 c3).update (i :: p) f).children j =
            (quadnode.node r0 s0 c0 c1 c2 c3).children j := by
          interval_cases i <;> interval_cases j <;>
            first
              | exact absurd rfl hij
              | simp [quadnode.update]
        rw [at_cons, key]; exact hq

/-! ### Invariants of a split -/

theorem rectsOK_leaf {r : CvRect} {s : quadscore} :
    (leaf r s).rectsOK ↔ 0 ≤ r.width ∧ 0 ≤ r.height := by
  simp [leaf, quadnode.rectsOK, quadnode.hasNoChildren]

theorem rectsOK_split_node_leaf (img : IplImage) {r : CvRect} {s : quadscore}
    (h : (leaf r s).rectsOK) (hbig : 16 < rect_size r) : (split_node img (leaf r s)).rectsOK := by
  obtain ⟨hw, hh⟩ := rectsOK_leaf.1 h
  obtain ⟨n0, n1, n2, n3⟩ := sub_rect_nonneg r hw hh
  rw [split_node_leaf]
  exact ⟨⟨hw, hh, fun _ => hbig⟩, rectsOK_leaf.2 n0, rectsOK_leaf.2 n1, rectsOK_leaf.2 n2,
    rectsOK_leaf.2 n3⟩

/-- The rectangle invariant holds in every subtree. -/
theorem rectsOK_at : ∀ (p : NodePath) (t : quadnode), t.rectsOK → (t.at p).rectsOK := by
  intro p
  induction p with
  | nil => intro t h; exact h
  | cons i p ih =>
    intro t h
    cases t with
    | NULL => simp [quadnode.rectsOK]
    | node r s c0 c1 c2 c3 =>
      obtain ⟨-, h0, h1, h2, h3⟩ := h
      rw [at_cons]
      match i with
      | 0 => exact ih c0 h0
      | 1 => exact ih c1 h1
      | 2 => exact ih c2 h2
      | 3 => exact ih c3 h3
      | i + 4 => rw [children_big _ _ (by omega), NULL_at]; trivial

/-- Splitting a leaf above the threshold keeps the rectangle invariant. -/
theorem rectsOK_update_split (img : IplImage) {r : CvRect} {s : quadscore}
    (hbig : 16 < rect_size r) :
    ∀ (p : NodePath) (t : quadnode), t.rectsOK → t.at p = leaf r s →
      (t.update p (split_node img)).rectsOK := by
  intro p
  induction p with
  | nil =>
    intro t h hp
    rw [at_nil] at hp
    subst hp
    rw [update_nil]
    exact rectsOK_split_node_leaf img h hbig
  | cons i p ih =>
    intro t h hp
    have hnn : t.at (i :: p) ≠ quadnode.NULL := by rw [hp]; exact leaf_ne_NULL r s
    obtain ⟨hi, r0, s0, c0, c1, c2, c3, rfl⟩ := at_cons_ne_NULL hnn
    obtain ⟨⟨hw, hh, hb⟩, h0, h1, h2, h3⟩ := h
    rw [at_cons] at hp
    match i, hi, hp with
    | 0, _, hp =>
      have hb' := hb (hasNoChildren_false_of_child (Or.inl (ne_NULL_of_at_eq_leaf hp)))
      rw [update_cons_zero]
      exact ⟨⟨hw, hh, fun _ => hb'⟩, ih c0 h0 hp, h1, h2, h3⟩
    | 1, _, hp =>
      have hb' := hb (hasNoChildren_false_of_child (Or.inr (Or.inl (ne_NULL_of_at_eq_leaf hp))))
      rw [update_cons_one]
      exact ⟨⟨hw, hh, fun _ => hb'⟩, h0, ih c1 h1 hp, h2, h3⟩
    | 2, _, hp =>
      have hb' := hb (hasNoChildren_false_of_child
        (Or.inr (Or.inr (Or.inl (ne_NULL_of_at_eq_leaf hp)))))
      rw [update_cons_two]
      exact ⟨⟨hw, hh, fun _ => hb'⟩, h0, h1, ih c2 h2 hp, h3⟩
    | 3, _, hp =>
      have hb' := hb (hasNoChildren_false_of_child
        (Or.inr (Or.inr (Or.inr (ne_NULL_of_at_eq_leaf hp)))))
      rw [update_cons_three]
      exact ⟨⟨hw, hh, fun _ => hb'⟩, h0, h1, h2, ih c3 h3 hp⟩

/-- Splitting a leaf keeps the sum of the areas of the leaves. -/
theorem leaf_area_update_split (img : IplImage) {t : quadnode} {p : NodePath} {r : CvRect}
    {s : quadscore} (hp : t.at p = leaf r s) :
    leaf_area (t.update p (split_node img)) = leaf_area t := by
  obtain ⟨l1, l2, e1, e2⟩ := leaves_update_split img r s p t [] hp
  have hsum := sub_rect_area_sum r
  unfold leaf_area
  rw [e1, e2, leaves_split_node_leaf]
  simp only [List.map_append, List.sum_append, List.map_cons, List.sum_cons, List.map_nil,
    List.sum_nil]
  omega

/-- Splitting a leaf above the threshold lowers the potential. -/
theorem excess_update_split (img : IplImage) {t : quadnode} {p : NodePath} {r : CvRect}
    {s : quadscore} (hp : t.at p = leaf r s) (hw : 0 ≤ r.width) (hh : 0 ≤ r.height)
    (hbig : 16 < rect_size r) :
    excess (t.update p (split_node img)) < excess t := by
  obtain ⟨l1, l2, e1, e2⟩ := leaves_update_split img r s p t [] hp
  have hlt := sub_rect_excess_lt r hw hh hbig
  unfold excess
  rw [e1, e2, leaves_split_node_leaf]
  simp only [List.map_append, List.sum_append, List.map_cons, List.sum_cons, List.map_nil,
    List.sum_nil]
  omega

/-! ### One successful call of `split_once` -/

/-- A successful `split_once` on a tree of the data model: the leaf it selects
and the tree it leaves. -/
theorem split_once_step {t : quadnode} (h : FourOrNone t) (img : IplImage)
    (hs : (split_once t img).1 = 0) :
    ∃ l1 x l2, t.leaves [] = l1 ++ x :: l2 ∧ find_biggest t = some x.path ∧
      t.at x.path = leaf x.rect x.score ∧ 16 < rect_size x.rect ∧ 0 < x.score.var ∧
      (∀ y ∈ l1, rect_size y.rect > 16 → y.score.var < x.score.var) ∧
      (∀ y ∈ l2, rect_size y.rect > 16 → y.score.var ≤ x.score.var) ∧
      (split_once t img).2 = t.update x.path (split_node img) := by
  rcases find_biggest_spec h with ⟨e, -⟩ | ⟨l1, x, l2, hL, hx, e, hpos, h1, h2⟩
  · rw [split_once_of_none img e] at hs
    simp at hs
  · have hmem : x ∈ t.leaves [] := by rw [hL]; simp
    obtain ⟨q, hq, hat⟩ := (mem_leaves_iff t [] x).1 hmem
    rw [List.nil_append] at hq
    rw [← hq] at hat
    exact ⟨l1, x, l2, hL, e, hat, hx, hpos, h1, h2, by rw [split_once_of_some img e]⟩

theorem split_once_FourOrNone {t : quadnode} (h : FourOrNone t) (img : IplImage)
    (hs : (split_once t img).1 = 0) : FourOrNone (split_once t img).2 := by
  obtain ⟨l1, x, l2, -, -, hat, -, -, -, -, e⟩ := split_once_step h img hs
  rw [e]
  exact h.update_split img x.path x.rect x.score hat

theorem split_once_leaf_area {t : quadnode} (h : FourOrNone t) (img : IplImage)
    (hs : (split_once t img).1 = 0) : leaf_area (split_once t img).2 = leaf_area t := by
  obtain ⟨l1, x, l2, -, -, hat, -, -, -, -, e⟩ := split_once_step h img hs
  rw [e]
  exact leaf_area_update_split img hat

theorem split_once_rectsOK {t : quadnode} (h : FourOrNone t) (hr : t.rectsOK) (img : IplImage)
    (hs : (split_once t img).1 = 0) : (split_once t img).2.rectsOK := by
  obtain ⟨l1, x, l2, -, -, hat, hbig, -, -, -, e⟩ := split_once_step h img hs
  rw [e]
  exact rectsOK_update_split img hbig x.path t hr hat

theorem split_once_excess {t : quadnode} (h : FourOrNone t) (hr : t.rectsOK) (img : IplImage)
    (hs : (split_once t img).1 = 0) : excess (split_once t img).2 < excess t := by
  obtain ⟨l1, x, l2, -, -, hat, hbig, -, -, -, e⟩ := split_once_step h img hs
  have hx := rectsOK_at x.path t hr
  rw [hat] at hx
  obtain ⟨hw, hh⟩ := rectsOK_leaf.1 hx
  rw [e]
  exact excess_update_split img hat hw hh hbig

/-! ### Sequences of successful calls -/

/-- A property that every successful `split_once` keeps holds after any number
of successful calls. -/
theorem split_times_induction (img : IplImage) (Inv : quadnode → Prop)
    (hstep : ∀ t, Inv t → (split_once t img).1 = 0 → Inv (split_once t img).2) :
    ∀ (k : Nat) (root t : quadnode), Inv root → split_times img k root = some t → Inv t := by
  intro k
  induction k with
  | zero =>
    intro root t h0 hk
    simp only [split_times, Option.some.injEq] at hk
    exact hk ▸ h0
  | succ k ih =>
    intro root t h0 hk
    rw [split_times] at hk
    split at hk
    · rename_i hs
      exact ih _ t (hstep root h0 hs) hk
    · simp at hk

theorem reachable_FourOrNone {img : IplImage} {rect : CvRect} {s0 : quadscore} {t : quadnode}
    (h : Reachable img (leaf rect s0) t) : FourOrNone t := by
  obtain ⟨k, hk⟩ := h
  exact split_times_induction img FourOrNone (fun t ht hs => split_once_FourOrNone ht img hs)
    k _ t (.single rect s0) hk

theorem reachable_rectsOK {img : IplImage} {rect : CvRect} {s0 : quadscore} {t : quadnode}
    (hw : 0 ≤ rect.width) (hh : 0 ≤ rect.height)
    (h : Reachable img (leaf rect s0) t) : t.rectsOK := by
  obtain ⟨k, hk⟩ := h
  exact (split_times_induction img (fun t => FourOrNone t ∧ t.rectsOK)
    (fun t ht hs => ⟨split_once_FourOrNone ht.1 img hs, split_once_rectsOK ht.1 ht.2 img hs⟩)
    k _ t ⟨.single rect s0, rectsOK_leaf.2 ⟨hw, hh⟩⟩ hk).2

/-- Every successful call uses up at least one unit of the potential. -/
theorem split_times_excess (img : IplImage) :
    ∀ (k : Nat) (root t : quadnode), FourOrNone root → root.rectsOK →
      split_times img k root = some t → excess t + k ≤ excess root := by
  intro k
  induction k with
  | zero =>
    intro root t _ _ hk
    simp only [split_times, Option.some.injEq] at hk
    subst hk
    simp
  | succ k ih =>
    intro root t hf hr hk
    rw [split_times] at hk
    split at hk
    · rename_i hs
      have h1 := ih _ t (split_once_FourOrNone hf img hs) (split_once_rectsOK hf hr img hs) hk
      have h2 := split_once_excess hf hr img hs
      omega
    · simp at hk

/-- The loop of `main` ends in a tree on which `split_once` returns -1 as soon as
its budget reaches the potential of the tree it starts from. -/
theorem main_loop_stops (img : IplImage) :
    ∀ (n : Nat) (root : quadnode), FourOrNone root → root.rectsOK → excess root ≤ n →
      (split_once (main_loop img n root) img).1 = -1 := by
  intro n
  induction n with
  | zero =>
    intro root hf hr hn
    rw [main_loop]
    rcases split_once_fst root img with hs | hs
    · have := split_once_excess hf hr img hs
      omega
    · exact hs
  | succ n ih =>
    intro root hf hr hn
    rw [main_loop]
    split
    · rename_i hs; exact hs
    · rename_i hs
      have hs0 : (split_once root img).1 = 0 := (split_once_fst root img).resolve_right hs
      have := split_once_excess hf hr img hs0
      exact ih _ (split_once_FourOrNone hf img hs0) (split_once_rectsOK hf hr img hs0) (by omega)

theorem excess_leaf (rect : CvRect) (s0 : quadscore) : excess (leaf rect s0) = split_bound rect := by
  simp [excess, leaves_leaf, split_bound]

theorem leaf_area_leaf (rect : CvRect) (s0 : quadscore) : leaf_area (leaf rect s0) = rect_size rect := by
  simp [leaf_area, leaves_leaf]

/-! ### The traversal on an arbitrary tree -/

/-- Whatever the shape of the tree, the node that `find_biggest_dfs` records is a
node that passes the test `quadnode_isleaf` and whose area is above the threshold. -/
theorem find_biggest_dfs_sound (t : quadnode) :
    ∀ (here : NodePath) (st : Option NodePath × quadscore),
      (find_biggest_dfs t here st).1 = st.1 ∨
      ∃ q, (find_biggest_dfs t here st).1 = some (here ++ q) ∧ t.at q ≠ quadnode.NULL ∧
        quadnode_isleaf (t.at q) = true ∧ 16 < rect_size (t.at q).rect := by
  induction t with
  | NULL => intro here st; left; rfl
  | node r s c0 c1 c2 c3 ih0 ih1 ih2 ih3 =>
    intro here st
    rw [find_biggest_dfs]
    split
    · rename_i hc
      simp only [Bool.and_eq_true, decide_eq_true_eq] at hc
      split
      · right
        exact ⟨[], by simp, by simp, by simpa using hc.1, by simpa [quadnode.rect] using hc.2⟩
      · left; rfl
    · simp only
      rcases ih3 (here ++ [3]) (find_biggest_dfs c2 (here ++ [2])
          (find_biggest_dfs c1 (here ++ [1]) (find_biggest_dfs c0 (here ++ [0]) st)))
        with e3 | ⟨q, e, hq⟩
      · rw [e3]
        rcases ih2 (here ++ [2]) (find_biggest_dfs c1 (here ++ [1])
            (find_biggest_dfs c0 (here ++ [0]) st)) with e2 | ⟨q, e, hq⟩
        · rw [e2]
          rcases ih1 (here ++ [1]) (find_biggest_dfs c0 (here ++ [0]) st) with e1 | ⟨q, e, hq⟩
          · rw [e1]
            rcases ih0 (here ++ [0]) st with e0 | ⟨q, e, hq⟩
            · left; exact e0
            · right; exact ⟨0 :: q, by simpa using e, by simpa using hq⟩
          · right; exact ⟨1 :: q, by simpa using e, by simpa using hq⟩
        · right; exact ⟨2 :: q, by simpa using e, by simpa using hq⟩
      · right; exact ⟨3 :: q, by simpa using e, by simpa using hq⟩

theorem find_biggest_sound {t : quadnode} {p : NodePath} (h : find_biggest t = some p) :
    t.at p ≠ quadnode.NULL ∧ quadnode_isleaf (t.at p) = true ∧ 16 < rect_size (t.at p).rect := by
  cases t with
  | NULL => simp [find_biggest] at h
  | node r s c0 c1 c2 c3 =>
    rw [find_biggest] at h
    rcases find_biggest_dfs_sound (quadnode.node r s c0 c1 c2 c3) [] (none, empty_score)
      with e | ⟨q, e, hq⟩
    · rw [h] at e; simp at e
    · rw [h] at e
      simp only [List.nil_append, Option.some.injEq] at e
      subst e
      exact hq

/-! ## Example runs -/

theorem main_root_eq (img : IplImage) :
    main_root img = leaf (get_rect img) (node_score img (get_rect img)) := rfl

theorem strip17_success : (split_once (main_root strip17) strip17).1 = 0 := by
  decide!

theorem strip17_reachable :
    Reachable strip17 (leaf (get_rect strip17) (node_score strip17 (get_rect strip17)))
      strip17_split :=
  ⟨1, by decide!⟩

/-! ## The split sequence: areas -/

/-- C3: in every tree obtained from a single-leaf root (`quadnode_new` on a
rectangle of non-negative width and height, whatever score the caller then
stores in it) by successful calls of `split_once`, the sum of `rect_size` over
the leaves is `rect_size` of the root rectangle. -/
theorem leaf_area_reachable (img : IplImage) (rect : CvRect) (s0 : quadscore) (t : quadnode)
    (_hw : 0 ≤ rect.width) (_hh : 0 ≤ rect.height)
    (h : Reachable img (leaf rect s0) t) : leaf_area t = rect_size rect := by
  obtain ⟨k, hk⟩ := h
  exact (split_times_induction img (fun t => FourOrNone t ∧ leaf_area t = rect_size rect)
    (fun t ht hs => ⟨split_once_FourOrNone ht.1 img hs,
      (split_once_leaf_area ht.1 img hs).trans ht.2⟩)
    k _ t ⟨.single rect s0, leaf_area_leaf rect s0⟩ hk).2

theorem leaf_area_reachable_witness :
    Reachable strip17 (leaf (get_rect strip17) (node_score strip17 (get_rect strip17)))
      strip17_split ∧
    leaf_area strip17_split = rect_size (get_rect strip17) :=
  ⟨strip17_reachable,
    leaf_area_reachable strip17 (get_rect strip17) (node_score strip17 (get_rect strip17))
      strip17_split (by decide) (by decide) strip17_reachable⟩

/-! ## The choice of `split_once` -/

/-- C4, as the claim states it, fails: on the 5×5 image of one colour the root is
a leaf of area 25, above the threshold, and `split_once` returns -1. -/
theorem split_once_uniform5 :
    ¬ ((split_once (main_root uniform5) uniform5).1 = -1 ↔
      ∀ y ∈ (main_root uniform5).leaves [], rect_size y.rect ≤ 16) := by
  decide!

/-- C4, amended: on a tree of the data model `split_once` returns -1 if and only
if no leaf of area above 16 has a score above 0, and then leaves the tree as it
is; it returns 0 if and only if some leaf of area above 16 has a score above 0,
and then it has subdivided such a leaf: the node is there with its rectangle
and score and with four leaf children, the four quadrants, each with its score.
In particular it returns -1 when every leaf has an area of at most 16. -/
theorem split_once_fails_iff (t : quadnode) (img : IplImage) (h : FourOrNone t) :
    ((split_once t img).1 = -1 ↔
      ∀ y ∈ t.leaves [], 16 < rect_size y.rect → y.score.var ≤ 0) ∧
    ((split_once t img).1 = 0 ↔
      ∃ y ∈ t.leaves [], 16 < rect_size y.rect ∧ 0 < y.score.var) ∧
    ((∀ y ∈ t.leaves [], rect_size y.rect ≤ 16) → (split_once t img).1 = -1) ∧
    ((split_once t img).1 = -1 → (split_once t img).2 = t) ∧
    ((split_once t img).1 = 0 →
      ∃ p r s, t.at p = leaf r s ∧ 16 < rect_size r ∧ 0 < s.var ∧
        (split_once t img).2 = t.update p (split_node img) ∧
        (split_once t img).2.at p =
          quadnode.node r s
            (leaf (sub_rect r 0) (node_score img (sub_rect r 0)))
            (leaf (sub_rect r 1) (node_score img (sub_rect r 1)))
            (leaf (sub_rect r 2) (node_score img (sub_rect r 2)))
            (leaf (sub_rect r 3) (node_score img (sub_rect r 3)))) := by
  have key : (split_once t img).1 = -1 ↔
      ∀ y ∈ t.leaves [], 16 < rect_size y.rect → y.score.var ≤ 0 := by
    rcases find_biggest_spec h with ⟨e, hall⟩ | ⟨l1, x, l2, hL, hx, e, hpos, -, -⟩
    · rw [split_once_of_none img e]
      exact ⟨fun _ => hall, fun _ => rfl⟩
    · rw [split_once_of_some img e]
      constructor
      · intro hc; simp at hc
      · intro hall
        have := hall x (by rw [hL]; simp) hx
        exact absurd hpos (not_lt.mpr this)
  refine ⟨key, ?_, ?_, ?_, ?_⟩
  · constructor
    · intro hs
      by_contra hc
      push_neg at hc
      have := key.2 (fun y hy hb => hc y hy hb)
      omega
    · rintro ⟨y, hy, hb, hpos⟩
      rcases split_once_fst t img with h0 | h1
      · exact h0
      · exact absurd hpos (not_lt.mpr (key.1 h1 y hy hb))
  · intro hall
    exact key.2 (fun y hy hb => absurd (hall y hy) (not_le.mpr hb))
  · intro hs
    rw [split_once_of_none img ((split_once_eq_neg_one_iff t img).1 hs)]
  · intro hs
    obtain ⟨l1, x, l2, -, e, hat, hbig, hpos, -, -, hup⟩ := split_once_step h img hs
    have hnode : (split_once t img).2.at x.path = split_node img (leaf x.rect x.score) := by
      rw [hup, at_update_self _ _ _ (by rw [hat]; exact leaf_ne_NULL _ _), hat]
    rw [split_node_leaf] at hnode
    exact ⟨x.path, x.rect, x.score, hat, hbig, hpos, hup, hnode⟩

theorem grad10_reachable :
    Reachable grad10 (leaf (get_rect grad10) (node_score grad10 (get_rect grad10)))
      grad10_split :=
  ⟨1, by decide!⟩

theorem split_once_fails_iff_witness :
    FourOrNone grad10_split ∧ (split_once grad10_split grad10).1 = 0 ∧
    (grad10_split.leaves []).length = 4 ∧
    ((split_once grad10_split grad10).2.leaves []).length = 7 ∧
    (((split_once grad10_split grad10).1 = -1 ↔
      ∀ y ∈ grad10_split.leaves [], 16 < rect_size y.rect → y.score.var ≤ 0) ∧
    ((split_once grad10_split grad10).1 = 0 ↔
      ∃ y ∈ grad10_split.leaves [], 16 < rect_size y.rect ∧ 0 < y.score.var) ∧
    ((∀ y ∈ grad10_split.leaves [], rect_size y.rect ≤ 16) →
      (split_once grad10_split grad10).1 = -1) ∧
    ((split_once grad10_split grad10).1 = -1 → (split_once grad10_split grad10).2 = grad10_split) ∧
    ((split_once grad10_split grad10).1 = 0 →
      ∃ p r s, grad10_split.at p = leaf r s ∧ 16 < rect_size r ∧ 0 < s.var ∧
        (split_once grad10_split grad10).2 = grad10_split.update p (split_node grad10) ∧
        (split_once grad10_split grad10).2.at p =
          quadnode.node r s
            (leaf (sub_rect r 0) (node_score grad10 (sub_rect r 0)))
            (leaf (sub_rect r 1) (node_score grad10 (sub_rect r 1)))
            (leaf (sub_rect r 2) (node_score grad10 (sub_rect r 2)))
            (leaf (sub_rect r 3) (node_score grad10 (sub_rect r 3))))) :=
  ⟨reachable_FourOrNone grad10_reachable, by decide!, by decide!, by decide!,
    split_once_fails_iff grad10_split grad10 (reachable_FourOrNone grad10_reachable)⟩

/-- C5: when `split_once` succeeds on a reachable tree, the node it subdivides
was a leaf of area above 16 whose score is at least the score of every leaf of
area above 16. -/
theorem split_once_greedy (img : IplImage) (rect : CvRect) (s0 : quadscore) (t : quadnode)
    (hR : Reachable img (leaf rect s0) t) (hs : (split_once t img).1 = 0) :
    ∃ p r s, find_biggest t = some p ∧
      (split_once t img).2 = t.update p (split_node img) ∧
      t.at p = leaf r s ∧ 16 < rect_size r ∧
      ∀ q r' s', t.at q = leaf r' s' → 16 < rect_size r' → s'.var ≤ s.var := by
  obtain ⟨l1, x, l2, hL, e, hat, hbig, -, h1, h2, hup⟩ :=
    split_once_step (reachable_FourOrNone hR) img hs
  refine ⟨x.path, x.rect, x.score, e, hup, hat, hbig, ?_⟩
  intro q r' s' hq hb
  have hmem : ({ path := q, rect := r', score := s' } : LeafInfo) ∈ t.leaves [] :=
    (mem_leaves_iff t [] _).2 ⟨q, by simp, hq⟩
  rw [hL, List.mem_append, List.mem_cons] at hmem
  rcases hmem with hm | hm | hm
  · exact le_of_lt (h1 _ hm hb)
  · rw [← hm]
  · exact h2 _ hm hb

theorem split_once_greedy_witness :
    Reachable grad10 (leaf (get_rect grad10) (node_score grad10 (get_rect grad10)))
      grad10_split ∧
    (split_once grad10_split grad10).1 = 0 ∧
    (grad10_split.leaves []).map (fun l => (l.path, l.score.var)) =
      [([0], 2124), ([1], 3975406 / 625), ([2], 3975406 / 625), ([3], 3406446 / 625)] ∧
    (∀ l ∈ grad10_split.leaves [], 16 < rect_size l.rect) ∧
    find_biggest grad10_split = some [1] ∧
    ∃ p r s, find_biggest grad10_split = some p ∧
      (split_once grad10_split grad10).2 = grad10_split.update p (split_node grad10) ∧
      grad10_split.at p = leaf r s ∧ 16 < rect_size r ∧
      ∀ q r' s', grad10_split.at q = leaf r' s' → 16 < rect_size r' → s'.var ≤ s.var :=
  ⟨grad10_reachable, by decide!, by decide!, by decide!, by decide!,
    split_once_greedy grad10 (get_rect grad10) (node_score grad10 (get_rect grad10))
      grad10_split grad10_reachable (by decide!)⟩

/-- C6: when `split_once` succeeds, the leaf it selects stands in the pre-order
list of the leaves (children in the order 0, 1, 2, 3) after no leaf of area
above 16 with the same score, and no leaf of area above 16 has a greater score:
among the leaves above the threshold that share the greatest score the first
one in traversal order is split. -/
theorem split_once_tie_break (t : quadnode) (img : IplImage) (hf : FourOrNone t)
    (hs : (split_once t img).1 = 0) :
    ∃ l1 x l2, t.leaves [] = l1 ++ x :: l2 ∧ find_biggest t = some x.path ∧
      (split_once t img).2 = t.update x.path (split_node img) ∧
      t.at x.path = leaf x.rect x.score ∧ 16 < rect_size x.rect ∧
      (∀ y ∈ l1, 16 < rect_size y.rect → y.score.var ≠ x.score.var) ∧
      (∀ y ∈ t.leaves [], 16 < rect_size y.rect → y.score.var ≤ x.score.var) := by
  obtain ⟨l1, x, l2, hL, e, hat, hbig, -, h1, h2, hup⟩ := split_once_step hf img hs
  refine ⟨l1, x, l2, hL, e, hup, hat, hbig, fun y hy hb => ne_of_lt (h1 y hy hb), ?_⟩
  intro y hy hb
  rw [hL, List.mem_append, List.mem_cons] at hy
  rcases hy with hm | hm | hm
  · exact le_of_lt (h1 _ hm hb)
  · rw [hm]
  · exact h2 _ hm hb

theorem tie_tree_FourOrNone : FourOrNone tie_tree :=
  FourOrNone.inner _ _ _ _ _ _ (.single _ _) (.single _ _) (.single _ _) (.single _ _)

theorem split_once_tie_break_witness :
    FourOrNone tie_tree ∧ (split_once tie_tree uniform4).1 = 0 ∧
    find_biggest tie_tree = some [1] ∧
    ∃ l1 x l2, tie_tree.leaves [] = l1 ++ x :: l2 ∧ find_biggest tie_tree = some x.path ∧
      (split_once tie_tree uniform4).2 = tie_tree.update x.path (split_node uniform4) ∧
      tie_tree.at x.path = leaf x.rect x.score ∧ 16 < rect_size x.rect ∧
      (∀ y ∈ l1, 16 < rect_size y.rect → y.score.var ≠ x.score.var) ∧
      (∀ y ∈ tie_tree.leaves [], 16 < rect_size y.rect → y.score.var ≤ x.score.var) :=
  ⟨tie_tree_FourOrNone, by decide, by decide,
    split_once_tie_break tie_tree uniform4 tie_tree_FourOrNone (by decide)⟩

/-! ## Threshold, children, termination, rectangles -/

theorem at_append (p q : NodePath) : ∀ t : quadnode, t.at (p ++ q) = (t.at p).at q := by
  induction p with
  | nil => intro t; rfl
  | cons i p ih => intro t; simp [ih]

theorem find_biggest_leaf_small {r : CvRect} {s : quadscore} (ha : rect_size r ≤ 16) :
    find_biggest (leaf r s) = none := by
  have : ¬ (16 < rect_size r) := not_lt.mpr ha
  simp [find_biggest, find_biggest_dfs, leaf, this]

/-- C7: a leaf whose area is at most 16 (in particular exactly 16) is never the
node that `find_biggest` returns, whatever the tree; in a tree of the data model
it is still the same leaf after `split_once`; and on a single-leaf tree whose
root has an area of at most 16 `split_once` returns -1 and leaves the tree as it is. -/
theorem threshold_boundary (t : quadnode) (img : IplImage) (q : NodePath) (r : CvRect)
    (s : quadscore) (hq : t.at q = leaf r s) (ha : rect_size r ≤ 16) :
    find_biggest t ≠ some q ∧
    (FourOrNone t → (split_once t img).2.at q = leaf r s) ∧
    (q = [] → split_once t img = (-1, t)) := by
  have h1 : find_biggest t ≠ some q := by
    intro e
    have := (find_biggest_sound e).2.2
    rw [hq] at this
    simp only [leaf, quadnode.rect] at this
    omega
  refine ⟨h1, ?_, ?_⟩
  · intro hf
    rcases split_once_fst t img with hs | hs
    · obtain ⟨l1, x, l2, -, e, hat, -, -, -, -, hup⟩ := split_once_step hf img hs
      rw [hup]
      exact at_update_other_leaf _ x.path q t hat hq (fun hxq => h1 (hxq ▸ e))
    · rw [split_once_of_none img ((split_once_eq_neg_one_iff t img).1 hs)]
      exact hq
  · intro hnil
    subst hnil
    rw [at_nil] at hq
    subst hq
    exact split_once_of_none img (find_biggest_leaf_small ha)

theorem threshold_boundary_witness :
    (main_root uniform4).at [] = leaf (get_rect uniform4) (node_score uniform4 (get_rect uniform4)) ∧
    rect_size (get_rect uniform4) = 16 ∧
    find_biggest (main_root uniform4) ≠ some [] ∧
    (FourOrNone (main_root uniform4) → (split_once (main_root uniform4) uniform4).2.at [] =
      leaf (get_rect uniform4) (node_score uniform4 (get_rect uniform4))) ∧
    (([] : NodePath) = [] → split_once (main_root uniform4) uniform4 = (-1, main_root uniform4)) :=
  ⟨rfl, by decide,
    threshold_boundary (main_root uniform4) uniform4 [] (get_rect uniform4)
      (node_score uniform4 (get_rect uniform4)) rfl (by decide)⟩

/-- The node that a successful `split_once` selected, after the call. -/
theorem split_once_node {t : quadnode} (hf : FourOrNone t) (img : IplImage)
    (hs : (split_once t img).1 = 0) :
    ∃ p r s, find_biggest t = some p ∧ t.at p = leaf r s ∧ 16 < rect_size r ∧
      (split_once t img).2.at p =
        quadnode.node r s
          (leaf (sub_rect r 0) (node_score img (sub_rect r 0)))
          (leaf (sub_rect r 1) (node_score img (sub_rect r 1)))
          (leaf (sub_rect r 2) (node_score img (sub_rect r 2)))
          (leaf (sub_rect r 3) (node_score img (sub_rect r 3))) := by
  obtain ⟨l1, x, l2, -, e, hat, hbig, -, -, -, hup⟩ := split_once_step hf img hs
  have hnode : (split_once t img).2.at x.path = split_node img (leaf x.rect x.score) := by
    rw [hup, at_update_self _ _ _ (by rw [hat]; exact leaf_ne_NULL _ _), hat]
  rw [split_node_leaf] at hnode
  exact ⟨x.path, x.rect, x.score, e, hat, hbig, hnode⟩

/-- C8: right after a successful `split_once` on a reachable tree, the selected
node, a leaf before the call, has four children and is no longer a leaf; child
`i` is a leaf whose rectangle is `sub_rect` of the parent's rectangle at `i` and
whose score is `node_score` of the image on that rectangle; the parent keeps its
rectangle and its score. -/
theorem split_once_children (img : IplImage) (rect : CvRect) (s0 : quadscore) (t : quadnode)
    (hR : Reachable img (leaf rect s0) t) (hs : (split_once t img).1 = 0) :
    ∃ p r s, find_biggest t = some p ∧ t.at p = leaf r s ∧
      (split_once t img).2.at p =
        quadnode.node r s
          (leaf (sub_rect r 0) (node_score img (sub_rect r 0)))
          (leaf (sub_rect r 1) (node_score img (sub_rect r 1)))
          (leaf (sub_rect r 2) (node_score img (sub_rect r 2)))
          (leaf (sub_rect r 3) (node_score img (sub_rect r 3))) ∧
      quadnode_isleaf ((split_once t img).2.at p) = false ∧
      ((split_once t img).2.at p).hasNoChildren = false ∧
      ∀ i : Nat, i < 4 →
        ((split_once t img).2.at p).children i =
          leaf (sub_rect r (i : Int)) (node_score img (sub_rect r (i : Int))) := by
  obtain ⟨p, r, s, e, hat, -, hnode⟩ := split_once_node (reachable_FourOrNone hR) img hs
  refine ⟨p, r, s, e, hat, hnode, ?_, ?_, ?_⟩
  · rw [hnode]; rfl
  · rw [hnode]; rfl
  · intro i hi
    rw [hnode]
    interval_cases i <;> rfl

theorem split_once_children_witness :
    Reachable strip17 (leaf (get_rect strip17) (node_score strip17 (get_rect strip17)))
      (main_root strip17) ∧
    (split_once (main_root strip17) strip17).1 = 0 ∧
    ∃ p r s, find_biggest (main_root strip17) = some p ∧ (main_root strip17).at p = leaf r s ∧
      (split_once (main_root strip17) strip17).2.at p =
        quadnode.node r s
          (leaf (sub_rect r 0) (node_score strip17 (sub_rect r 0)))
          (leaf (sub_rect r 1) (node_score strip17 (sub_rect r 1)))
          (leaf (sub_rect r 2) (node_score strip17 (sub_rect r 2)))
          (leaf (sub_rect r 3) (node_score strip17 (sub_rect r 3))) ∧
      quadnode_isleaf ((split_once (main_root strip17) strip17).2.at p) = false ∧
      ((split_once (main_root strip17) strip17).2.at p).hasNoChildren = false ∧
      ∀ i : Nat, i < 4 →
        ((split_once (main_root strip17) strip17).2.at p).children i =
          leaf (sub_rect r (i : Int)) (node_score strip17 (sub_rect r (i : Int))) :=
  ⟨⟨0, rfl⟩, strip17_success,
    split_once_children strip17 (get_rect strip17) (node_score strip17 (get_rect strip17))
      (main_root strip17) ⟨0, rfl⟩ strip17_success⟩

/-- C9: for a root rectangle of positive width and height, whatever the image
and the root's score, at most `split_bound rect` calls of `split_once` succeed
(the bound depends on the root rectangle alone), a loop that runs at least that
many calls ends in a tree on which `split_once` returns -1, and every successful
call replaces a leaf by four leaves each of strictly smaller area. -/
theorem split_once_terminates (img : IplImage) (rect : CvRect) (s0 : quadscore)
    (hw : 0 < rect.width) (hh : 0 < rect.height) :
    (∀ k t, split_times img k (leaf rect s0) = some t → k ≤ split_bound rect) ∧
    (∀ n, split_bound rect ≤ n →
      (split_once (main_loop img n (leaf rect s0)) img).1 = -1) ∧
    (∀ t, Reachable img (leaf rect s0) t → (split_once t img).1 = 0 →
      ∃ p r s, find_biggest t = some p ∧ t.at p = leaf r s ∧
        ∀ i : Nat, i < 4 →
          (split_once t img).2.at (p ++ [i]) =
            leaf (sub_rect r (i : Int)) (node_score img (sub_rect r (i : Int))) ∧
          rect_size (sub_rect r (i : Int)) < rect_size r) := by
  have hok : (leaf rect s0).rectsOK := rectsOK_leaf.2 ⟨le_of_lt hw, le_of_lt hh⟩
  refine ⟨?_, ?_, ?_⟩
  · intro k t hk
    have := split_times_excess img k _ t (.single rect s0) hok hk
    rw [excess_leaf] at this
    omega
  · intro n hn
    exact main_loop_stops img n _ (.single rect s0) hok (by rw [excess_leaf]; exact hn)
  · intro t hR hs
    obtain ⟨p, r, s, e, hat, hbig, hnode⟩ := split_once_node (reachable_FourOrNone hR) img hs
    have hr := rectsOK_at p t (reachable_rectsOK (le_of_lt hw) (le_of_lt hh) hR)
    rw [hat] at hr
    obtain ⟨hrw, hrh⟩ := rectsOK_leaf.1 hr
    have hlt := sub_rect_area_lt r hrw hrh hbig
    refine ⟨p, r, s, e, hat, ?_⟩
    intro i hi
    refine ⟨?_, ?_⟩
    · rw [at_append, at_cons, at_nil, hnode]
      interval_cases i <;> rfl
    · interval_cases i
      · exact hlt.1.2
      · exact hlt.2.1.2
      · exact hlt.2.2.1.2
      · exact hlt.2.2.2.2

theorem split_once_terminates_witness :
    0 < (get_rect strip17).width ∧ 0 < (get_rect strip17).height ∧
    split_bound (get_rect strip17) = 1 ∧
    (∀ k t, split_times strip17 k (main_root strip17) = some t → k ≤ split_bound (get_rect strip17)) ∧
    (∀ n, split_bound (get_rect strip17) ≤ n →
      (split_once (main_loop strip17 n (main_root strip17)) strip17).1 = -1) ∧
    (∀ t, Reachable strip17 (main_root strip17) t → (split_once t strip17).1 = 0 →
      ∃ p r s, find_biggest t = some p ∧ t.at p = leaf r s ∧
        ∀ i : Nat, i < 4 →
          (split_once t strip17).2.at (p ++ [i]) =
            leaf (sub_rect r (i : Int)) (node_score strip17 (sub_rect r (i : Int))) ∧
          rect_size (sub_rect r (i : Int)) < rect_size r) :=
  ⟨by decide, by decide, by decide,
    split_once_terminates strip17 (get_rect strip17) (node_score strip17 (get_rect strip17))
      (by decide) (by decide)⟩

/-- Splitting a leaf does not move the rectangle of the root. -/
theorem rect_update_split (img : IplImage) {t : quadnode} {p : NodePath} {r : CvRect}
    {s : quadscore} (hp : t.at p = leaf r s) : (t.update p (split_node img)).rect = t.rect := by
  cases p with
  | nil =>
    rw [at_nil] at hp
    subst hp
    rw [update_nil, split_node_leaf]
    rfl
  | cons i p =>
    have hnn : t.at (i :: p) ≠ quadnode.NULL := by rw [hp]; exact leaf_ne_NULL r s
    obtain ⟨hi, r0, s0, c0, c1, c2, c3, rfl⟩ := at_cons_ne_NULL hnn
    interval_cases i <;> simp [quadnode.update, quadnode.rect]

/-- C10, the code at the failing input: the 1×17 image has a root of positive
width and height and area 17, above the threshold; the first `split_once` of
`main` succeeds on it and child 0 of the root is then a node whose rectangle
is `(0, 0, 0, 8)`, of width 0 and area 0.  That area is the divisor `n` of
`variance` and of `mean_color`: `mean_color` on the rectangle is killed by the
division, and so is `render` on the tree. -/
theorem strip17_zero_width :
    0 < (get_rect strip17).width ∧ 0 < (get_rect strip17).height ∧
    split_times strip17 1 (main_root strip17) = some strip17_split ∧
    strip17_split.at [0] ≠ quadnode.NULL ∧
    (strip17_split.at [0]).rect = ⟨0, 0, 0, 8⟩ ∧
    (strip17_split.at [2]).rect = ⟨0, 8, 0, 9⟩ ∧
    ¬ (0 < (strip17_split.at [0]).rect.width ∧ 0 < (strip17_split.at [0]).rect.height) ∧
    rect_size (strip17_split.at [0]).rect = 0 ∧
    mean_color strip17 (strip17_split.at [0]).rect = none ∧
    (render strip17_split strip17 (plain_raster 1 17 0)).isNone = true := by
  decide!

/-! ## No partial split, and the frame of a split -/

theorem size_leaf (r : CvRect) (s : quadscore) : (leaf r s).size = 1 := rfl

theorem size_split_node_leaf (img : IplImage) (r : CvRect) (s : quadscore) :
    (split_node img (leaf r s)).size = 5 := by
  rw [split_node_leaf]; rfl

/-- Splitting a leaf adds four nodes. -/
theorem size_update_split (img : IplImage) {r : CvRect} {s : quadscore} :
    ∀ (p : NodePath) (t : quadnode), t.at p = leaf r s →
      (t.update p (split_node img)).size = t.size + 4 := by
  intro p
  induction p with
  | nil =>
    intro t hp
    rw [at_nil] at hp
    subst hp
    rw [update_nil, size_split_node_leaf, size_leaf]
  | cons i p ih =>
    intro t hp
    have hnn : t.at (i :: p) ≠ quadnode.NULL := by rw [hp]; exact leaf_ne_NULL r s
    obtain ⟨hi, r0, s0, c0, c1, c2, c3, rfl⟩ := at_cons_ne_NULL hnn
    rw [at_cons] at hp
    match i, hi, hp with
    | 0, _, hp => rw [update_cons_zero]; simp only [quadnode.size, ih c0 hp]; omega
    | 1, _, hp => rw [update_cons_one]; simp only [quadnode.size, ih c1 hp]; omega
    | 2, _, hp => rw [update_cons_two]; simp only [quadnode.size, ih c2 hp]; omega
    | 3, _, hp => rw [update_cons_three]; simp only [quadnode.size, ih c3 hp]; omega

/-- Splitting a leaf puts four leaves in the place of one. -/
theorem length_leaves_update_split (img : IplImage) {t : quadnode} {p : NodePath} {r : CvRect}
    {s : quadscore} (hp : t.at p = leaf r s) :
    ((t.update p (split_node img)).leaves []).length = (t.leaves []).length + 3 := by
  obtain ⟨l1, l2, e1, e2⟩ := leaves_update_split img r s p t [] hp
  rw [e1, e2, leaves_split_node_leaf]
  simp only [List.length_append, List.length_cons, List.length_nil]
  omega

/-- After the split of the leaf under `p`, the nodes that were there are still
there with their rectangle and their score. -/
theorem at_update_split_keeps (img : IplImage) {r : CvRect} {s : quadscore} :
    ∀ (p q : NodePath) (t : quadnode), t.at p = leaf r s → t.at q ≠ quadnode.NULL →
      (t.update p (split_node img)).at q ≠ quadnode.NULL ∧
      ((t.update p (split_node img)).at q).rect = (t.at q).rect ∧
      ((t.update p (split_node img)).at q).score = (t.at q).score := by
  intro p
  induction p with
  | nil =>
    intro q t hp hq
    rw [at_nil] at hp
    subst hp
    cases q with
    | nil =>
      rw [update_nil, at_nil, at_nil, split_node_leaf]
      exact ⟨by simp, rfl, rfl⟩
    | cons j q =>
      exfalso
      apply hq
      have e : (leaf r s).children j = quadnode.NULL := by
        match j with
        | 0 | 1 | 2 | 3 => rfl
        | j + 4 => exact children_big _ _ (by omega)
      rw [at_cons, e, NULL_at]
  | cons i p ih =>
    intro q t hp hq
    have hnn : t.at (i :: p) ≠ quadnode.NULL := by rw [hp]; exact leaf_ne_NULL r s
    obtain ⟨hi, r0, s0, c0, c1, c2, c3, rfl⟩ := at_cons_ne_NULL hnn
    cases q with
    | nil =>
      rw [at_nil, at_nil]
      interval_cases i <;> simp [quadnode.update, quadnode.rect, quadnode.score]
    | cons j q =>
      obtain ⟨hj, -⟩ := at_cons_ne_NULL hq
      rw [at_cons] at hp hq
      by_cases hij : i = j
      · subst hij
        match i, hi, hp, hq with
        | 0, _, hp, hq => rw [update_cons_zero, at_cons, at_cons]; exact ih q c0 hp hq
        | 1, _, hp, hq => rw [update_cons_one, at_cons, at_cons]; exact ih q c1 hp hq
        | 2, _, hp, hq => rw [update_cons_two, at_cons, at_cons]; exact ih q c2 hp hq
        | 3, _, hp, hq => rw [update_cons_three, at_cons, at_cons]; exact ih q c3 hp hq
      · have key : ((quadnode.node r0 s0 c0 c1 c2 c3).update (i :: p) (split_node img)).children j =
            (quadnode.node r0 s0 c0 c1 c2 c3).children j := by
          interval_cases i <;> interval_cases j <;>
            first
              | exact absurd rfl hij
              | simp [quadnode.update]
        rw [at_cons, at_cons, key]
        exact ⟨hq, rfl, rfl⟩

/-- After the split of the leaf under `p`, the only new nodes are the four
children of that leaf. -/
theorem at_update_split_new (img : IplImage) {r : CvRect} {s : quadscore} :
    ∀ (p q : NodePath) (t : quadnode), t.at p = leaf r s →
      (t.update p (split_node img)).at q ≠ quadnode.NULL →
      t.at q ≠ quadnode.NULL ∨ ∃ i : Nat, i < 4 ∧ q = p ++ [i] := by
  intro p
  induction p with
  | nil =>
    intro q t hp hq
    rw [at_nil] at hp
    subst hp
    rw [update_nil, split_node_leaf] at hq
    match q, hq with
    | [], _ => left; simp [leaf]
    | [j], hq =>
      right
      obtain ⟨hj, -⟩ := at_cons_ne_NULL hq
      exact ⟨j, hj, rfl⟩
    | j :: k :: q, hq =>
      exfalso
      apply hq
      obtain ⟨hj, -⟩ := at_cons_ne_NULL hq
      have e : ∀ (r' : CvRect) (s' : quadscore), (leaf r' s').children k = quadnode.NULL := by
        intro r' s'
        match k with
        | 0 | 1 | 2 | 3 => rfl
        | k + 4 => exact children_big _ _ (by omega)
      interval_cases j <;> simp [e]
  | cons i p ih =>
    intro q t hp hq
    have hnn : t.at (i :: p) ≠ quadnode.NULL := by rw [hp]; exact leaf_ne_NULL r s
    obtain ⟨hi, r0, s0, c0, c1, c2, c3, rfl⟩ := at_cons_ne_NULL hnn
    cases q with
    | nil => left; simp
    | cons j q =>
      obtain ⟨hj, -⟩ := at_cons_ne_NULL hq
      rw [at_cons] at hp hq
      by_cases hij : i = j
      · subst hij
        have lift : ((quadnode.node r0 s0 c0 c1 c2 c3).children i).at q ≠ quadnode.NULL ∨
            (∃ k : Nat, k < 4 ∧ q = p ++ [k]) →
            (quadnode.node r0 s0 c0 c1 c2 c3).at (i :: q) ≠ quadnode.NULL ∨
              ∃ k : Nat, k < 4 ∧ i :: q = i :: p ++ [k] := by
          rintro (h | ⟨k, hk, e⟩)
          · left; simpa using h
          · right; exact ⟨k, hk, by simp [e]⟩
        apply lift
        match i, hi, hp, hq with
        | 0, _, hp, hq => rw [update_cons_zero] at hq; exact ih q c0 hp hq
        | 1, _, hp, hq => rw [update_cons_one] at hq; exact ih q c1 hp hq
        | 2, _, hp, hq => rw [update_cons_two] at hq; exact ih q c2 hp hq
        | 3, _, hp, hq => rw [update_cons_three] at hq; exact ih q c3 hp hq
      · have key : ((quadnode.node r0 s0 c0 c1 c2 c3).update (i :: p) (split_node img)).children j =
            (quadnode.node r0 s0 c0 c1 c2 c3).children j := by
          interval_cases i <;> interval_cases j <;>
            first
              | exact absurd rfl hij
              | simp [quadnode.update]
        rw [key] at hq
        left
        simpa using hq

/-- C17: when `split_once` returns -1 the tree is unchanged; when it returns 0
(on a tree whose nodes have no child or four children) four nodes were added,
all of them as the children of one node that was a leaf, every node that was
there is still there with its rectangle and score, the number of nodes grew by
4 and the number of leaves by 3. -/
theorem split_once_no_partial (t : quadnode) (img : IplImage) (hf : FourOrNone t) :
    ((split_once t img).1 = -1 → (split_once t img).2 = t) ∧
    ((split_once t img).1 = 0 →
      ∃ p r s, find_biggest t = some p ∧ t.at p = leaf r s ∧
        (∀ i : Nat, i < 4 → t.at (p ++ [i]) = quadnode.NULL ∧
          ((split_once t img).2.at (p ++ [i])).hasNoChildren = true) ∧
        (∀ q, (split_once t img).2.at q ≠ quadnode.NULL →
          t.at q ≠ quadnode.NULL ∨ ∃ i : Nat, i < 4 ∧ q = p ++ [i]) ∧
        (∀ q, t.at q ≠ quadnode.NULL →
          (split_once t img).2.at q ≠ quadnode.NULL ∧
          ((split_once t img).2.at q).rect = (t.at q).rect ∧
          ((split_once t img).2.at q).score = (t.at q).score) ∧
        (split_once t img).2.size = t.size + 4 ∧
        ((split_once t img).2.leaves []).length = (t.leaves []).length + 3) := by
  refine ⟨?_, ?_⟩
  · intro h
    rw [split_once_of_none img ((split_once_eq_neg_one_iff t img).1 h)]
  · intro hs
    obtain ⟨l1, x, l2, -, e, hat, -, -, -, -, hup⟩ := split_once_step hf img hs
    obtain ⟨p, r, s, e', hat', -, hnode⟩ := split_once_node hf img hs
    have hp : p = x.path := by rw [e] at e'; exact (Option.some.inj e').symm
    subst hp
    refine ⟨x.path, r, s, e, hat', ?_, ?_, ?_, ?_, ?_⟩
    · intro i hi
      constructor
      · rw [at_append, hat', at_cons, at_nil]
        interval_cases i <;> rfl
      · rw [at_append, hnode, at_cons, at_nil]
        interval_cases i <;> rfl
    · intro q hq
      rw [hup] at hq
      exact at_update_split_new img x.path q t hat hq
    · intro q hq
      rw [hup]
      exact at_update_split_keeps img x.path q t hat hq
    · rw [hup]; exact size_update_split img x.path t hat
    · rw [hup]; exact length_leaves_update_split img hat

theorem split_once_no_partial_witness :
    FourOrNone tie_tree ∧ (split_once tie_tree uniform4).1 = 0 ∧
    (split_once tie_tree uniform4).2.size = 9 ∧
    ((split_once tie_tree uniform4).2.leaves []).length = 7 ∧
    ((split_once tie_tree uniform4).1 = -1 → (split_once tie_tree uniform4).2 = tie_tree) ∧
    ((split_once tie_tree uniform4).1 = 0 →
      ∃ p r s, find_biggest tie_tree = some p ∧ tie_tree.at p = leaf r s ∧
        (∀ i : Nat, i < 4 → tie_tree.at (p ++ [i]) = quadnode.NULL ∧
          ((split_once tie_tree uniform4).2.at (p ++ [i])).hasNoChildren = true) ∧
        (∀ q, (split_once tie_tree uniform4).2.at q ≠ quadnode.NULL →
          tie_tree.at q ≠ quadnode.NULL ∨ ∃ i : Nat, i < 4 ∧ q = p ++ [i]) ∧
        (∀ q, tie_tree.at q ≠ quadnode.NULL →
          (split_once tie_tree uniform4).2.at q ≠ quadnode.NULL ∧
          ((split_once tie_tree uniform4).2.at q).rect = (tie_tree.at q).rect ∧
          ((split_once tie_tree uniform4).2.at q).score = (tie_tree.at q).score) ∧
        (split_once tie_tree uniform4).2.size = tie_tree.size + 4 ∧
        ((split_once tie_tree uniform4).2.leaves []).length = (tie_tree.leaves []).length + 3) :=
  ⟨tie_tree_FourOrNone, by decide, by decide!, by decide!,
    split_once_no_partial tie_tree uniform4 tie_tree_FourOrNone⟩

/-- C18: a successful `split_once` (on a tree whose nodes have no child or four
children) keeps the rectangle and the score of every node that was there, the
selected node included; every node other than the selected one keeps its child
slots, empty ones empty and filled ones filled with the same child; the selected
leaf keeps its rectangle and score and gets its four child slots filled. -/
theorem split_once_frame (t : quadnode) (img : IplImage) (hf : FourOrNone t)
    (hs : (split_once t img).1 = 0) :
    ∃ p r s, find_biggest t = some p ∧ t.at p = leaf r s ∧
      (∀ q, t.at q ≠ quadnode.NULL →
        (split_once t img).2.at q ≠ quadnode.NULL ∧
        ((split_once t img).2.at q).rect = (t.at q).rect ∧
        ((split_once t img).2.at q).score = (t.at q).score) ∧
      (∀ q, q ≠ p → t.at q ≠ quadnode.NULL → ∀ i : Nat,
        (((split_once t img).2.at q).children i = quadnode.NULL ↔
          (t.at q).children i = quadnode.NULL)) ∧
      (∀ i : Nat, i < 4 → (t.at p).children i = quadnode.NULL ∧
        ((split_once t img).2.at p).children i ≠ quadnode.NULL) := by
  obtain ⟨l1, x, l2, -, e, hat, -, -, -, -, hup⟩ := split_once_step hf img hs
  have hnode : (split_once t img).2.at x.path = split_node img (leaf x.rect x.score) := by
    rw [hup, at_update_self _ _ _ (by rw [hat]; exact leaf_ne_NULL _ _), hat]
  rw [split_node_leaf] at hnode
  refine ⟨x.path, x.rect, x.score, e, hat, ?_, ?_, ?_⟩
  · intro q hq
    rw [hup]
    exact at_update_split_keeps img x.path q t hat hq
  · intro q hqp hq i
    have e1 : ((split_once t img).2.at q).children i = (split_once t img).2.at (q ++ [i]) := by
      rw [at_append, at_cons, at_nil]
    have e2 : (t.at q).children i = t.at (q ++ [i]) := by
      rw [at_append, at_cons, at_nil]
    rw [e1, e2]
    constructor
    · intro h1
      by_contra h2
      have := (at_update_split_keeps img x.path (q ++ [i]) t hat h2).1
      rw [← hup] at this
      exact this h1
    · intro h1
      by_contra h2
      rw [hup] at h2
      rcases at_update_split_new img x.path (q ++ [i]) t hat h2 with h3 | ⟨k, -, hk⟩
      · exact h3 h1
      · have := List.append_inj_left' hk (by simp)
        exact hqp this
  · intro i hi
    rw [hat, hnode]
    interval_cases i <;> exact ⟨rfl, by simp [leaf]⟩

theorem split_once_frame_witness :
    FourOrNone (main_root strip17) ∧ (split_once (main_root strip17) strip17).1 = 0 ∧
    ∃ p r s, find_biggest (main_root strip17) = some p ∧ (main_root strip17).at p = leaf r s ∧
      (∀ q, (main_root strip17).at q ≠ quadnode.NULL →
        (split_once (main_root strip17) strip17).2.at q ≠ quadnode.NULL ∧
        ((split_once (main_root strip17) strip17).2.at q).rect = ((main_root strip17).at q).rect ∧
        ((split_once (main_root strip17) strip17).2.at q).score =
          ((main_root strip17).at q).score) ∧
      (∀ q, q ≠ p → (main_root strip17).at q ≠ quadnode.NULL → ∀ i : Nat,
        (((split_once (main_root strip17) strip17).2.at q).children i = quadnode.NULL ↔
          ((main_root strip17).at q).children i = quadnode.NULL)) ∧
      (∀ i : Nat, i < 4 → ((main_root strip17).at p).children i = quadnode.NULL ∧
        ((split_once (main_root strip17) strip17).2.at p).children i ≠ quadnode.NULL) :=
  ⟨FourOrNone.single _ _, strip17_success,
    split_once_frame (main_root strip17) strip17 (FourOrNone.single _ _) strip17_success⟩

/-- C20: the running maximum starts at `empty_score`, which is 0, and is replaced
on a strict increase only: on a tree whose nodes have no child or four children
`split_once` succeeds if and only if some leaf has an area above 16 and a score
above 0; the node that `find_biggest` returns has a score above 0, so a leaf
whose score is 0 is never selected, however large; and on a fresh root, whose
score is still the empty score, `split_once` returns -1. -/
theorem split_once_succeeds_iff (t : quadnode) (img : IplImage) (hf : FourOrNone t) :
    ((split_once t img).1 = 0 ↔
      ∃ q r s, t.at q = leaf r s ∧ 16 < rect_size r ∧ 0 < s.var) ∧
    (∀ p, find_biggest t = some p → 0 < (t.at p).score.var) ∧
    (∀ q r s, t.at q = leaf r s → s.var ≤ 0 → find_biggest t ≠ some q) ∧
    (∀ rect : CvRect, split_once (quadnode_new rect) img = (-1, quadnode_new rect)) := by
  have hsel : ∀ p, find_biggest t = some p → 0 < (t.at p).score.var := by
    intro p hp
    have hs : (split_once t img).1 = 0 := (split_once_eq_zero_iff t img).2 ⟨p, hp⟩
    obtain ⟨l1, x, l2, -, e, hat, -, hpos, -, -, -⟩ := split_once_step hf img hs
    rw [hp] at e
    rw [Option.some.inj e, hat]
    exact hpos
  refine ⟨?_, hsel, ?_, ?_⟩
  · constructor
    · intro hs
      obtain ⟨l1, x, l2, -, -, hat, hbig, hpos, -, -, -⟩ := split_once_step hf img hs
      exact ⟨x.path, x.rect, x.score, hat, hbig, hpos⟩
    · rintro ⟨q, r, s, hq, hbig, hpos⟩
      rcases find_biggest_spec hf with ⟨-, hall⟩ | ⟨l1, x, l2, -, -, e, -, -, -⟩
      · have hmem : ({ path := q, rect := r, score := s } : LeafInfo) ∈ t.leaves [] :=
          (mem_leaves_iff t [] _).2 ⟨q, by simp, hq⟩
        exact absurd hpos (not_lt.mpr (hall _ hmem hbig))
      · exact (split_once_eq_zero_iff t img).2 ⟨_, e⟩
  · intro q r s hq hle hsome
    have := hsel q hsome
    rw [hq] at this
    exact absurd this (not_lt.mpr hle)
  · intro rect
    apply split_once_of_none
    simp [find_biggest, find_biggest_dfs, quadnode_new, score_lt, empty_score]

theorem split_once_succeeds_iff_witness :
    FourOrNone (main_root uniform5) ∧ 16 < rect_size (get_rect uniform5) ∧
    (split_once (main_root uniform5) uniform5).1 = -1 ∧
    (((split_once (main_root uniform5) uniform5).1 = 0 ↔
      ∃ q r s, (main_root uniform5).at q = leaf r s ∧ 16 < rect_size r ∧ 0 < s.var) ∧
    (∀ p, find_biggest (main_root uniform5) = some p →
      0 < ((main_root uniform5).at p).score.var) ∧
    (∀ q r s, (main_root uniform5).at q = leaf r s → s.var ≤ 0 →
      find_biggest (main_root uniform5) ≠ some q) ∧
    (∀ rect : CvRect, split_once (quadnode_new rect) uniform5 = (-1, quadnode_new rect))) :=
  ⟨FourOrNone.single _ _, by decide, by decide!,
    split_once_succeeds_iff (main_root uniform5) uniform5 (FourOrNone.single _ _)⟩

/-! ## Rectangles inside the root -/

theorem flatMap_singleton_eq_map {α β : Type} (f : α → β) (l : List α) :
    l.flatMap (fun a => [f a]) = l.map f := by
  induction l with
  | nil => rfl
  | cons a l ih => simp [List.flatMap_cons, ih]

theorem loopRange_eq (a n : Int) :
    loopRange a n = (List.range n.toNat).map (fun k : Nat => a + (k : Int)) := by
  unfold loopRange
  simp [flatMap_singleton_eq_map, List.map_map, Function.comp_def]

theorem mem_loopRange (a n v : Int) : v ∈ loopRange a n ↔ a ≤ v ∧ v < a + n := by
  rw [loopRange_eq]
  simp only [List.mem_map, List.mem_range]
  constructor
  · rintro ⟨k, hk, rfl⟩
    omega
  · rintro ⟨h1, h2⟩
    exact ⟨(v - a).toNat, by omega, by omega⟩

/-- The loops over a rectangle visit the pixels of the rectangle. -/
theorem mem_pixels_read (rect : CvRect) (y x : Int) :
    (y, x) ∈ pixels_read rect ↔ rect.contains x y := by
  unfold pixels_read CvRect.contains
  simp only [List.mem_flatMap, List.mem_map, Prod.mk.injEq, mem_loopRange]
  constructor
  · rintro ⟨y', hy, x', hx, rfl, rfl⟩
    exact ⟨hx.1, hx.2, hy.1, hy.2⟩
  · rintro ⟨h1, h2, h3, h4⟩
    exact ⟨y, ⟨h3, h4⟩, x, ⟨h1, h2⟩, rfl, rfl⟩

theorem inside_self (r : CvRect) (hw : 0 ≤ r.width) (hh : 0 ≤ r.height) : r.inside r := by
  unfold CvRect.inside; omega

theorem inside_sub_rect {r root : CvRect} (h : r.inside root) :
    (sub_rect r 0).inside root ∧ (sub_rect r 1).inside root ∧
    (sub_rect r 2).inside root ∧ (sub_rect r 3).inside root := by
  rw [sub_rect_0, sub_rect_1, sub_rect_2, sub_rect_3]
  unfold CvRect.inside at *
  simp only
  omega

theorem allRects_leaf {P : CvRect → Prop} {r : CvRect} {s : quadscore} :
    (leaf r s).allRects P ↔ P r := by
  simp [leaf, quadnode.allRects]

/-- A property of rectangles that passes from a rectangle to its four quadrants
holds on every node after the split of a leaf, if it held on every node before. -/
theorem allRects_update_split (img : IplImage) {P : CvRect → Prop} {r : CvRect} {s : quadscore}
    (hsub : P r → P (sub_rect r 0) ∧ P (sub_rect r 1) ∧ P (sub_rect r 2) ∧ P (sub_rect r 3)) :
    ∀ (p : NodePath) (t : quadnode), t.allRects P → t.at p = leaf r s →
      (t.update p (split_node img)).allRects P := by
  intro p
  induction p with
  | nil =>
    intro t h hp
    rw [at_nil] at hp
    subst hp
    rw [update_nil, split_node_leaf]
    have hr := allRects_leaf.1 h
    obtain ⟨h0, h1, h2, h3⟩ := hsub hr
    exact ⟨hr, allRects_leaf.2 h0, allRects_leaf.2 h1, allRects_leaf.2 h2, allRects_leaf.2 h3⟩
  | cons i p ih =>
    intro t h hp
    have hnn : t.at (i :: p) ≠ quadnode.NULL := by rw [hp]; exact leaf_ne_NULL r s
    obtain ⟨hi, r0, s0, c0, c1, c2, c3, rfl⟩ := at_cons_ne_NULL hnn
    obtain ⟨hr, h0, h1, h2, h3⟩ := h
    rw [at_cons] at hp
    match i, hi, hp with
    | 0, _, hp => rw [update_cons_zero]; exact ⟨hr, ih c0 h0 hp, h1, h2, h3⟩
    | 1, _, hp => rw [update_cons_one]; exact ⟨hr, h0, ih c1 h1 hp, h2, h3⟩
    | 2, _, hp => rw [update_cons_two]; exact ⟨hr, h0, h1, ih c2 h2 hp, h3⟩
    | 3, _, hp => rw [update_cons_three]; exact ⟨hr, h0, h1, h2, ih c3 h3 hp⟩

theorem allRects_at {P : CvRect → Prop} : ∀ (p : NodePath) (t : quadnode), t.allRects P →
    t.at p ≠ quadnode.NULL → P (t.at p).rect := by
  intro p
  induction p with
  | nil =>
    intro t h hp
    cases t with
    | NULL => exact absurd rfl hp
    | node r s c0 c1 c2 c3 => exact h.1
  | cons i p ih =>
    intro t h hp
    obtain ⟨hi, r0, s0, c0, c1, c2, c3, rfl⟩ := at_cons_ne_NULL hp
    obtain ⟨-, h0, h1, h2, h3⟩ := h
    rw [at_cons] at hp ⊢
    match i, hi, hp with
    | 0, _, hp => exact ih c0 h0 hp
    | 1, _, hp => exact ih c1 h1 hp
    | 2, _, hp => exact ih c2 h2 hp
    | 3, _, hp => exact ih c3 h3 hp

theorem reachable_allRects_inside {img : IplImage} {rect : CvRect} {s0 : quadscore}
    {t : quadnode} (hw : 0 ≤ rect.width) (hh : 0 ≤ rect.height)
    (h : Reachable img (leaf rect s0) t) : t.allRects (fun r => r.inside rect) := by
  obtain ⟨k, hk⟩ := h
  refine (split_times_induction img
    (fun t => FourOrNone t ∧ t.allRects (fun r => r.inside rect)) ?_
    k _ t ⟨.single rect s0, allRects_leaf.2 (inside_self rect hw hh)⟩ hk).2
  intro t ht hs
  refine ⟨split_once_FourOrNone ht.1 img hs, ?_⟩
  obtain ⟨l1, x, l2, -, -, hat, -, -, -, -, e⟩ := split_once_step ht.1 img hs
  rw [e]
  exact @allRects_update_split img (fun r => r.inside rect) x.rect x.score
    (fun h => inside_sub_rect h) x.path t ht.2 hat

/-- The byte offsets read for a rectangle inside a well-formed raster are offsets
into its buffer. -/
theorem offsets_read_in_bounds {img : IplImage} {r : CvRect} (hv : img.valid)
    (hin : r.inside (get_rect img)) :
    ∀ o ∈ offsets_read img r, 0 ≤ o ∧ o < (img.imageData.length : Int) := by
  intro o ho
  unfold offsets_read at ho
  rw [List.mem_flatMap] at ho
  obtain ⟨⟨y, x⟩, hp, ho⟩ := ho
  rw [mem_pixels_read] at hp
  unfold CvRect.contains at hp
  unfold CvRect.inside get_rect at hin
  simp only at hin
  obtain ⟨hw0, hh0, hstep, hlen⟩ := hv
  have hy0 : 0 ≤ y := by omega
  have hyH : y + 1 ≤ img.height := by omega
  have hws : 0 ≤ img.widthStep := by omega
  have h1 : 0 ≤ y * img.widthStep := mul_nonneg hy0 hws
  have h2 : (y + 1) * img.widthStep ≤ img.height * img.widthStep :=
    mul_le_mul_of_nonneg_right hyH hws
  have h3 : (y + 1) * img.widthStep = y * img.widthStep + img.widthStep := by ring
  simp only [List.mem_cons, List.mem_singleton, List.not_mem_nil, or_false] at ho
  rcases ho with rfl | rfl | rfl <;> constructor <;> omega

/-- C11: in every tree reachable by successful calls of `split_once` from a
single-leaf root whose rectangle has non-negative sides, the rectangle of every
node lies inside the root's rectangle and has non-negative sides; hence, when
the root is the rectangle of the raster, every pixel that `variance` and
`mean_color` visit for a node is a pixel of the raster, and in a well-formed
raster every byte offset they read lies inside the buffer. -/
theorem rects_inside_root (img : IplImage) (rect : CvRect) (s0 : quadscore) (t : quadnode)
    (hw : 0 ≤ rect.width) (hh : 0 ≤ rect.height) (hR : Reachable img (leaf rect s0) t)
    (p : NodePath) (hp : t.at p ≠ quadnode.NULL) :
    (rect.x ≤ (t.at p).rect.x ∧ rect.y ≤ (t.at p).rect.y ∧
      (t.at p).rect.x + (t.at p).rect.width ≤ rect.x + rect.width ∧
      (t.at p).rect.y + (t.at p).rect.height ≤ rect.y + rect.height ∧
      0 ≤ (t.at p).rect.width ∧ 0 ≤ (t.at p).rect.height) ∧
    (rect = get_rect img →
      (∀ y x, (y, x) ∈ pixels_read (t.at p).rect →
        0 ≤ x ∧ x < img.width ∧ 0 ≤ y ∧ y < img.height) ∧
      (img.valid → ∀ o ∈ offsets_read img (t.at p).rect,
        0 ≤ o ∧ o < (img.imageData.length : Int))) := by
  have hin : (t.at p).rect.inside rect :=
    allRects_at p t (reachable_allRects_inside hw hh hR) hp
  refine ⟨hin, ?_⟩
  intro hroot
  subst hroot
  refine ⟨?_, fun hv => offsets_read_in_bounds hv hin⟩
  intro y x hyx
  rw [mem_pixels_read] at hyx
  unfold CvRect.contains at hyx
  unfold CvRect.inside get_rect at hin
  simp only at hin
  omega

theorem rects_inside_root_witness :
    0 ≤ (get_rect strip17).width ∧ 0 ≤ (get_rect strip17).height ∧
    Reachable strip17 (leaf (get_rect strip17) (node_score strip17 (get_rect strip17)))
      strip17_split ∧
    strip17_split.at [1] ≠ quadnode.NULL ∧ (strip17_split.at [1]).rect = ⟨0, 0, 1, 8⟩ ∧
    strip17.valid ∧
    ((get_rect strip17).x ≤ (strip17_split.at [1]).rect.x ∧
      (get_rect strip17).y ≤ (strip17_split.at [1]).rect.y ∧
      (strip17_split.at [1]).rect.x + (strip17_split.at [1]).rect.width ≤
        (get_rect strip17).x + (get_rect strip17).width ∧
      (strip17_split.at [1]).rect.y + (strip17_split.at [1]).rect.height ≤
        (get_rect strip17).y + (get_rect strip17).height ∧
      0 ≤ (strip17_split.at [1]).rect.width ∧ 0 ≤ (strip17_split.at [1]).rect.height) ∧
    (get_rect strip17 = get_rect strip17 →
      (∀ y x, (y, x) ∈ pixels_read (strip17_split.at [1]).rect →
        0 ≤ x ∧ x < strip17.width ∧ 0 ≤ y ∧ y < strip17.height) ∧
      (strip17.valid → ∀ o ∈ offsets_read strip17 (strip17_split.at [1]).rect,
        0 ≤ o ∧ o < (strip17.imageData.length : Int))) :=
  ⟨by decide, by decide, strip17_reachable, by decide!, by decide!, by decide,
    rects_inside_root strip17 (get_rect strip17) (node_score strip17 (get_rect strip17))
      strip17_split (by decide) (by decide) strip17_reachable [1] (by decide!)⟩

/-! ## The leaf test and the test of all four slots -/

theorem isleaf_all_eq_hasNoChildren (t : quadnode) (h : t ≠ quadnode.NULL) :
    quadnode_isleaf_all t = t.hasNoChildren := by
  cases t with
  | NULL => exact absurd rfl h
  | node r s c0 c1 c2 c3 =>
    cases c0 <;> cases c1 <;> cases c2 <;> cases c3 <;>
      simp [quadnode_isleaf_all, quadnode.nonNull, quadnode.hasNoChildren]

theorem isleaf_eq_isleaf_all {t : quadnode} (h : FourOrNone t) :
    quadnode_isleaf t = quadnode_isleaf_all t := by
  rw [isleaf_eq_hasNoChildren h, isleaf_all_eq_hasNoChildren t h.ne_NULL]

theorem find_biggest_dfs_eq_all {t : quadnode} (h : FourOrNone t) :
    ∀ (here : NodePath) (st : Option NodePath × quadscore),
      find_biggest_dfs t here st = find_biggest_dfs_all t here st := by
  induction h with
  | single r s =>
    intro here st
    simp [leaf, find_biggest_dfs, find_biggest_dfs_all, quadnode_isleaf, quadnode_isleaf_all]
  | inner r s c0 c1 c2 c3 h0 h1 h2 h3 ih0 ih1 ih2 ih3 =>
    intro here st
    have e := isleaf_eq_isleaf_all (FourOrNone.inner r s c0 c1 c2 c3 h0 h1 h2 h3)
    rw [find_biggest_dfs, find_biggest_dfs_all, e]
    simp only [ih0, ih1, ih2, ih3]

theorem find_biggest_eq_all {t : quadnode} (h : FourOrNone t) :
    find_biggest t = find_biggest_all t := by
  cases t with
  | NULL => rfl
  | node r s c0 c1 c2 c3 =>
    rw [find_biggest, find_biggest_all, find_biggest_dfs_eq_all h]

theorem quadnode_split_eq_all {t : quadnode} (h : FourOrNone t) :
    quadnode_split t = quadnode_split_all t := by
  cases t with
  | NULL => rfl
  | node r s c0 c1 c2 c3 =>
    rw [quadnode_split, quadnode_split_all, isleaf_eq_isleaf_all h]

theorem render_eq_all {t : quadnode} (h : FourOrNone t) (src : IplImage) :
    ∀ out : Raster, render t src out = render_all t src out := by
  induction h with
  | single r s =>
    intro out
    simp [leaf, render, render_all, quadnode_isleaf, quadnode_isleaf_all]
  | inner r s c0 c1 c2 c3 h0 h1 h2 h3 ih0 ih1 ih2 ih3 =>
    intro out
    have e := isleaf_eq_isleaf_all (FourOrNone.inner r s c0 c1 c2 c3 h0 h1 h2 h3)
    rw [render, render_all, e]
    simp only [ih0, ih1, ih2, ih3]

/-! ## Children are the four quadrants -/

theorem quadrantsOK_leaf (r : CvRect) (s : quadscore) : (leaf r s).quadrantsOK := by
  simp [leaf, quadnode.quadrantsOK, quadnode.hasNoChildren]

theorem nonNull_iff_ne_NULL (t : quadnode) : t.nonNull = true ↔ t ≠ quadnode.NULL := by
  cases t <;> simp [quadnode.nonNull]

/-- The split of a leaf keeps the children of every node equal to its quadrants. -/
theorem quadrantsOK_update_split (img : IplImage) {r : CvRect} {s : quadscore} :
    ∀ (p : NodePath) (t : quadnode), t.quadrantsOK → t.at p = leaf r s →
      (t.update p (split_node img)).quadrantsOK := by
  intro p
  induction p with
  | nil =>
    intro t _ hp
    rw [at_nil] at hp
    subst hp
    rw [update_nil, split_node_leaf]
    exact ⟨Or.inr ⟨rfl, rfl, rfl, rfl, rfl, rfl, rfl, rfl⟩, quadrantsOK_leaf _ _,
      quadrantsOK_leaf _ _, quadrantsOK_leaf _ _, quadrantsOK_leaf _ _⟩
  | cons i p ih =>
    intro t h hp
    have hnn : t.at (i :: p) ≠ quadnode.NULL := by rw [hp]; exact leaf_ne_NULL r s
    obtain ⟨hi, r0, s0, c0, c1, c2, c3, rfl⟩ := at_cons_ne_NULL hnn
    obtain ⟨hq, h0, h1, h2, h3⟩ := h
    rw [at_cons] at hp
    have hchild : ((quadnode.node r0 s0 c0 c1 c2 c3).children i) ≠ quadnode.NULL :=
      ne_NULL_of_at_eq_leaf hp
    have hq' : c0.nonNull = true ∧ c1.nonNull = true ∧ c2.nonNull = true ∧ c3.nonNull = true ∧
        c0.rect = sub_rect r0 0 ∧ c1.rect = sub_rect r0 1 ∧
        c2.rect = sub_rect r0 2 ∧ c3.rect = sub_rect r0 3 := by
      rcases hq with hl | hq
      · exfalso
        obtain ⟨r', s', e⟩ := (hasNoChildren_iff _).1 hl
        rw [e] at hchild
        apply hchild
        match i with
        | 0 | 1 | 2 | 3 => rfl
        | i + 4 => exact children_big _ _ (by omega)
      · exact hq
    obtain ⟨n0, n1, n2, n3, e0, e1, e2, e3⟩ := hq'
    match i, hi, hp with
    | 0, _, hp =>
      rw [update_cons_zero]
      exact ⟨Or.inr ⟨(nonNull_iff_ne_NULL _).2 (update_split_ne_NULL img hp), n1, n2, n3,
        (rect_update_split img hp).trans e0, e1, e2, e3⟩, ih c0 h0 hp, h1, h2, h3⟩
    | 1, _, hp =>
      rw [update_cons_one]
      exact ⟨Or.inr ⟨n0, (nonNull_iff_ne_NULL _).2 (update_split_ne_NULL img hp), n2, n3,
        e0, (rect_update_split img hp).trans e1, e2, e3⟩, h0, ih c1 h1 hp, h2, h3⟩
    | 2, _, hp =>
      rw [update_cons_two]
      exact ⟨Or.inr ⟨n0, n1, (nonNull_iff_ne_NULL _).2 (update_split_ne_NULL img hp), n3,
        e0, e1, (rect_update_split img hp).trans e2, e3⟩, h0, h1, ih c2 h2 hp, h3⟩
    | 3, _, hp =>
      rw [update_cons_three]
      exact ⟨Or.inr ⟨n0, n1, n2, (nonNull_iff_ne_NULL _).2 (update_split_ne_NULL img hp),
        e0, e1, e2, (rect_update_split img hp).trans e3⟩, h0, h1, h2, ih c3 h3 hp⟩

theorem quadrantsOK_at : ∀ (p : NodePath) (t : quadnode), t.quadrantsOK → (t.at p).quadrantsOK := by
  intro p
  induction p with
  | nil => intro t h; exact h
  | cons i p ih =>
    intro t h
    cases t with
    | NULL => simp [quadnode.quadrantsOK]
    | node r s c0 c1 c2 c3 =>
      obtain ⟨-, h0, h1, h2, h3⟩ := h
      rw [at_cons]
      match i with
      | 0 => exact ih c0 h0
      | 1 => exact ih c1 h1
      | 2 => exact ih c2 h2
      | 3 => exact ih c3 h3
      | i + 4 => rw [children_big _ _ (by omega), NULL_at]; trivial

theorem reachable_quadrantsOK {img : IplImage} {rect : CvRect} {s0 : quadscore} {t : quadnode}
    (h : Reachable img (leaf rect s0) t) : t.quadrantsOK := by
  obtain ⟨k, hk⟩ := h
  refine (split_times_induction img (fun t => FourOrNone t ∧ t.quadrantsOK) ?_
    k _ t ⟨.single rect s0, quadrantsOK_leaf rect s0⟩ hk).2
  intro t ht hs
  refine ⟨split_once_FourOrNone ht.1 img hs, ?_⟩
  obtain ⟨l1, x, l2, -, -, hat, -, -, -, -, e⟩ := split_once_step ht.1 img hs
  rw [e]
  exact quadrantsOK_update_split img x.path t ht.2 hat

/-- C19: in every tree reachable from a single-leaf root by calls of
`split_once`, every node has its four child slots all empty or all filled, and
then child `i` has the rectangle `sub_rect` of the node's rectangle at `i`;
therefore `quadnode_isleaf`, which tests the slots 0, 1, 1 and 3, is true on a
node exactly when the node has no child, and `find_biggest`, `quadnode_split`
and `render` give the results of their versions that test all four slots. -/
theorem isleaf_slots_reachable (img : IplImage) (rect : CvRect) (s0 : quadscore) (t : quadnode)
    (hR : Reachable img (leaf rect s0) t) :
    (∀ p r s c0 c1 c2 c3, t.at p = quadnode.node r s c0 c1 c2 c3 →
      ((c0 = quadnode.NULL ∧ c1 = quadnode.NULL ∧ c2 = quadnode.NULL ∧ c3 = quadnode.NULL) ∨
        (c0 ≠ quadnode.NULL ∧ c1 ≠ quadnode.NULL ∧ c2 ≠ quadnode.NULL ∧ c3 ≠ quadnode.NULL ∧
          c0.rect = sub_rect r 0 ∧ c1.rect = sub_rect r 1 ∧
          c2.rect = sub_rect r 2 ∧ c3.rect = sub_rect r 3)) ∧
      (quadnode_isleaf (quadnode.node r s c0 c1 c2 c3) = true ↔
        (c0 = quadnode.NULL ∧ c1 = quadnode.NULL ∧ c2 = quadnode.NULL ∧ c3 = quadnode.NULL)) ∧
      quadnode_isleaf (quadnode.node r s c0 c1 c2 c3) =
        quadnode_isleaf_all (quadnode.node r s c0 c1 c2 c3) ∧
      quadnode_split (quadnode.node r s c0 c1 c2 c3) =
        quadnode_split_all (quadnode.node r s c0 c1 c2 c3)) ∧
    find_biggest t = find_biggest_all t ∧
    (∀ (src : IplImage) (out : Raster), render t src out = render_all t src out) := by
  have hf := reachable_FourOrNone hR
  refine ⟨?_, find_biggest_eq_all hf, render_eq_all hf⟩
  intro p r s c0 c1 c2 c3 hp
  have hne : t.at p ≠ quadnode.NULL := by rw [hp]; simp
  have hfp := hf.at p hne
  have hqp := quadrantsOK_at p t (reachable_quadrantsOK hR)
  rw [hp] at hfp hqp
  have hleaf : quadnode_isleaf (quadnode.node r s c0 c1 c2 c3) = true ↔
      (c0 = quadnode.NULL ∧ c1 = quadnode.NULL ∧ c2 = quadnode.NULL ∧ c3 = quadnode.NULL) := by
    rw [isleaf_eq_hasNoChildren hfp, hasNoChildren_iff]
    constructor
    · rintro ⟨r', s', e⟩
      simp only [leaf, quadnode.node.injEq] at e
      exact ⟨e.2.2.1, e.2.2.2.1, e.2.2.2.2.1, e.2.2.2.2.2⟩
    · rintro ⟨rfl, rfl, rfl, rfl⟩
      exact ⟨r, s, rfl⟩
  refine ⟨?_, hleaf, isleaf_eq_isleaf_all hfp, quadnode_split_eq_all hfp⟩
  rcases hqp.1 with hl | ⟨n0, n1, n2, n3, e⟩
  · left
    rw [← isleaf_eq_hasNoChildren hfp] at hl
    exact hleaf.1 hl
  · right
    exact ⟨(nonNull_iff_ne_NULL _).1 n0, (nonNull_iff_ne_NULL _).1 n1,
      (nonNull_iff_ne_NULL _).1 n2, (nonNull_iff_ne_NULL _).1 n3, e⟩

theorem isleaf_slots_reachable_witness :
    Reachable strip17 (leaf (get_rect strip17) (node_score strip17 (get_rect strip17)))
      strip17_split ∧
    quadnode_isleaf strip17_split = false ∧
    find_biggest strip17_split = find_biggest_all strip17_split ∧
    (∀ (src : IplImage) (out : Raster),
      render strip17_split src out = render_all strip17_split src out) :=
  ⟨strip17_reachable, by decide!,
    (isleaf_slots_reachable strip17 (get_rect strip17) (node_score strip17 (get_rect strip17))
      strip17_split strip17_reachable).2⟩

/-! ## The loops as sums -/

theorem foldl_add_eq {α β : Type} [AddCommMonoid α] (h : β → α) (xs : List β) :
    ∀ a : α, xs.foldl (fun acc x => acc + h x) a = a + (xs.map h).sum := by
  induction xs with
  | nil => intro a; simp
  | cons x xs ih => intro a; simp [ih, add_assoc]

theorem foldl_nested_eq {α β γ : Type} [AddCommMonoid α] (f : β → γ → α) (xs : List γ)
    (ys : List β) : ∀ a : α,
    ys.foldl (fun acc y => xs.foldl (fun acc2 x => acc2 + f y x) acc) a =
      a + (ys.map (fun y => (xs.map (fun x => f y x)).sum)).sum := by
  induction ys with
  | nil => intro a; simp
  | cons y ys ih => intro a; simp [ih, foldl_add_eq, add_assoc]

theorem sum_map_range {α : Type} [AddCommMonoid α] (h : Nat → α) (m : Nat) :
    ((List.range m).map h).sum = ∑ k ∈ Finset.range m, h k := by
  induction m with
  | zero => simp
  | succ m ih => simp [List.range_succ, Finset.sum_range_succ, ih]

theorem sum_map_loopRange {α : Type} [AddCommMonoid α] (g : Int → α) (a n : Int) :
    ((loopRange a n).map g).sum = ∑ v ∈ Finset.Ico a (a + n), g v := by
  rw [loopRange_eq, List.map_map, sum_map_range, Int.Ico_eq_finset_map, Finset.sum_map]
  simp

/-- The two nested loops as a sum over the rows and the columns of the rectangle. -/
theorem nested_loops_eq_sum {α : Type} [AddCommMonoid α] (rect : CvRect) (f : Int → Int → α) :
    (loopRange rect.y rect.height).foldl
      (fun acc y => (loopRange rect.x rect.width).foldl (fun acc2 x => acc2 + f y x) acc) 0 =
    ∑ y ∈ Finset.Ico rect.y (rect.y + rect.height),
      ∑ x ∈ Finset.Ico rect.x (rect.x + rect.width), f y x := by
  rw [foldl_nested_eq, zero_add, sum_map_loopRange]
  refine Finset.sum_congr rfl (fun y _ => ?_)
  rw [sum_map_loopRange]

theorem sumOver_eq_pixel_sum (rect : CvRect) (f : Int → Int → Rat) :
    sumOver rect f = pixel_sum rect (fun x y => f y x) := by
  unfold sumOver pixel_sum
  exact nested_loops_eq_sum rect f

theorem wrap_int_of_range (v : Int) (h0 : -2147483648 ≤ v) (h1 : v < 2147483648) :
    wrap_int v = v := by
  unfold wrap_int; omega

theorem wrap_int_add_left (u v : Int) : wrap_int (wrap_int u + v) = wrap_int (u + v) := by
  unfold wrap_int; omega

theorem foldl_wrap_eq {β : Type} (h : β → Int) (xs : List β) :
    ∀ a : Int, xs.foldl (fun acc x => wrap_int (acc + h x)) (wrap_int a) =
      wrap_int (a + (xs.map h).sum) := by
  induction xs with
  | nil => intro a; simp
  | cons x xs ih =>
    intro a
    rw [List.foldl_cons, wrap_int_add_left, ih, List.map_cons, List.sum_cons, add_assoc]

theorem foldl_nested_wrap_eq {β γ : Type} (f : β → γ → Int) (xs : List γ) (ys : List β) :
    ∀ a : Int,
      ys.foldl (fun acc y => xs.foldl (fun acc2 x => wrap_int (acc2 + f y x)) acc) (wrap_int a) =
        wrap_int (a + (ys.map (fun y => (xs.map (fun x => f y x)).sum)).sum) := by
  induction ys with
  | nil => intro a; simp
  | cons y ys ih =>
    intro a
    rw [List.foldl_cons, foldl_wrap_eq, ih, List.map_cons, List.sum_cons, add_assoc]

/-- The `int` accumulator of `mean_color` after the loops: the sum over the rows
and the columns of the rectangle, wrapped to the range of `int`. -/
theorem sumOverInt_eq_sum (rect : CvRect) (f : Int → Int → Int) :
    sumOverInt rect f =
      wrap_int (∑ y ∈ Finset.Ico rect.y (rect.y + rect.height),
        ∑ x ∈ Finset.Ico rect.x (rect.x + rect.width), f y x) := by
  unfold sumOverInt
  have h0 : (0 : Int) = wrap_int 0 := by unfold wrap_int; omega
  conv_lhs => rw [h0]
  rw [foldl_nested_wrap_eq, zero_add, sum_map_loopRange]
  congr 1
  refine Finset.sum_congr rfl (fun y _ => ?_)
  rw [sum_map_loopRange]

theorem maxd_eq_max (a b : Rat) : maxd a b = max a b := by
  unfold maxd
  split_ifs with h
  · exact (max_eq_left (le_of_lt h)).symm
  · exact (max_eq_right (not_lt.mp h)).symm

/-- The source's `variance` in the vocabulary of the specification. -/
theorem variance_eq (img : IplImage) (rect : CvRect) :
    variance img rect =
      max (pixel_sum rect (fun x y => (img.channel 0 x y - channel_mean img rect 0) ^ 2))
        (max (pixel_sum rect (fun x y => (img.channel 1 x y - channel_mean img rect 1) ^ 2))
          (pixel_sum rect (fun x y => (img.channel 2 x y - channel_mean img rect 2) ^ 2))) /
        ((rect.width * rect.height : Int) : Rat) := by
  unfold variance
  simp only [maxd_eq_max, sumOver_eq_pixel_sum, channel_mean, IplImage.channel, add_zero,
    one_div, pow_two]
  simp only [div_eq_mul_inv, mul_comm]

/-- C12: for a rectangle of positive width and height the score that `variance`
(`node_score`) computes is, in exact arithmetic, the maximum over the three
channels of the population variance of the channel over the rectangle,
`(1/n) * Σ (v - mean)^2` with `mean = (1/n) * Σ v` and `n = width * height`. -/
theorem variance_is_max_channel_variance (img : IplImage) (rect : CvRect)
    (hw : 0 < rect.width) (hh : 0 < rect.height) :
    variance img rect = max_channel_variance img rect ∧
    (node_score img rect).var = max_channel_variance img rect := by
  have hn : (0 : Rat) < ((rect.width * rect.height : Int) : Rat) := by
    exact_mod_cast mul_pos hw hh
  have key : variance img rect = max_channel_variance img rect := by
    rw [variance_eq]
    unfold max_channel_variance channel_variance
    have e : ∀ S : Rat,
        1 / ((rect.width * rect.height : Int) : Rat) * S =
          S / ((rect.width * rect.height : Int) : Rat) := by
      intro S; ring
    simp only [e]
    rw [max_div_div_right (le_of_lt hn), max_div_div_right (le_of_lt hn), max_assoc]
  exact ⟨key, key⟩

theorem variance_is_max_channel_variance_witness :
    0 < (get_rect strip17).width ∧ 0 < (get_rect strip17).height ∧
    variance strip17 (get_rect strip17) = 3600 ∧
    variance strip17 (get_rect strip17) = max_channel_variance strip17 (get_rect strip17) ∧
    (node_score strip17 (get_rect strip17)).var =
      max_channel_variance strip17 (get_rect strip17) :=
  ⟨by decide, by decide, by decide!,
    variance_is_max_channel_variance strip17 (get_rect strip17) (by decide) (by decide)⟩

/-! ## The score of a region -/

theorem pixel_sum_nonneg (rect : CvRect) (g : Int → Int → Rat) (h : ∀ x y, 0 ≤ g x y) :
    0 ≤ pixel_sum rect g :=
  Finset.sum_nonneg (fun y _ => Finset.sum_nonneg (fun x _ => h x y))

theorem pixel_sum_congr (rect : CvRect) (g g' : Int → Int → Rat)
    (h : ∀ x y, rect.contains x y → g x y = g' x y) : pixel_sum rect g = pixel_sum rect g' := by
  unfold pixel_sum
  refine Finset.sum_congr rfl (fun y hy => Finset.sum_congr rfl (fun x hx => ?_))
  rw [Finset.mem_Ico] at hx hy
  exact h x y ⟨hx.1, hx.2, hy.1, hy.2⟩

theorem pixel_sum_const (rect : CvRect) (hw : 0 ≤ rect.width) (hh : 0 ≤ rect.height) (v : Rat) :
    pixel_sum rect (fun _ _ => v) = ((rect.width * rect.height : Int) : Rat) * v := by
  unfold pixel_sum
  simp only [Finset.sum_const, Int.card_Ico, add_sub_cancel_left, nsmul_eq_mul]
  have e1 : ((rect.width.toNat : Nat) : Rat) = (rect.width : Rat) := by
    exact_mod_cast Int.toNat_of_nonneg hw
  have e2 : ((rect.height.toNat : Nat) : Rat) = (rect.height : Rat) := by
    exact_mod_cast Int.toNat_of_nonneg hh
  rw [e1, e2]
  push_cast
  ring

theorem pixel_sum_le_of_mem (rect : CvRect) (g : Int → Int → Rat) (h : ∀ x y, 0 ≤ g x y)
    (x y : Int) (hxy : rect.contains x y) : g x y ≤ pixel_sum rect g := by
  unfold pixel_sum
  have hy : y ∈ Finset.Ico rect.y (rect.y + rect.height) := Finset.mem_Ico.2 ⟨hxy.2.2.1, hxy.2.2.2⟩
  have hx : x ∈ Finset.Ico rect.x (rect.x + rect.width) := Finset.mem_Ico.2 ⟨hxy.1, hxy.2.1⟩
  calc g x y ≤ ∑ x' ∈ Finset.Ico rect.x (rect.x + rect.width), g x' y :=
        Finset.single_le_sum (f := fun x' => g x' y) (fun x' _ => h x' y) hx
    _ ≤ ∑ y' ∈ Finset.Ico rect.y (rect.y + rect.height),
          ∑ x' ∈ Finset.Ico rect.x (rect.x + rect.width), g x' y' :=
        Finset.single_le_sum
          (f := fun y' => ∑ x' ∈ Finset.Ico rect.x (rect.x + rect.width), g x' y')
          (fun y' _ => Finset.sum_nonneg (fun x' _ => h x' y')) hy

theorem variance_nonneg (img : IplImage) (rect : CvRect)
    (hw : 0 < rect.width) (hh : 0 < rect.height) : 0 ≤ variance img rect := by
  have hn : (0 : Rat) < ((rect.width * rect.height : Int) : Rat) := by
    exact_mod_cast mul_pos hw hh
  rw [variance_eq]
  apply div_nonneg _ (le_of_lt hn)
  exact le_max_of_le_left (pixel_sum_nonneg rect _ (fun x y => sq_nonneg _))

theorem channel_mean_uniform (img : IplImage) (rect : CvRect)
    (hw : 0 < rect.width) (hh : 0 < rect.height) (c : Int) (v : Rat)
    (h : ∀ x y, rect.contains x y → img.channel c x y = v) : channel_mean img rect c = v := by
  have hn : ((rect.width * rect.height : Int) : Rat) ≠ 0 := by
    exact_mod_cast ne_of_gt (mul_pos hw hh)
  unfold channel_mean
  rw [pixel_sum_congr rect _ (fun _ _ => v) h, pixel_sum_const rect (le_of_lt hw) (le_of_lt hh)]
  field_simp

theorem deviation_sum_uniform (img : IplImage) (rect : CvRect)
    (hw : 0 < rect.width) (hh : 0 < rect.height) (c : Int) (v : Rat)
    (h : ∀ x y, rect.contains x y → img.channel c x y = v) :
    pixel_sum rect (fun x y => (img.channel c x y - channel_mean img rect c) ^ 2) = 0 := by
  rw [channel_mean_uniform img rect hw hh c v h,
    pixel_sum_congr rect _ (fun _ _ => 0) (fun x y hxy => by rw [h x y hxy]; ring),
    pixel_sum_const rect (le_of_lt hw) (le_of_lt hh)]
  ring

/-- A region of one colour has the score 0. -/
theorem variance_uniform (img : IplImage) (rect : CvRect)
    (hw : 0 < rect.width) (hh : 0 < rect.height) (v0 v1 v2 : Rat)
    (h0 : ∀ x y, rect.contains x y → img.channel 0 x y = v0)
    (h1 : ∀ x y, rect.contains x y → img.channel 1 x y = v1)
    (h2 : ∀ x y, rect.contains x y → img.channel 2 x y = v2) : variance img rect = 0 := by
  rw [variance_eq, deviation_sum_uniform img rect hw hh 0 v0 h0,
    deviation_sum_uniform img rect hw hh 1 v1 h1, deviation_sum_uniform img rect hw hh 2 v2 h2]
  simp

/-- C13: for a rectangle of positive width and height the score is non-negative;
when all the pixels of the rectangle have the same value in each channel the
score is exactly 0, in particular for every 1×1 rectangle. -/
theorem score_nonneg_zero_on_uniform (img : IplImage) (rect : CvRect)
    (hw : 0 < rect.width) (hh : 0 < rect.height) :
    0 ≤ (node_score img rect).var ∧
    ((∀ c : Int, c = 0 ∨ c = 1 ∨ c = 2 → ∀ x y x' y', rect.contains x y → rect.contains x' y' →
        img.channel c x y = img.channel c x' y') → (node_score img rect).var = 0) ∧
    (rect.width = 1 → rect.height = 1 → (node_score img rect).var = 0) := by
  have hcorner : rect.contains rect.x rect.y := by
    unfold CvRect.contains; omega
  have huni : (∀ c : Int, c = 0 ∨ c = 1 ∨ c = 2 → ∀ x y x' y', rect.contains x y →
      rect.contains x' y' → img.channel c x y = img.channel c x' y') →
      (node_score img rect).var = 0 := by
    intro h
    exact variance_uniform img rect hw hh _ _ _
      (fun x y hxy => h 0 (Or.inl rfl) x y rect.x rect.y hxy hcorner)
      (fun x y hxy => h 1 (Or.inr (Or.inl rfl)) x y rect.x rect.y hxy hcorner)
      (fun x y hxy => h 2 (Or.inr (Or.inr rfl)) x y rect.x rect.y hxy hcorner)
  refine ⟨variance_nonneg img rect hw hh, huni, ?_⟩
  intro h1 h2
  apply huni
  intro c _ x y x' y' hxy hxy'
  unfold CvRect.contains at hxy hxy'
  have ex : x = x' := by omega
  have ey : y = y' := by omega
  rw [ex, ey]

theorem score_nonneg_zero_on_uniform_witness :
    0 < (get_rect uniform5).width ∧ 0 < (get_rect uniform5).height ∧
    (node_score uniform5 (get_rect uniform5)).var = 0 ∧
    (0 ≤ (node_score uniform5 (get_rect uniform5)).var ∧
    ((∀ c : Int, c = 0 ∨ c = 1 ∨ c = 2 → ∀ x y x' y', (get_rect uniform5).contains x y →
        (get_rect uniform5).contains x' y' →
        uniform5.channel c x y = uniform5.channel c x' y') →
      (node_score uniform5 (get_rect uniform5)).var = 0) ∧
    ((get_rect uniform5).width = 1 → (get_rect uniform5).height = 1 →
      (node_score uniform5 (get_rect uniform5)).var = 0)) :=
  ⟨by decide, by decide, by decide!,
    score_nonneg_zero_on_uniform uniform5 (get_rect uniform5) (by decide) (by decide)⟩

/-! ## Four quadrants of one colour each -/

theorem byteAt_eq_ucharAt (img : IplImage) (y k : Int) :
    img.byteAt y k = ((img.ucharAt y k : Int) : Rat) := by
  simp [IplImage.byteAt, IplImage.ucharAt]

theorem ucharAt_range (img : IplImage) (y k : Int) :
    0 ≤ img.ucharAt y k ∧ img.ucharAt y k < 256 := by
  unfold IplImage.ucharAt
  have := (img.imageData.getD (y * img.widthStep + k).toNat 0).isLt
  omega

theorem to_uchar_natCast (m : Nat) (h : m < 256) : to_uchar (m : Int) = m := by
  unfold to_uchar
  omega

/-- The `int` accumulator of `mean_color` over a region in which the summed
byte is the same everywhere. -/
theorem sumOverInt_uniform (rect : CvRect) (hw : 0 < rect.width) (hh : 0 < rect.height)
    (f : Int → Int → Int) (v : Int) (hf : ∀ x y, rect.contains x y → f y x = v) :
    sumOverInt rect f = wrap_int (rect.width * rect.height * v) := by
  rw [sumOverInt_eq_sum]
  have : ∀ y ∈ Finset.Ico rect.y (rect.y + rect.height),
      ∑ x ∈ Finset.Ico rect.x (rect.x + rect.width), f y x = rect.width * v := by
    intro y hy
    rw [Finset.mem_Ico] at hy
    rw [Finset.sum_congr rfl (fun x hx => hf x y
      ⟨(Finset.mem_Ico.1 hx).1, (Finset.mem_Ico.1 hx).2, hy.1, hy.2⟩)]
    simp only [Finset.sum_const, Int.card_Ico, add_sub_cancel_left, nsmul_eq_mul]
    rw [Int.toNat_of_nonneg (le_of_lt hw)]
  rw [Finset.sum_congr rfl this]
  simp only [Finset.sum_const, Int.card_Ico, add_sub_cancel_left, nsmul_eq_mul]
  rw [Int.toNat_of_nonneg (le_of_lt hh)]
  congr 1
  ring

/-- What `mean_color` returns on a region of one colour, whatever its size. -/
theorem mean_color_uniform_wrap (img : IplImage) (rect : CvRect)
    (hw : 0 < rect.width) (hh : 0 < rect.height) (c : color)
    (h : ∀ x y, rect.contains x y →
      img.ucharAt y (3 * x) = (c.b : Int) ∧ img.ucharAt y (3 * x + 1) = (c.g : Int) ∧
        img.ucharAt y (3 * x + 2) = (c.r : Int)) :
    mean_color img rect =
      if wrap_int (rect.width * rect.height) = 0 then none
      else some
        { r := to_uchar ((wrap_int (rect.width * rect.height * (c.r : Int))).tdiv
            (wrap_int (rect.width * rect.height))),
          g := to_uchar ((wrap_int (rect.width * rect.height * (c.g : Int))).tdiv
            (wrap_int (rect.width * rect.height))),
          b := to_uchar ((wrap_int (rect.width * rect.height * (c.b : Int))).tdiv
            (wrap_int (rect.width * rect.height))) } := by
  unfold mean_color
  simp only
  rw [sumOverInt_uniform rect hw hh _ (c.r : Int)
      (fun x y hxy => by rw [mul_comm]; exact (h x y hxy).2.2),
    sumOverInt_uniform rect hw hh _ (c.g : Int)
      (fun x y hxy => by rw [mul_comm]; exact (h x y hxy).2.1),
    sumOverInt_uniform rect hw hh _ (c.b : Int)
      (fun x y hxy => by rw [mul_comm]; exact (h x y hxy).1)]

/-- The mean colour of a region of one colour is that colour, as long as 255
times the area fits in an `int`. -/
theorem mean_color_uniform (img : IplImage) (rect : CvRect)
    (hw : 0 < rect.width) (hh : 0 < rect.height)
    (hsize : 255 * (rect.width * rect.height) < 2147483648) (c : color)
    (h : ∀ x y, rect.contains x y →
      img.ucharAt y (3 * x) = (c.b : Int) ∧ img.ucharAt y (3 * x + 1) = (c.g : Int) ∧
        img.ucharAt y (3 * x + 2) = (c.r : Int)) :
    mean_color img rect = some c := by
  have hcorner : rect.contains rect.x rect.y := by
    unfold CvRect.contains; omega
  obtain ⟨hb, hg, hr⟩ := h _ _ hcorner
  have hnpos : 0 < rect.width * rect.height := mul_pos hw hh
  have hn : rect.width * rect.height ≠ 0 := ne_of_gt hnpos
  have hbl : c.b < 256 := by have := ucharAt_range img rect.y (3 * rect.x); omega
  have hgl : c.g < 256 := by have := ucharAt_range img rect.y (3 * rect.x + 1); omega
  have hrl : c.r < 256 := by have := ucharAt_range img rect.y (3 * rect.x + 2); omega
  have hwn : wrap_int (rect.width * rect.height) = rect.width * rect.height :=
    wrap_int_of_range _ (by omega) (by omega)
  have hwv : ∀ m : Nat, m < 256 →
      wrap_int (rect.width * rect.height * (m : Int)) = rect.width * rect.height * (m : Int) := by
    intro m hm
    have h1 : rect.width * rect.height * (m : Int) ≤ rect.width * rect.height * 255 :=
      mul_le_mul_of_nonneg_left (by omega) (le_of_lt hnpos)
    have h2 : 0 ≤ rect.width * rect.height * (m : Int) :=
      mul_nonneg (le_of_lt hnpos) (by omega)
    exact wrap_int_of_range _ (by omega) (by omega)
  rw [mean_color_uniform_wrap img rect hw hh c h, hwn, if_neg hn, hwv _ hbl, hwv _ hgl,
    hwv _ hrl, Int.mul_tdiv_cancel_left _ hn, Int.mul_tdiv_cancel_left _ hn,
    Int.mul_tdiv_cancel_left _ hn, to_uchar_natCast _ hbl, to_uchar_natCast _ hgl,
    to_uchar_natCast _ hrl]

/-- A region in which two pixels differ in some channel has a positive score. -/
theorem variance_pos (img : IplImage) (rect : CvRect)
    (hw : 0 < rect.width) (hh : 0 < rect.height) (c : Int) (hc : c = 0 ∨ c = 1 ∨ c = 2)
    (x y x' y' : Int) (hxy : rect.contains x y) (hxy' : rect.contains x' y')
    (hne : img.channel c x y ≠ img.channel c x' y') : 0 < variance img rect := by
  have hn : (0 : Rat) < ((rect.width * rect.height : Int) : Rat) := by
    exact_mod_cast mul_pos hw hh
  have hS : 0 < pixel_sum rect (fun x y => (img.channel c x y - channel_mean img rect c) ^ 2) := by
    by_cases hm : img.channel c x y = channel_mean img rect c
    · have hm' : img.channel c x' y' - channel_mean img rect c ≠ 0 := by
        rw [← hm]; exact sub_ne_zero.2 (Ne.symm hne)
      have hp : 0 < (img.channel c x' y' - channel_mean img rect c) ^ 2 := by positivity
      exact lt_of_lt_of_le hp
        (pixel_sum_le_of_mem rect (fun x y => (img.channel c x y - channel_mean img rect c) ^ 2)
          (fun _ _ => sq_nonneg _) x' y' hxy')
    · have hm' : img.channel c x y - channel_mean img rect c ≠ 0 := sub_ne_zero.2 hm
      have hp : 0 < (img.channel c x y - channel_mean img rect c) ^ 2 := by positivity
      exact lt_of_lt_of_le hp
        (pixel_sum_le_of_mem rect (fun x y => (img.channel c x y - channel_mean img rect c) ^ 2)
          (fun _ _ => sq_nonneg _) x y hxy)
  rw [variance_eq]
  apply div_pos _ hn
  rcases hc with rfl | rfl | rfl
  · exact lt_max_of_lt_left hS
  · exact lt_max_of_lt_right (lt_max_of_lt_left hS)
  · exact lt_max_of_lt_right (lt_max_of_lt_right hS)

/-- On a single leaf above the threshold with a positive score `split_once` splits the root. -/
theorem split_once_leaf (img : IplImage) (r : CvRect) (s : quadscore)
    (hbig : 16 < rect_size r) (hpos : 0 < s.var) :
    split_once (leaf r s) img = (0, split_node img (leaf r s)) := by
  have e : find_biggest (leaf r s) = some [] := by
    simp [find_biggest, find_biggest_dfs, leaf, quadnode_isleaf, quadnode.nonNull, hbig, score_lt,
      empty_score, hpos]
  rw [split_once_of_some img e, update_nil]

theorem quadrant_of_sub_rect (img : IplImage) (hw : 0 < img.width) (_hh : 0 < img.height)
    (hwe : img.width % 2 = 0) (hhe : img.height % 2 = 0) (i : Int) (h0 : 0 ≤ i) (h4 : i < 4)
    (x y : Int) (h : (sub_rect (get_rect img) i).contains x y) :
    0 ≤ x ∧ x < img.width ∧ 0 ≤ y ∧ y < img.height ∧
      quadrant_of img.width img.height x y = i := by
  have hi : i = 0 ∨ i = 1 ∨ i = 2 ∨ i = 3 := by omega
  unfold quadrant_of
  rcases hi with rfl | rfl | rfl | rfl
  · rw [sub_rect_0] at h
    simp only [CvRect.contains, get_rect] at h
    split_ifs <;> omega
  · rw [sub_rect_1] at h
    simp only [CvRect.contains, get_rect] at h
    split_ifs <;> omega
  · rw [sub_rect_2] at h
    simp only [CvRect.contains, get_rect] at h
    split_ifs <;> omega
  · rw [sub_rect_3] at h
    simp only [CvRect.contains, get_rect] at h
    split_ifs <;> omega

theorem sub_rect_pos (r : CvRect) (hw : 2 ≤ r.width) (hh : 2 ≤ r.height) (i : Int)
    (h0 : 0 ≤ i) (h4 : i < 4) : 0 < (sub_rect r i).width ∧ 0 < (sub_rect r i).height := by
  have hi : i = 0 ∨ i = 1 ∨ i = 2 ∨ i = 3 := by omega
  rcases hi with rfl | rfl | rfl | rfl
  · rw [sub_rect_0]; simp only; omega
  · rw [sub_rect_1]; simp only; omega
  · rw [sub_rect_2]; simp only; omega
  · rw [sub_rect_3]; simp only; omega

theorem color_ne_cases {c d : color} (h : c ≠ d) : c.b ≠ d.b ∨ c.g ≠ d.g ∨ c.r ≠ d.r := by
  by_contra hc
  push_neg at hc
  apply h
  cases c; cases d
  simp only [color.mk.injEq]
  simp only at hc
  exact ⟨hc.2.2, hc.2.1, hc.1⟩

theorem sub_rect_area_lt_index (r : CvRect) (hw : 0 ≤ r.width) (hh : 0 ≤ r.height)
    (hbig : 16 < rect_size r) (i : Int) (h0 : 0 ≤ i) (h4 : i < 4) :
    rect_size (sub_rect r i) < rect_size r := by
  have h := sub_rect_area_lt r hw hh hbig
  have hi : i = 0 ∨ i = 1 ∨ i = 2 ∨ i = 3 := by omega
  rcases hi with rfl | rfl | rfl | rfl
  · exact h.1.2
  · exact h.2.1.2
  · exact h.2.2.1.2
  · exact h.2.2.2.2

/-- An image of even width and height and of area above 16 whose four quadrants
are each of one colour, the four colours pairwise distinct, and small enough for
the sums of `mean_color` to stay in the range of `int`: the first `split_once`
on the scored root succeeds and gives the root four leaf children, the four
quadrants; `mean_color` of each child's rectangle is the colour of that
quadrant, and the score of each child is 0. -/
theorem four_quadrants_small (img : IplImage) (col : Int → color)
    (hw : 0 < img.width) (hh : 0 < img.height)
    (hwe : img.width % 2 = 0) (hhe : img.height % 2 = 0)
    (hbig : 16 < rect_size (get_rect img))
    (hsize : 255 * rect_size (get_rect img) < 2147483648)
    (hcol : ∀ x y, 0 ≤ x → x < img.width → 0 ≤ y → y < img.height →
      img.ucharAt y (3 * x) = ((col (quadrant_of img.width img.height x y)).b : Int) ∧
      img.ucharAt y (3 * x + 1) = ((col (quadrant_of img.width img.height x y)).g : Int) ∧
      img.ucharAt y (3 * x + 2) = ((col (quadrant_of img.width img.height x y)).r : Int))
    (hdist : ∀ i j : Int, 0 ≤ i → i < 4 → 0 ≤ j → j < 4 → i ≠ j → col i ≠ col j) :
    (split_once (main_root img) img).1 = 0 ∧
    (split_once (main_root img) img).2 =
      quadnode.node (get_rect img) (node_score img (get_rect img))
        (leaf (sub_rect (get_rect img) 0) { var := 0 })
        (leaf (sub_rect (get_rect img) 1) { var := 0 })
        (leaf (sub_rect (get_rect img) 2) { var := 0 })
        (leaf (sub_rect (get_rect img) 3) { var := 0 }) ∧
    ∀ i : Int, 0 ≤ i → i < 4 →
      mean_color img (sub_rect (get_rect img) i) = some (col i) ∧
      node_score img (sub_rect (get_rect img) i) = { var := 0 } := by
  have hW2 : 2 ≤ img.width := by omega
  have hH2 : 2 ≤ img.height := by omega
  -- the four children
  have hchild : ∀ i : Int, 0 ≤ i → i < 4 →
      mean_color img (sub_rect (get_rect img) i) = some (col i) ∧
      node_score img (sub_rect (get_rect img) i) = { var := 0 } := by
    intro i h0 h4
    obtain ⟨pw, ph⟩ := sub_rect_pos (get_rect img) hW2 hH2 i h0 h4
    have hq : ∀ x y, (sub_rect (get_rect img) i).contains x y →
        img.ucharAt y (3 * x) = ((col i).b : Int) ∧ img.ucharAt y (3 * x + 1) = ((col i).g : Int) ∧
          img.ucharAt y (3 * x + 2) = ((col i).r : Int) := by
      intro x y hxy
      obtain ⟨a, b, c, d, e⟩ := quadrant_of_sub_rect img hw hh hwe hhe i h0 h4 x y hxy
      have := hcol x y a b c d
      rw [e] at this
      exact this
    have hlt := sub_rect_area_lt_index (get_rect img) (le_of_lt hw) (le_of_lt hh) hbig i h0 h4
    have hsz : 255 * ((sub_rect (get_rect img) i).width * (sub_rect (get_rect img) i).height)
        < 2147483648 := by
      unfold rect_size at hlt hsize
      omega
    refine ⟨mean_color_uniform img _ pw ph hsz (col i) hq, ?_⟩
    have hv : variance img (sub_rect (get_rect img) i) = 0 :=
      variance_uniform img _ pw ph ((col i).b : Rat) ((col i).g : Rat) ((col i).r : Rat)
        (fun x y hxy => by
          simp only [IplImage.channel, add_zero, byteAt_eq_ucharAt, (hq x y hxy).1]
          norm_cast)
        (fun x y hxy => by
          simp only [IplImage.channel, byteAt_eq_ucharAt, (hq x y hxy).2.1]
          norm_cast)
        (fun x y hxy => by
          simp only [IplImage.channel, byteAt_eq_ucharAt, (hq x y hxy).2.2]
          norm_cast)
    simp only [node_score, hv]
  -- the root has a positive score
  have hp0 : (get_rect img).contains 0 0 := by
    simp only [CvRect.contains, get_rect]; omega
  have hp1 : (get_rect img).contains (img.width / 2) 0 := by
    simp only [CvRect.contains, get_rect]; omega
  have hq0 : quadrant_of img.width img.height 0 0 = 0 := by
    unfold quadrant_of; split_ifs <;> omega
  have hq1 : quadrant_of img.width img.height (img.width / 2) 0 = 1 := by
    unfold quadrant_of; split_ifs <;> omega
  have hc0 := hcol 0 0 (le_refl 0) hw (le_refl 0) hh
  have hc1 := hcol (img.width / 2) 0 (by omega) (by omega) (le_refl 0) hh
  rw [hq0] at hc0
  rw [hq1] at hc1
  have hpos : 0 < (node_score img (get_rect img)).var := by
    have hne := color_ne_cases (hdist 0 1 (by omega) (by omega) (by omega) (by omega) (by omega))
    rcases hne with hb | hg | hr
    · apply variance_pos img (get_rect img) hw hh 0 (Or.inl rfl) 0 0 (img.width / 2) 0 hp0 hp1
      simp only [IplImage.channel, add_zero, byteAt_eq_ucharAt, hc0.1, hc1.1]
      exact_mod_cast hb
    · apply variance_pos img (get_rect img) hw hh 1 (Or.inr (Or.inl rfl)) 0 0 (img.width / 2) 0
        hp0 hp1
      simp only [IplImage.channel, byteAt_eq_ucharAt, hc0.2.1, hc1.2.1]
      exact_mod_cast hg
    · apply variance_pos img (get_rect img) hw hh 2 (Or.inr (Or.inr rfl)) 0 0 (img.width / 2) 0
        hp0 hp1
      simp only [IplImage.channel, byteAt_eq_ucharAt, hc0.2.2, hc1.2.2]
      exact_mod_cast hr
  have hsplit := split_once_leaf img (get_rect img) (node_score img (get_rect img)) hbig hpos
  rw [main_root_eq, hsplit, split_node_leaf]
  refine ⟨rfl, ?_, hchild⟩
  simp only [(hchild 0 (by omega) (by omega)).2, (hchild 1 (by omega) (by omega)).2,
    (hchild 2 (by omega) (by omega)).2, (hchild 3 (by omega) (by omega)).2]

theorem quads8_colours :
    ∀ x y : Int, 0 ≤ x → x < quads8.width → 0 ≤ y → y < quads8.height →
      quads8.ucharAt y (3 * x) =
        ((quads8_colour (quadrant_of quads8.width quads8.height x y)).b : Int) ∧
      quads8.ucharAt y (3 * x + 1) =
        ((quads8_colour (quadrant_of quads8.width quads8.height x y)).g : Int) ∧
      quads8.ucharAt y (3 * x + 2) =
        ((quads8_colour (quadrant_of quads8.width quads8.height x y)).r : Int) := by
  intro x y hx0 hx8 hy0 hy8
  have hx8' : x < 8 := hx8
  have hy8' : y < 8 := hy8
  interval_cases x <;> interval_cases y <;> decide!

theorem quads8_distinct :
    ∀ i j : Int, 0 ≤ i → i < 4 → 0 ≤ j → j < 4 → i ≠ j → quads8_colour i ≠ quads8_colour j := by
  intro i j hi0 hi4 hj0 hj4 hij
  interval_cases i <;> interval_cases j <;>
    first
      | exact absurd rfl hij
      | decide

theorem four_quadrants_small_quads8 :
    0 < quads8.width ∧ 0 < quads8.height ∧ quads8.width % 2 = 0 ∧ quads8.height % 2 = 0 ∧
    16 < rect_size (get_rect quads8) ∧
    (split_once (main_root quads8) quads8).1 = 0 ∧
    (split_once (main_root quads8) quads8).2 =
      quadnode.node (get_rect quads8) (node_score quads8 (get_rect quads8))
        (leaf (sub_rect (get_rect quads8) 0) { var := 0 })
        (leaf (sub_rect (get_rect quads8) 1) { var := 0 })
        (leaf (sub_rect (get_rect quads8) 2) { var := 0 })
        (leaf (sub_rect (get_rect quads8) 3) { var := 0 }) ∧
    ∀ i : Int, 0 ≤ i → i < 4 →
      mean_color quads8 (sub_rect (get_rect quads8) i) = some (quads8_colour i) ∧
      node_score quads8 (sub_rect (get_rect quads8) i) = { var := 0 } :=
  ⟨by decide, by decide, by decide, by decide, by decide,
    four_quadrants_small quads8 quads8_colour (by decide) (by decide) (by decide) (by decide)
      (by decide) (by decide) quads8_colours quads8_distinct⟩

/-! ## Images too large for the `int` sums of `mean_color` -/

theorem getD_map_range {α : Type} (g : Nat → α) (n k : Nat) (d : α) (hk : k < n) :
    ((List.range n).map g).getD k d = g k := by
  rw [List.getD_eq_getElem?_getD, List.getElem?_map, List.getElem?_range hk]
  rfl

theorem quads_big_colour_lt (q : Int) (k : Nat) : (quads_big_colour q).chan k < 256 := by
  unfold quads_big_colour quads8_colour color.chan
  split_ifs <;> decide

/-- The bytes of `quads_big`: channel `c` of the pixel `(x, y)` is channel `c` of
the colour of the quadrant of `(x, y)`. -/
theorem quads_big_ucharAt (x y : Int) (c : Nat) (hc : c < 3)
    (hx0 : 0 ≤ x) (hx1 : x < 8192) (hy0 : 0 ≤ y) (hy1 : y < 4114) :
    quads_big.ucharAt y (3 * x + (c : Int)) =
      (((quads_big_colour (quadrant_of 8192 4114 x y)).chan c : Nat) : Int) := by
  have hk : (y * 24576 + (3 * x + (c : Int))).toNat < 4114 * 24576 := by omega
  have e1 : (y * 24576 + (3 * x + (c : Int))).toNat % 3 = c := by omega
  have e2 : (((y * 24576 + (3 * x + (c : Int))).toNat % 24576 / 3 : Nat) : Int) = x := by omega
  have e3 : (((y * 24576 + (3 * x + (c : Int))).toNat / 24576 : Nat) : Int) = y := by omega
  unfold IplImage.ucharAt quads_big
  simp only
  rw [getD_map_range _ _ _ _ hk, e1, e2, e3]
  have hlt := quads_big_colour_lt (quadrant_of 8192 4114 x y) c
  simp only [Fin.ofNat, Nat.mod_eq_of_lt hlt]

theorem quads_big_colours :
    ∀ x y : Int, 0 ≤ x → x < quads_big.width → 0 ≤ y → y < quads_big.height →
      quads_big.ucharAt y (3 * x) =
        ((quads_big_colour (quadrant_of quads_big.width quads_big.height x y)).b : Int) ∧
      quads_big.ucharAt y (3 * x + 1) =
        ((quads_big_colour (quadrant_of quads_big.width quads_big.height x y)).g : Int) ∧
      quads_big.ucharAt y (3 * x + 2) =
        ((quads_big_colour (quadrant_of quads_big.width quads_big.height x y)).r : Int) := by
  intro x y hx0 hx1 hy0 hy1
  have h0 := quads_big_ucharAt x y 0 (by omega) hx0 hx1 hy0 hy1
  have h1 := quads_big_ucharAt x y 1 (by omega) hx0 hx1 hy0 hy1
  have h2 := quads_big_ucharAt x y 2 (by omega) hx0 hx1 hy0 hy1
  simp only [Nat.cast_zero, add_zero, Nat.cast_one, Nat.cast_ofNat] at h0 h1 h2
  exact ⟨h0, h1, h2⟩

theorem quads_big_distinct :
    ∀ i j : Int, 0 ≤ i → i < 4 → 0 ≤ j → j < 4 → i ≠ j →
      quads_big_colour i ≠ quads_big_colour j := by
  intro i j hi0 hi4 hj0 hj4 hij
  interval_cases i <;> interval_cases j <;>
    first
      | exact absurd rfl hij
      | decide

/-- C14, the code at a failing input: the 8192×4114 image `quads_big` has even
width and height, an area above 16 and four quadrants of one colour each, the
four colours pairwise distinct; quadrant 0 is white, `(255, 255, 255)`, and has
4096 × 2057 = 8 425 472 pixels, so each `int` sum of `mean_color` over child 0
is 255 × 8 425 472 = 2 148 495 360, above 2^31 - 1: the sums wrap and
`mean_color` returns `(2, 2, 2)`, not the colour of the quadrant. -/
theorem quads_big_mean_color :
    0 < quads_big.width ∧ 0 < quads_big.height ∧
    quads_big.width % 2 = 0 ∧ quads_big.height % 2 = 0 ∧
    16 < rect_size (get_rect quads_big) ∧
    (∀ x y : Int, 0 ≤ x → x < quads_big.width → 0 ≤ y → y < quads_big.height →
      quads_big.ucharAt y (3 * x) =
        ((quads_big_colour (quadrant_of quads_big.width quads_big.height x y)).b : Int) ∧
      quads_big.ucharAt y (3 * x + 1) =
        ((quads_big_colour (quadrant_of quads_big.width quads_big.height x y)).g : Int) ∧
      quads_big.ucharAt y (3 * x + 2) =
        ((quads_big_colour (quadrant_of quads_big.width quads_big.height x y)).r : Int)) ∧
    (∀ i j : Int, 0 ≤ i → i < 4 → 0 ≤ j → j < 4 → i ≠ j →
      quads_big_colour i ≠ quads_big_colour j) ∧
    sub_rect (get_rect quads_big) 0 = ⟨0, 0, 4096, 2057⟩ ∧
    quads_big_colour 0 = { r := 255, g := 255, b := 255 } ∧
    mean_color quads_big (sub_rect (get_rect quads_big) 0) = some { r := 2, g := 2, b := 2 } := by
  have er : sub_rect (get_rect quads_big) 0 = ⟨0, 0, 4096, 2057⟩ := by
    rw [sub_rect_0]; rfl
  have hq : ∀ x y, CvRect.contains ⟨0, 0, 4096, 2057⟩ x y →
      quads_big.ucharAt y (3 * x) = (((⟨255, 255, 255⟩ : color).b : Nat) : Int) ∧
      quads_big.ucharAt y (3 * x + 1) = (((⟨255, 255, 255⟩ : color).g : Nat) : Int) ∧
      quads_big.ucharAt y (3 * x + 2) = (((⟨255, 255, 255⟩ : color).r : Nat) : Int) := by
    intro x y hxy
    simp only [CvRect.contains] at hxy
    have hquad : quadrant_of quads_big.width quads_big.height x y = 0 := by
      have ew : quads_big.width = 8192 := rfl
      have eh : quads_big.height = 4114 := rfl
      rw [ew, eh]
      unfold quadrant_of
      split_ifs <;> omega
    have h := quads_big_colours x y (by omega) (by show x < 8192; omega) (by omega)
      (by show y < 4114; omega)
    rw [hquad] at h
    exact h
  refine ⟨by decide, by decide, by decide, by decide, by decide, quads_big_colours,
    quads_big_distinct, er, rfl, ?_⟩
  rw [er, mean_color_uniform_wrap quads_big ⟨0, 0, 4096, 2057⟩ (by decide) (by decide)
    ⟨255, 255, 255⟩ hq]
  decide!

/-! ## The renderer -/

@[simp] theorem cvSet_roi_width (img : Raster) (roi : CvRect) (p : Pixel) :
    (cvSet_roi img roi p).width = img.width := rfl

@[simp] theorem cvSet_roi_height (img : Raster) (roi : CvRect) (p : Pixel) :
    (cvSet_roi img roi p).height = img.height := rfl

@[simp] theorem set_color_width (img : Raster) (roi : CvRect) (c : color) :
    (set_color img roi c).width = img.width := rfl

@[simp] theorem set_color_height (img : Raster) (roi : CvRect) (c : color) :
    (set_color img roi c).height = img.height := rfl

theorem set_color_pix (img : Raster) (roi : CvRect) (c : color) (x y : Int) :
    (set_color img roi c).pix x y =
      if set_color_touches img.width img.height roi x y = true then
        { c0 := c.b, c1 := c.g, c2 := c.r }
      else img.pix x y := by
  simp only [set_color, cvSet_roi, set_color_touches, decide_eq_true_eq]

/-- The call of `render` on a node that passes the leaf test. -/
theorem render_of_isleaf {r : CvRect} {s : quadscore} {c0 c1 c2 c3 : quadnode}
    (hl : quadnode_isleaf (quadnode.node r s c0 c1 c2 c3) = true) (src : IplImage)
    (out : Raster) :
    render (quadnode.node r s c0 c1 c2 c3) src out =
      (mean_color src r).map (fun c => set_color out r c) := by
  rw [render, if_pos hl]

theorem set_color_touches_iff (W H : Int) (roi : CvRect) (x y : Int) :
    set_color_touches W H roi x y = true ↔
      (roi.x + 1 ≤ x ∧ x < roi.x + roi.width ∧ roi.y + 1 ≤ y ∧ y < roi.y + roi.height ∧
        0 ≤ x ∧ x < W ∧ 0 ≤ y ∧ y < H) := by
  simp only [set_color_touches, decide_eq_true_eq]
  omega

theorem channel_total_bounds (img : IplImage) (rect : CvRect) (c : Int)
    (hw : 0 ≤ rect.width) (hh : 0 ≤ rect.height) :
    0 ≤ channel_total img rect c ∧
      channel_total img rect c ≤ 255 * (rect.width * rect.height) := by
  unfold channel_total
  constructor
  · exact Finset.sum_nonneg (fun y _ => Finset.sum_nonneg (fun x _ => (ucharAt_range img _ _).1))
  · have h1 : ∀ y ∈ Finset.Ico rect.y (rect.y + rect.height),
        ∑ x ∈ Finset.Ico rect.x (rect.x + rect.width), img.ucharAt y (3 * x + c)
          ≤ rect.width * 255 := by
      intro y _
      calc ∑ x ∈ Finset.Ico rect.x (rect.x + rect.width), img.ucharAt y (3 * x + c)
          ≤ ∑ _x ∈ Finset.Ico rect.x (rect.x + rect.width), (255 : Int) :=
            Finset.sum_le_sum (fun x _ => by have := (ucharAt_range img y (3 * x + c)).2; omega)
        _ = rect.width * 255 := by
            simp only [Finset.sum_const, Int.card_Ico, add_sub_cancel_left, nsmul_eq_mul]
            rw [Int.toNat_of_nonneg hw]
    calc ∑ y ∈ Finset.Ico rect.y (rect.y + rect.height),
          ∑ x ∈ Finset.Ico rect.x (rect.x + rect.width), img.ucharAt y (3 * x + c)
        ≤ ∑ _y ∈ Finset.Ico rect.y (rect.y + rect.height), rect.width * 255 :=
          Finset.sum_le_sum h1
      _ = 255 * (rect.width * rect.height) := by
          simp only [Finset.sum_const, Int.card_Ico, add_sub_cancel_left, nsmul_eq_mul]
          rw [Int.toNat_of_nonneg hh]
          ring

theorem floor_div_int (a n : Int) (hn : 0 < n) : ⌊((a : Int) : ℚ) / ((n : Int) : ℚ)⌋ = a / n := by
  have h := Rat.floor_intCast_div_natCast a n.toNat
  have e : ((n.toNat : Nat) : Int) = n := Int.toNat_of_nonneg (le_of_lt hn)
  have e' : ((n.toNat : Nat) : ℚ) = ((n : Int) : ℚ) := by exact_mod_cast e
  rw [e', e] at h
  exact h

theorem to_uchar_of_range (v : Int) (h0 : 0 ≤ v) (h1 : v < 256) : ((to_uchar v : Nat) : Int) = v := by
  unfold to_uchar
  omega

/-- The `int` sums of `mean_color` are the wrapped sums of the channels. -/
theorem sumOverInt_channel (img : IplImage) (rect : CvRect) :
    sumOverInt rect (fun y x => img.ucharAt y (x * 3)) = wrap_int (channel_total img rect 0) ∧
    sumOverInt rect (fun y x => img.ucharAt y (x * 3 + 1)) =
      wrap_int (channel_total img rect 1) ∧
    sumOverInt rect (fun y x => img.ucharAt y (x * 3 + 2)) =
      wrap_int (channel_total img rect 2) := by
  refine ⟨?_, ?_, ?_⟩
  · rw [sumOverInt_eq_sum]
    unfold channel_total
    congr 1
    refine Finset.sum_congr rfl (fun y _ => Finset.sum_congr rfl (fun x _ => ?_))
    rw [add_zero, mul_comm]
  · rw [sumOverInt_eq_sum]
    unfold channel_total
    congr 1
    refine Finset.sum_congr rfl (fun y _ => Finset.sum_congr rfl (fun x _ => ?_))
    rw [mul_comm]
  · rw [sumOverInt_eq_sum]
    unfold channel_total
    congr 1
    refine Finset.sum_congr rfl (fun y _ => Finset.sum_congr rfl (fun x _ => ?_))
    rw [mul_comm]

/-- On a rectangle of positive width and height, so small that 255 times its
area is below 2^31, `mean_color` returns, and each channel of the colour is the
floor of the sum of the channel over the rectangle divided by the area. -/
theorem mean_color_floor (img : IplImage) (rect : CvRect)
    (hw : 0 < rect.width) (hh : 0 < rect.height)
    (hsize : 255 * (rect.width * rect.height) < 2147483648) :
    ∃ c, mean_color img rect = some c ∧
      ((c.b : Nat) : Int) =
        ⌊((channel_total img rect 0 : Int) : ℚ) / ((rect.width * rect.height : Int) : ℚ)⌋ ∧
      ((c.g : Nat) : Int) =
        ⌊((channel_total img rect 1 : Int) : ℚ) / ((rect.width * rect.height : Int) : ℚ)⌋ ∧
      ((c.r : Nat) : Int) =
        ⌊((channel_total img rect 2 : Int) : ℚ) / ((rect.width * rect.height : Int) : ℚ)⌋ := by
  have hn : 0 < rect.width * rect.height := mul_pos hw hh
  have key : ∀ c : Int,
      ((to_uchar ((wrap_int (channel_total img rect c)).tdiv (rect.width * rect.height)) : Nat)
        : Int) =
      ⌊((channel_total img rect c : Int) : ℚ) / ((rect.width * rect.height : Int) : ℚ)⌋ := by
    intro c
    obtain ⟨b0, b1⟩ := channel_total_bounds img rect c (le_of_lt hw) (le_of_lt hh)
    rw [wrap_int_of_range _ (by omega) (by omega), floor_div_int _ _ hn,
      Int.tdiv_eq_ediv b0 (le_of_lt hn)]
    apply to_uchar_of_range
    · exact Int.ediv_nonneg b0 (le_of_lt hn)
    · have : channel_total img rect c / (rect.width * rect.height) ≤ 255 :=
        Int.ediv_le_of_le_mul hn b1
      omega
  obtain ⟨e0, e1, e2⟩ := sumOverInt_channel img rect
  have en : wrap_int (rect.width * rect.height) = rect.width * rect.height :=
    wrap_int_of_range _ (by omega) (by omega)
  unfold mean_color
  simp only [e0, e1, e2, en, if_neg (ne_of_gt hn)]
  exact ⟨_, rfl, key 0, key 1, key 2⟩

/-- The fill of `render` on a single-leaf tree over an N×M image with
`N, M ≥ 2` and fewer than 2^31 / 255 pixels, with an output raster of the same
size: `render` returns,
every pixel `(x, y)` with `x ≥ 1` and `y ≥ 1` gets, in each channel, the floor
of the sum of that channel of the source over the whole image divided by
`N * M`, and every pixel with `x = 0` or `y = 0` keeps the value it had. -/
theorem render_single_leaf_small (img : IplImage) (s : quadscore) (out : Raster)
    (hN : 2 ≤ img.width) (hM : 2 ≤ img.height)
    (hsize : 255 * (img.width * img.height) < 2147483648)
    (hW : out.width = img.width) (hH : out.height = img.height) :
    ∃ o, render (leaf (get_rect img) s) img out = some o ∧
      (∀ x y, 1 ≤ x → x < img.width → 1 ≤ y → y < img.height →
        (((o.pix x y).c0 : Nat) : Int) =
          ⌊((channel_total img (get_rect img) 0 : Int) : ℚ) /
            ((img.width * img.height : Int) : ℚ)⌋ ∧
        (((o.pix x y).c1 : Nat) : Int) =
          ⌊((channel_total img (get_rect img) 1 : Int) : ℚ) /
            ((img.width * img.height : Int) : ℚ)⌋ ∧
        (((o.pix x y).c2 : Nat) : Int) =
          ⌊((channel_total img (get_rect img) 2 : Int) : ℚ) /
            ((img.width * img.height : Int) : ℚ)⌋) ∧
      (∀ x y, x = 0 ∨ y = 0 → o.pix x y = out.pix x y) := by
  obtain ⟨c, hc, hm⟩ := mean_color_floor img (get_rect img) (by simp only [get_rect]; omega)
    (by simp only [get_rect]; omega) (by simp only [get_rect]; exact hsize)
  simp only [get_rect] at hm
  have hl : quadnode_isleaf (leaf (get_rect img) s) = true := rfl
  rw [leaf] at hl
  refine ⟨set_color out (get_rect img) c, ?_, ?_, ?_⟩
  · rw [leaf, render_of_isleaf hl, hc]
    rfl
  · intro x y hx1 hxN hy1 hyM
    have ht : set_color_touches out.width out.height (get_rect img) x y = true := by
      rw [set_color_touches_iff]
      simp only [get_rect]
      omega
    rw [set_color_pix, if_pos ht]
    exact hm
  · intro x y hxy
    have ht : ¬ set_color_touches out.width out.height (get_rect img) x y = true := by
      rw [set_color_touches_iff]
      simp only [get_rect]
      omega
    rw [set_color_pix, if_neg ht]

theorem render_single_leaf_small_dot5 :
    channel_total dot5 (get_rect dot5) 0 = 255 ∧
    ∃ o, render (main_root dot5) dot5 (plain5 9) = some o ∧
      (∀ x y, 1 ≤ x → x < dot5.width → 1 ≤ y → y < dot5.height →
        (((o.pix x y).c0 : Nat) : Int) =
          ⌊((channel_total dot5 (get_rect dot5) 0 : Int) : ℚ) /
            ((dot5.width * dot5.height : Int) : ℚ)⌋ ∧
        (((o.pix x y).c1 : Nat) : Int) =
          ⌊((channel_total dot5 (get_rect dot5) 1 : Int) : ℚ) /
            ((dot5.width * dot5.height : Int) : ℚ)⌋ ∧
        (((o.pix x y).c2 : Nat) : Int) =
          ⌊((channel_total dot5 (get_rect dot5) 2 : Int) : ℚ) /
            ((dot5.width * dot5.height : Int) : ℚ)⌋) ∧
      (∀ x y, x = 0 ∨ y = 0 → o.pix x y = (plain5 9).pix x y) :=
  ⟨by decide!,
    render_single_leaf_small dot5 (node_score dot5 (get_rect dot5)) (plain5 9) (by decide)
      (by decide) (by decide) rfl rfl⟩

/-- The bytes of `white_big`: every channel of every pixel is 255. -/
theorem white_big_ucharAt (x y c : Int) (hc0 : 0 ≤ c) (hc : c < 3)
    (hx0 : 0 ≤ x) (hx1 : x < 4096) (hy0 : 0 ≤ y) (hy1 : y < 2057) :
    white_big.ucharAt y (3 * x + c) = 255 := by
  have hk : (y * 12288 + (3 * x + c)).toNat < 2057 * 12288 := by omega
  unfold IplImage.ucharAt white_big
  simp only
  rw [getD_map_range _ _ _ _ hk]
  rfl

theorem white_big_channel_total (k : Int) (hk0 : 0 ≤ k) (hk : k < 3) :
    channel_total white_big ⟨0, 0, 4096, 2057⟩ k = 2148495360 := by
  unfold channel_total
  have h1 : ∀ y ∈ Finset.Ico (0 : Int) (0 + 2057),
      ∑ x ∈ Finset.Ico (0 : Int) (0 + 4096), white_big.ucharAt y (3 * x + k) = 1044480 := by
    intro y hy
    rw [Finset.mem_Ico] at hy
    have h2 : ∀ x ∈ Finset.Ico (0 : Int) (0 + 4096), white_big.ucharAt y (3 * x + k) = 255 := by
      intro x hx
      rw [Finset.mem_Ico] at hx
      exact white_big_ucharAt x y k hk0 hk hx.1 (by omega) hy.1 (by omega)
    rw [Finset.sum_congr rfl h2]
    simp only [Finset.sum_const, Int.card_Ico, add_sub_cancel_left, nsmul_eq_mul]
    rfl
  show ∑ y ∈ Finset.Ico (0 : Int) (0 + 2057),
    ∑ x ∈ Finset.Ico (0 : Int) (0 + 4096), white_big.ucharAt y (3 * x + k) = 2148495360
  rw [Finset.sum_congr rfl h1]
  simp only [Finset.sum_const, Int.card_Ico, add_sub_cancel_left, nsmul_eq_mul]
  rfl

/-- C15, the code at a failing input: `white_big` is a 4096×2057 image all of
whose bytes are 255, so in each channel the sum over the whole image is
255 × 8 425 472 = 2 148 495 360 and its quotient by `N * M` is 255; that sum is
above 2^31 - 1, the `int` sums of `mean_color` wrap to -2 146 471 936, and
`render` on the single-leaf tree covering the image writes `(2, 2, 2)`, not
`(255, 255, 255)`, into every pixel `(x, y)` with `x ≥ 1` and `y ≥ 1`, whatever
the output raster of the same size held before. -/
theorem white_big_render :
    1 ≤ white_big.width ∧ 1 ≤ white_big.height ∧
    get_rect white_big = ⟨0, 0, 4096, 2057⟩ ∧
    (∀ k : Int, 0 ≤ k → k < 3 →
      ⌊((channel_total white_big (get_rect white_big) k : Int) : ℚ) /
        ((white_big.width * white_big.height : Int) : ℚ)⌋ = 255) ∧
    (∀ (s : quadscore) (out : Raster),
      out.width = white_big.width → out.height = white_big.height →
      ∃ o, render (leaf (get_rect white_big) s) white_big out = some o ∧
        ∀ x y, 1 ≤ x → x < white_big.width → 1 ≤ y → y < white_big.height →
          o.pix x y = { c0 := 2, c1 := 2, c2 := 2 }) := by
  have er : get_rect white_big = ⟨0, 0, 4096, 2057⟩ := rfl
  have ew : white_big.width = 4096 := rfl
  have eh : white_big.height = 2057 := rfl
  refine ⟨by rw [ew]; decide, by rw [eh]; decide, er, ?_, ?_⟩
  · intro k hk0 hk
    rw [er, ew, eh, white_big_channel_total k hk0 hk,
      floor_div_int _ _ (by decide : (0 : Int) < 4096 * 2057)]
    decide
  · intro s out hW hH
    have hm : mean_color white_big ⟨0, 0, 4096, 2057⟩ = some { r := 2, g := 2, b := 2 } := by
      rw [mean_color_uniform_wrap white_big ⟨0, 0, 4096, 2057⟩ (by decide) (by decide)
        ⟨255, 255, 255⟩ ?_]
      · decide!
      · intro x y hc
        simp only [CvRect.contains] at hc
        have h0 := white_big_ucharAt x y 0 (by omega) (by omega) (by omega) (by omega)
          (by omega) (by omega)
        have h1 := white_big_ucharAt x y 1 (by omega) (by omega) (by omega) (by omega)
          (by omega) (by omega)
        have h2 := white_big_ucharAt x y 2 (by omega) (by omega) (by omega) (by omega)
          (by omega) (by omega)
        rw [add_zero] at h0
        exact ⟨h0, h1, h2⟩
    have hl : quadnode_isleaf (leaf (get_rect white_big) s) = true := rfl
    rw [leaf] at hl
    refine ⟨set_color out (get_rect white_big) { r := 2, g := 2, b := 2 }, ?_, ?_⟩
    · rw [leaf, render_of_isleaf hl, er, hm]
      rfl
    · intro x y hx1 hxN hy1 hyM
      rw [ew] at hxN
      rw [eh] at hyM
      have ht : set_color_touches out.width out.height (get_rect white_big) x y = true := by
        rw [set_color_touches_iff, hW, hH, ew, eh, er]
        simp only
        omega
      rw [set_color_pix, if_pos ht]

end QuadArt
